import Mathlib

/-
  Verification development for the Toolkit repository.

  The repository consists of three scripts:
    * tpc.py      — a structural rule auditor over a line-annotated XML tree,
    * fix_xml.py  — an auto-fixer applying a subset of the rules in place,
    * xmlsasd.py  — two PDF/XML text-reconciliation tools (a containment-mode
                    table in revision 1, and a difflib-alignment report).

  The XML trees produced by xml.etree.ElementTree are modelled by the `Elem`
  inductive below; Python strings are modelled by Lean `String` (sequences of
  characters), with the ASCII fragments of Python's character classes (`\s`,
  `\w`, `str.lower`, `str.strip`) spelled out explicitly.  The difflib line
  differ used by xmlsasd.py is embedded as well (SequenceMatcher and Differ);
  float similarity ratios are modelled by exact rationals.
-/

/-! ### Python character classes and string primitives -/

/-- Python's whitespace class `\s` restricted to ASCII: space, tab, newline,
carriage return, vertical tab, form feed. -/
def isPyWs (c : Char) : Bool :=
  c == ' ' || c == '\t' || c == '\n' || c == '\r' || c == '\x0b' || c == '\x0c'

/-- Python's word-character class `\w` restricted to ASCII: letters, digits
and underscore. -/
def isWordChar (c : Char) : Bool :=
  c.isAlpha || c.isDigit || c == '_'

/-- `str.strip()` on a character list: drop leading and trailing whitespace. -/
def pyStripL (l : List Char) : List Char :=
  ((l.dropWhile isPyWs).reverse.dropWhile isPyWs).reverse

/-- `str.strip()`. -/
def pyStrip (s : String) : String := ⟨pyStripL s.data⟩

/-- `str.lower()` (ASCII case folding). -/
def pyLower (s : String) : String := ⟨s.data.map Char.toLower⟩

/-- Body of `re.sub(r'\s+', ' ', s)`: each maximal run of whitespace becomes a
single space.  The fuel argument bounds the recursion and is instantiated with
the length of the list, which always suffices. -/
def collapseWsF : Nat → List Char → List Char
  | 0, l => l
  | _ + 1, [] => []
  | fuel + 1, c :: rest =>
    if isPyWs c then ' ' :: collapseWsF fuel (rest.dropWhile isPyWs)
    else c :: collapseWsF fuel rest

/-- `re.sub(r'\s+', ' ', s)`. -/
def collapseWs (s : String) : String := ⟨collapseWsF s.data.length s.data⟩

/-- The tail of a `(\w)-\s+(\w)` match attempt after its first word
character: a hyphen, one or more whitespace characters, and a second word
character; on success, that second word character and the remaining input. -/
def artifactSplit : List Char → Option (Char × List Char)
  | '-' :: rest2 =>
    if (rest2.takeWhile isPyWs).isEmpty then none
    else
      match rest2.dropWhile isPyWs with
      | b :: rest4 => if isWordChar b then some (b, rest4) else none
      | [] => none
  | _ => none

/-- Body of `re.sub(r'(\w)-\s+(\w)', r'\1\2', s)` (fix_xml.py line 119): a
left-to-right scan; at each position a match needs a word character followed
by an `artifactSplit` tail, and is replaced by the two word characters;
scanning resumes after the match.  The fuel argument bounds the recursion and
is instantiated with the length of the list, which always suffices. -/
def subHyphenF : Nat → List Char → List Char
  | 0, l => l
  | _ + 1, [] => []
  | fuel + 1, a :: rest =>
    if isWordChar a then
      match artifactSplit rest with
      | some (b, rest4) => a :: b :: subHyphenF fuel rest4
      | none => a :: subHyphenF fuel rest
    else a :: subHyphenF fuel rest

/-- `re.sub(r'(\w)-\s+(\w)', r'\1\2', s)`. -/
def pySubHyphen (s : String) : String := ⟨subHyphenF s.data.length s.data⟩

/-- `needle` occurs at the start of `hay`. -/
def startsWithL : List Char → List Char → Bool
  | _, [] => true
  | [], _ :: _ => false
  | h :: hs, n :: ns => h == n && startsWithL hs ns

/-- Python's substring test `needle in hay`. -/
def containsSeq : List Char → List Char → Bool
  | hay, needle =>
    startsWithL hay needle ||
      match hay with
      | [] => false
      | _ :: t => containsSeq t needle

/-- Python's substring test on strings. -/
def strContains (hay needle : String) : Bool := containsSeq hay.data needle.data

/-- Python string slicing `s[:n]`. -/
def strTake (n : Nat) (s : String) : String := ⟨s.data.take n⟩

/-! ### The document tree (xml.etree.ElementTree elements)

An element carries its tag, attribute mapping, direct text, child list, tail
text and the source line number attached by `LineNumberingParser` (absent on
elements synthesised by the fixer). -/

inductive Elem where
  | mk (tag : String) (attrib : List (String × String)) (text : Option String)
       (children : List Elem) (tail : Option String) (line : Option Nat)

def Elem.tag : Elem → String
  | .mk t _ _ _ _ _ => t

def Elem.attrib : Elem → List (String × String)
  | .mk _ a _ _ _ _ => a

def Elem.text : Elem → Option String
  | .mk _ _ x _ _ _ => x

def Elem.children : Elem → List Elem
  | .mk _ _ _ c _ _ => c

def Elem.tail : Elem → Option String
  | .mk _ _ _ _ tl _ => tl

def Elem.line : Elem → Option Nat
  | .mk _ _ _ _ _ ln => ln

/-- `elem.attrib` lookup: value of attribute `k`, if present. -/
def attrLookup (e : Elem) (k : String) : Option String :=
  (e.attrib.find? (fun p => p.1 == k)).map (fun p => p.2)

mutual
/-- `elem.iter()`: the element followed by its subelements in document
(pre-)order. -/
def Elem.iterL : Elem → List Elem
  | .mk t a x c tl ln => .mk t a x c tl ln :: iterLs c

def iterLs : List Elem → List Elem
  | [] => []
  | e :: es => e.iterL ++ iterLs es
end

mutual
/-- `"".join(elem.itertext())`: the element's direct text followed by each
child's flattened text and tail. -/
def Elem.itertext : Elem → String
  | .mk _ _ x c _ _ => (x.getD "") ++ itertextL c

def itertextL : List Elem → String
  | [] => ""
  | e :: es => e.itertext ++ (e.tail.getD "") ++ itertextL es
end

mutual
/-- `root.find(".//‥")` restricted to a Boolean node test: the first element
in document order of the forest's subtrees satisfying `p`. -/
def Elem.findFirstE (p : Elem → Bool) : Elem → Option Elem
  | .mk t a x c tl ln =>
    if p (.mk t a x c tl ln) then some (.mk t a x c tl ln)
    else findFirstL p c

def findFirstL (p : Elem → Bool) : List Elem → Option Elem
  | [] => none
  | e :: es =>
    match e.findFirstE p with
    | some r => some r
    | none => findFirstL p es
end

mutual
/-- In-place mutation of the first element in document order satisfying `p`:
returns the element as it was found together with the updated tree. -/
def Elem.updFirstE (p : Elem → Bool) (f : Elem → Elem) :
    Elem → Option (Elem × Elem)
  | .mk t a x c tl ln =>
    if p (.mk t a x c tl ln) then some (.mk t a x c tl ln, f (.mk t a x c tl ln))
    else
      match updFirstL p f c with
      | some (orig, c') => some (orig, .mk t a x c' tl ln)
      | none => none

def updFirstL (p : Elem → Bool) (f : Elem → Elem) :
    List Elem → Option (Elem × List Elem)
  | [] => none
  | e :: es =>
    match e.updFirstE p f with
    | some (orig, e') => some (orig, e' :: es)
    | none =>
      match updFirstL p f es with
      | some (orig, es') => some (orig, e :: es')
      | none => none
end

/-- `"".join(elem.itertext()).strip()`, the context string of a report. -/
def Elem.fullText (e : Elem) : String := pyStrip e.itertext

/-! ### tpc.py — the AEM specification audit -/

/-- One reported violation: the arguments of a `print_aem_violation` call. -/
structure AuditViolation where
  tag : String
  line : Option Nat
  context : String
  violation : String
  fix : String
  specRef : String
deriving DecidableEq

/-- The `aem_rules` registry of tpc.py lines 82–94: tag to (mandatory
attributes, spec reference). -/
def aemRules : List (String × List String × String) :=
  [ ("article", ["article-type"], "Article-type"),
    ("article-id", ["pub-id-type"], "JATS: article-id"),
    ("book-id", ["pub-id-type"], "BITS: book-id"),
    ("contrib", ["contrib-type"], "Contributors"),
    ("publisher-loc", [], "Publisher"),
    ("table-wrap", ["id", "position"], "Tables"),
    ("fig", ["id", "position"], "Figures"),
    ("graphic", ["xlink:href"], "Figures"),
    ("ext-link", ["xlink:href", "ext-link-type"], "External References"),
    ("disp-formula", ["id"], "Math Equations"),
    ("inline-formula", ["id"], "Math Equations") ]

/-- `aem_rules[tag]` dictionary lookup. -/
def rulesLookup (tag : String) : Option (List String × String) :=
  (aemRules.find? (fun r => r.1 == tag)).map (fun r => r.2)

def missingAttrMsg (attr : String) : String :=
  "Missing mandatory attribute: '" ++ attr ++ "'"

def missingAttrFix (attr name : String) : String :=
  "Add " ++ attr ++ " to follow " ++ name ++ " guidelines."

/-- `list(elem)` has exactly one child and it is a `<bold>` element. -/
def singleBoldChild (e : Elem) : Bool :=
  match e.children with
  | [b] => b.tag == "bold"
  | _ => false

/-- The checks applied to a single visited element by `run_aem_audit`
(tpc.py lines 96–137), in source order: mandatory-attribute registry check,
BITS publisher-location check, uniform-bold-in-title check, formula-id
check. -/
def auditNode (isBits : Bool) (e : Elem) : List AuditViolation :=
  let ctx := e.fullText
  (match rulesLookup e.tag with
   | some (attrs, name) =>
     attrs.filterMap (fun attr =>
       if (attrLookup e attr).isNone then
         some ⟨e.tag, e.line, ctx, missingAttrMsg attr, missingAttrFix attr name, name⟩
       else none)
   | none => []) ++
  (if isBits && e.tag == "publisher"
      && !(e.children.any (fun ch => ch.tag == "publisher-loc")) then
     [⟨e.tag, e.line, ctx, "Missing <publisher-loc>",
       "Spec Rule: <publisher-loc> is mandatory in BITS. Use 'Washington DC' for gov-based if unknown.",
       "Publisher"⟩]
   else []) ++
  (if (e.tag == "title" || e.tag == "article-title" || e.tag == "book-title")
      && singleBoldChild e then
     [⟨e.tag, e.line, ctx, "Uniform Bold Emphasis found in Title",
       "Spec Rule: Remove uniform emphasis in titles unless it provides additional meaning.",
       "Emphasis"⟩]
   else []) ++
  (if (e.tag == "disp-formula" || e.tag == "inline-formula")
      && (attrLookup e "id").isNone then
     [⟨e.tag, e.line, ctx, "Math Equation missing ID",
       "Spec Rule: 'id' is mandatory for linking to <xref> pointers.",
       "Math Equations"⟩]
   else [])

/-- `run_aem_audit`: the ordered violation reports of one full audit pass
over `root.iter()`. -/
def runAemAudit (isBits : Bool) (root : Elem) : List AuditViolation :=
  (Elem.iterL root).flatMap (auditNode isBits)

/-! ### fix_xml.py — the auto-fixer -/

/-- The `<publisher-loc>` element synthesised by the publisher rule. -/
def newLocElem : Elem :=
  .mk "publisher-loc" [] (some "Washington DC") [] none none

/-- The `<article-id pub-id-type="nces">2021-126</article-id>` element
synthesised by the front-matter rule. -/
def ncesElem : Elem :=
  .mk "article-id" [("pub-id-type", "nces")] (some "2021-126") [] none none

def isArticleMeta (e : Elem) : Bool := e.tag == "article-meta"

def isBookMeta (e : Elem) : Bool := e.tag == "book-meta"

/-- `article_meta.find("./article-id[@pub-id-type='nces']") is not None`. -/
def hasNcesChild (m : Elem) : Bool :=
  m.children.any (fun ch =>
    ch.tag == "article-id" && attrLookup ch "pub-id-type" == some "nces")

/-- `article_meta.insert(0, new_id)` when the identifier is absent. -/
def addNces (m : Elem) : Elem :=
  if hasNcesChild m then m
  else
    match m with
    | .mk t a x c tl ln => .mk t a x (ncesElem :: c) tl ln

def Elem.withChildren : Elem → List Elem → Elem
  | .mk t a x _ tl ln, c => .mk t a x c tl ln

/-- The metadata element selected by
`root.find(".//article-meta") or root.find(".//book-meta")` (fix_xml.py line
85).  A found element is falsy when it has no children, in which case the
`or` moves on to the book-meta lookup. -/
def frontMeta (root : Elem) : Option Elem :=
  match findFirstL isArticleMeta root.children with
  | some m =>
    if m.children.isEmpty then findFirstL isBookMeta root.children else some m
  | none => findFirstL isBookMeta root.children

/-- Insert the NCES identifier into the first element matched by `p` when it
lacks one, reporting the applied fix count. -/
def frontInsertAt (p : Elem → Bool) (root : Elem) : Elem × Nat :=
  match updFirstL p addNces root.children with
  | none => (root, 0)
  | some (orig, cs) =>
    if hasNcesChild orig then (root, 0) else (root.withChildren cs, 1)

/-- The front-matter NCES check of `run_aem_fixer` (fix_xml.py lines 84–93),
run before the tree iteration. -/
def runFrontFix (root : Elem) : Elem × Nat :=
  match findFirstL isArticleMeta root.children with
  | some m =>
    if m.children.isEmpty then frontInsertAt isBookMeta root
    else frontInsertAt isArticleMeta root
  | none => frontInsertAt isBookMeta root

/-- The soft-hyphen rule of `run_aem_fixer` (fix_xml.py lines 117–123) on a
node's direct text: applied only when the text is truthy, and counted only
when the substitution changes it. -/
def hyphenFix : Option String → Option String × Nat
  | none => (none, 0)
  | some t =>
    if t == "" then (some t, 0)
    else
      let cleaned := pySubHyphen t
      if cleaned != t then (some cleaned, 1) else (some t, 0)

mutual
/-- The tree-iteration stage of `run_aem_fixer` (fix_xml.py lines 96–127):
publisher-location insertion, uniform-bold stripping and soft-hyphen
normalisation, applied to the visited element before descending into its
(possibly just mutated) children.  In the publisher branch the synthesised
`<publisher-loc>` child is also visited by the ongoing iteration, but it
matches no rule and is left unchanged with fix count 0 (theorem
`fixTree_newLocElem`), so it is adjoined after the recursion over the
original children. -/
def fixTree : Elem → Elem × Nat
  | .mk t a x c tl ln =>
    if t == "publisher" && !(c.any (fun ch => ch.tag == "publisher-loc")) then
      let xr := hyphenFix x
      let cr := fixForest c
      (.mk t a xr.1 (cr.1 ++ [newLocElem]) tl ln, 1 + xr.2 + cr.2)
    else if (t == "title" || t == "article-title")
        && singleBoldChild (.mk t a x c tl ln) then
      match c with
      | b :: _ =>
        let xr := hyphenFix b.text
        (.mk t a xr.1 [] tl ln, 1 + xr.2)
      | [] => (.mk t a x c tl ln, 0)
    else
      let xr := hyphenFix x
      let cr := fixForest c
      (.mk t a xr.1 cr.1 tl ln, xr.2 + cr.2)

def fixForest : List Elem → List Elem × Nat
  | [] => ([], 0)
  | e :: es =>
    let r := fixTree e
    let rs := fixForest es
    (r.1 :: rs.1, r.2 + rs.2)
end

/-- `run_aem_fixer` without the optional PDF comparison: the front-matter
check followed by the mutating tree iteration, returning the mutated tree
and the total number of applied fixes (`violation_count`). -/
def runAemFixer (root : Elem) : Elem × Nat :=
  let fr := runFrontFix root
  let it := fixTree fr.1
  (it.1, fr.2 + it.2)

/-- `save_fixed_copy` target path (fix_xml.py lines 56–64): the audited
directory joined with the source stem, the `_FIXED` marker and the source
suffix. -/
def savedPath (stem suffix : String) : String :=
  "files/audited/" ++ stem ++ "_FIXED" ++ suffix

/-- The write effect of `run_aem_fixer` (fix_xml.py lines 142–145): the
fixed tree is serialised to the derived path exactly when at least one fix
was applied; otherwise no file is produced. -/
def fixerOutput (stem suffix : String) (root : Elem) : Option (String × Elem) :=
  let r := runAemFixer root
  if r.2 > 0 then some (savedPath stem suffix, r.1) else none

/-! ### xmlsasd.py (revision 1) — extraction and containment-mode table -/

/-- `clean_text`: collapse whitespace runs and strip. -/
def clean_text (s : String) : String := pyStrip (collapseWs s)

/-- The `content_tags` set of `extract_xml_paragraphs`. -/
def contentTags : List String :=
  ["p", "article-title", "title", "td", "term", "def", "abstract"]

/-- `extract_xml_paragraphs` (revision-1 xmlsasd.py lines 29–44): for each
element of `root.iter()` whose tag is content-bearing, the cleaned flattened
text, kept only when longer than 20 characters. -/
def extract_xml_paragraphs (root : Elem) : List String :=
  (Elem.iterL root).filterMap (fun e =>
    if contentTags.contains e.tag then
      let cleanP := clean_text e.itertext
      if cleanP.length > 20 then some cleanP else none
    else none)

/-- Classification outcomes of the reconciliation engine. -/
inductive RecStatus where
  | matched
  | missingFromXml
  | extraInXml
deriving DecidableEq

/-- The per-paragraph match test of `draw_table` (revision-1 xmlsasd.py lines
62–69): the first 60 characters of the lowercased PDF paragraph occur as a
substring of some (individually lowercased) XML pool entry. -/
def containmentMatch (xmlPool : List String) (para : String) : Bool :=
  (xmlPool.map pyLower).any (fun x => strContains x (strTake 60 (pyLower para)))

/-- The containment-mode classification of one PDF paragraph. -/
def containmentStatus (xmlPool : List String) (para : String) : RecStatus :=
  if containmentMatch xmlPool para then .matched else .missingFromXml

/-- The rows of the `draw_table` report, one per PDF paragraph in order. -/
def drawTableRows (pdfParas xmlPool : List String) : List (String × RecStatus) :=
  pdfParas.map (fun para => (para, containmentStatus xmlPool para))

/-- The footer summary of `draw_table` (lines 82–87): matched count, total
count, and the match percentage (a float in the source, here exact). -/
def drawTableSummary (pdfParas xmlPool : List String) : Nat × Nat × ℚ :=
  let found := (pdfParas.filter (fun p => containmentMatch xmlPool p)).length
  let total := pdfParas.length
  (found, total, if pdfParas.isEmpty then 0 else (found : ℚ) / (total : ℚ) * 100)

/-! ### xmlsasd.py (alignment revision) — sentence extraction -/

/-- The `content_tags` set of `extract_xml_text`. -/
def contentTags2 : List String :=
  ["article-title", "book-title", "subtitle", "p", "title", "label", "td",
   "term", "def"]

/-- The text fragments collected by `extract_xml_text` (alignment-revision
xmlsasd.py lines 25–36): only the direct text and the tail of content-bearing
elements, each stripped, kept when nonempty. -/
def xmlTextParts (root : Elem) : List String :=
  (Elem.iterL root).flatMap (fun e =>
    if contentTags2.contains e.tag then
      (match e.text with
       | some t => if pyStrip t == "" then [] else [pyStrip t]
       | none => []) ++
      (match e.tail with
       | some t => if pyStrip t == "" then [] else [pyStrip t]
       | none => [])
    else [])

/-- `extract_xml_text`: the collected fragments joined by single spaces and
cleaned. -/
def extract_xml_text (root : Elem) : String :=
  clean_text (String.intercalate " " (xmlTextParts root))

/-! ### difflib — SequenceMatcher

A faithful embedding of CPython's `difflib.SequenceMatcher`, generic in the
element type.  Dictionaries become association lists; the float similarity
ratios become exact rationals.  `isbjunk` membership in the junk-key set is
modelled by the junk predicate itself, which agrees with CPython whenever it
is applied to an element of `b` (the only way the algorithm uses it). -/

/-- `b2j.setdefault(elt, []).append(i)`. -/
def b2jInsert [BEq α] : List (α × List Nat) → α → Nat → List (α × List Nat)
  | [], k, i => [(k, [i])]
  | (k', is) :: rest, k, i =>
    if k' == k then (k', is ++ [i]) :: rest else (k', is) :: b2jInsert rest k i

/-- The raw `b2j` index of `__chain_b`: element to ascending occurrence
positions in `b`. -/
def b2jRaw [BEq α] (b : List α) : List (α × List Nat) :=
  b.enum.foldl (fun m p => b2jInsert m p.2 p.1) []

/-- Purge junk keys, then purge popular keys when `len(b) >= 200`
(`autojunk` is left at its default `True` by every caller in the scripts). -/
def mkB2j [BEq α] (isjunk : α → Bool) (b : List α) : List (α × List Nat) :=
  let filtered := (b2jRaw b).filter (fun p => !isjunk p.1)
  if b.length ≥ 200 then
    filtered.filter (fun p => !(p.2.length > b.length / 100 + 1))
  else filtered

/-- `b2j.get(x, [])`. -/
def b2jGet [BEq α] (m : List (α × List Nat)) (k : α) : List Nat :=
  match m.find? (fun p => p.1 == k) with
  | some p => p.2
  | none => []

/-- A `Match(a=i, b=j, size)` triple of `find_longest_match`. -/
structure FlmBest where
  i : Nat
  j : Nat
  size : Nat
deriving DecidableEq

/-- `j2len.get(j, 0)`. -/
def j2lenGet (m : List (Nat × Nat)) (j : Nat) : Nat :=
  match m.find? (fun p => p.1 == j) with
  | some p => p.2
  | none => 0

/-- `newj2len[j] = k`. -/
def j2lenSet : List (Nat × Nat) → Nat → Nat → List (Nat × Nat)
  | [], j, k => [(j, k)]
  | (j', k') :: rest, j, k =>
    if j' == j then (j, k) :: rest else (j', k') :: j2lenSet rest j k

/-- The inner loop of `find_longest_match` over the occurrence list of
`a[i]`: positions below `blo` are skipped, the ascending list is abandoned at
the first position at or above `bhi`, and each surviving position extends the
chain ending at `j-1` in the previous row (at `j = 0` the Python lookup is
`j2len.get(-1, 0)`, which always misses). -/
def flmJs (blo bhi i : Nat) (j2len : List (Nat × Nat)) :
    List Nat → List (Nat × Nat) → FlmBest → List (Nat × Nat) × FlmBest
  | [], nj, best => (nj, best)
  | j :: js, nj, best =>
    if j < blo then flmJs blo bhi i j2len js nj best
    else if bhi ≤ j then (nj, best)
    else
      let k := (if j = 0 then 0 else j2lenGet j2len (j - 1)) + 1
      let nj' := j2lenSet nj j k
      let best' := if k > best.size then FlmBest.mk (i + 1 - k) (j + 1 - k) k else best
      flmJs blo bhi i j2len js nj' best'

/-- The outer loop of `find_longest_match` over `range(alo, ahi)`. -/
def flmRows [BEq α] [Inhabited α] (a : List α) (b2j : List (α × List Nat))
    (blo bhi : Nat) : List Nat → List (Nat × Nat) → FlmBest → FlmBest
  | [], _, best => best
  | i :: is, j2len, best =>
    let r := flmJs blo bhi i j2len (b2jGet b2j (a.getD i default)) [] best
    flmRows a b2j blo bhi is r.1 r.2

/-- One of the `while` extension loops of `find_longest_match` growing the
match to the left; the fuel is instantiated with the current `besti`, which
bounds the number of decrements. -/
def extLeftF (cond : Nat → Nat → Bool) (alo blo : Nat) :
    Nat → FlmBest → FlmBest
  | 0, best => best
  | fuel + 1, best =>
    if alo < best.i && blo < best.j && cond (best.i - 1) (best.j - 1) then
      extLeftF cond alo blo fuel ⟨best.i - 1, best.j - 1, best.size + 1⟩
    else best

/-- One of the `while` extension loops of `find_longest_match` growing the
match to the right; the fuel is instantiated with `ahi`, which bounds the
number of increments. -/
def extRightF (cond : Nat → Nat → Bool) (ahi bhi : Nat) :
    Nat → FlmBest → FlmBest
  | 0, best => best
  | fuel + 1, best =>
    if best.i + best.size < ahi && best.j + best.size < bhi
        && cond (best.i + best.size) (best.j + best.size) then
      extRightF cond ahi bhi fuel ⟨best.i, best.j, best.size + 1⟩
    else best

/-- `find_longest_match(alo, ahi, blo, bhi)`: the dynamic-programming scan
followed by the four extension loops (non-junk first, then junk). -/
def findLongestMatch [BEq α] [Inhabited α] (isjunk : α → Bool)
    (a b : List α) (b2j : List (α × List Nat)) (alo ahi blo bhi : Nat) :
    FlmBest :=
  let eqAt := fun i j => a.getD i default == b.getD j default
  let junkAt := fun j => isjunk (b.getD j default)
  let best0 := flmRows a b2j blo bhi (List.range' alo (ahi - alo)) [] ⟨alo, blo, 0⟩
  let e1 := extLeftF (fun i j => !junkAt j && eqAt i j) alo blo best0.i best0
  let e2 := extRightF (fun i j => !junkAt j && eqAt i j) ahi bhi ahi e1
  let e3 := extLeftF (fun i j => junkAt j && eqAt i j) alo blo e2.i e2
  extRightF (fun i j => junkAt j && eqAt i j) ahi bhi ahi e3

/-- The recursive block collection of `get_matching_blocks`.  CPython keeps a
LIFO work queue and sorts the collected blocks afterwards; the in-order
recursion below produces that sorted list directly, since the blocks found in
the left region precede the middle block, which precedes those of the right
region.  The fuel bounds the recursion depth and is instantiated with
`a.length + b.length + 1`, which always suffices. -/
def matchingBlocksF (flm : Nat → Nat → Nat → Nat → FlmBest) :
    Nat → Nat → Nat → Nat → Nat → List FlmBest
  | 0, _, _, _, _ => []
  | fuel + 1, alo, ahi, blo, bhi =>
    let m := flm alo ahi blo bhi
    if m.size = 0 then []
    else
      (if alo < m.i && blo < m.j then matchingBlocksF flm fuel alo m.i blo m.j
       else []) ++
      [m] ++
      (if m.i + m.size < ahi && m.j + m.size < bhi then
         matchingBlocksF flm fuel (m.i + m.size) ahi (m.j + m.size) bhi
       else [])

/-- The adjacent-block collapsing pass of `get_matching_blocks`, with the
running block `(i1, j1, k1)` as state (initially `(0, 0, 0)`). -/
def mergeAdjacent : List FlmBest → Nat → Nat → Nat → List FlmBest
  | [], i1, j1, k1 => if k1 ≠ 0 then [⟨i1, j1, k1⟩] else []
  | m :: rest, i1, j1, k1 =>
    if i1 + k1 == m.i && j1 + k1 == m.j then mergeAdjacent rest i1 j1 (k1 + m.size)
    else
      (if k1 ≠ 0 then [⟨i1, j1, k1⟩] else []) ++ mergeAdjacent rest m.i m.j m.size

/-- `get_matching_blocks()`: recursive collection, collapse, and the
`(len(a), len(b), 0)` sentinel. -/
def getMatchingBlocks [BEq α] [Inhabited α] (isjunk : α → Bool)
    (a b : List α) : List FlmBest :=
  let b2j := mkB2j isjunk b
  let flm := fun alo ahi blo bhi => findLongestMatch isjunk a b b2j alo ahi blo bhi
  mergeAdjacent (matchingBlocksF flm (a.length + b.length + 1) 0 a.length 0 b.length)
      0 0 0
    ++ [⟨a.length, b.length, 0⟩]

inductive OpTag where
  | replace
  | delete
  | insert
  | equal
deriving DecidableEq

/-- A `get_opcodes()` entry `(tag, a1, a2, b1, b2)`. -/
structure Opcode where
  tag : OpTag
  a1 : Nat
  a2 : Nat
  b1 : Nat
  b2 : Nat
deriving DecidableEq

/-- The loop body of `get_opcodes()` over the matching blocks, with the
`(i, j)` cursor as state. -/
def opcodesOfBlocks : List FlmBest → Nat → Nat → List Opcode
  | [], _, _ => []
  | m :: rest, i, j =>
    (if i < m.i && j < m.j then [⟨.replace, i, m.i, j, m.j⟩]
     else if i < m.i then [⟨.delete, i, m.i, j, m.j⟩]
     else if j < m.j then [⟨.insert, i, m.i, j, m.j⟩]
     else []) ++
    (if m.size ≠ 0 then [⟨.equal, m.i, m.i + m.size, m.j, m.j + m.size⟩] else []) ++
    opcodesOfBlocks rest (m.i + m.size) (m.j + m.size)

/-- `get_opcodes()`. -/
def getOpcodes [BEq α] [Inhabited α] (isjunk : α → Bool) (a b : List α) :
    List Opcode :=
  opcodesOfBlocks (getMatchingBlocks isjunk a b) 0 0

/-- `_calculate_ratio` (a float `2.0 * matches / length` in the source,
modelled exactly). -/
def calcRatio (numMatches length : Nat) : ℚ :=
  if length ≠ 0 then 2 * (numMatches : ℚ) / (length : ℚ) else 1

/-- `SequenceMatcher.ratio()`. -/
def smRatio [BEq α] [Inhabited α] (isjunk : α → Bool) (a b : List α) : ℚ :=
  calcRatio ((getMatchingBlocks isjunk a b).map (fun m => m.size)).sum
    (a.length + b.length)

/-- `fullbcount.get(elt, 0)`: occurrence count in `b`. -/
def countOcc [BEq α] (l : List α) (x : α) : Nat := (l.filter (fun y => y == x)).length

def availSet [BEq α] : List (α × Int) → α → Int → List (α × Int)
  | [], k, v => [(k, v)]
  | (k', v') :: rest, k, v =>
    if k' == k then (k, v) :: rest else (k', v') :: availSet rest k v

/-- `avail[elt]` when present, else `fullbcount.get(elt, 0)`. -/
def quickAvail [BEq α] (b : List α) (avail : List (α × Int)) (x : α) : Int :=
  match avail.find? (fun p => p.1 == x) with
  | some p => p.2
  | none => (countOcc b x : Int)

/-- The multiset-intersection loop of `quick_ratio()`. -/
def quickRatioGo [BEq α] (b : List α) :
    List α → List (α × Int) → Nat → Nat
  | [], _, acc => acc
  | x :: rest, avail, acc =>
    quickRatioGo b rest (availSet avail x (quickAvail b avail x - 1))
      (if (0 : Int) < quickAvail b avail x then acc + 1 else acc)

/-- `SequenceMatcher.quick_ratio()`. -/
def smQuickRatio [BEq α] (a b : List α) : ℚ :=
  calcRatio (quickRatioGo b a [] 0) (a.length + b.length)

/-- `SequenceMatcher.real_quick_ratio()`. -/
def smRealQuickRatio (la lb : Nat) : ℚ := calcRatio (min la lb) (la + lb)

/-! ### difflib — Differ

`Differ()` as constructed by `draw_comparison_graph`: `linejunk=None`,
`charjunk=IS_CHARACTER_JUNK`. -/

/-- `IS_CHARACTER_JUNK`: blank or tab. -/
def isCharJunk (c : Char) : Bool := c == ' ' || c == '\t'

/-- `_dump(tag, x, lo, hi)`: one `'%s %s' % (tag, x[i])` line per position. -/
def dumpLines (tagC : Char) (x : List String) (lo hi : Nat) : List String :=
  (List.range' lo (hi - lo)).map (fun i => String.mk [tagC, ' '] ++ x.getD i "")

/-- `_plain_replace`: dump the shorter block first. -/
def plainReplace (a : List String) (alo ahi : Nat) (b : List String)
    (blo bhi : Nat) : List String :=
  if bhi - blo < ahi - alo then dumpLines '+' b blo bhi ++ dumpLines '-' a alo ahi
  else dumpLines '-' a alo ahi ++ dumpLines '+' b blo bhi

/-- `_keep_original_ws`. -/
def keepOriginalWs : List Char → List Char → List Char
  | _, [] => []
  | [], _ :: _ => []
  | c :: cs, tc :: tcs =>
    (if tc == ' ' && isPyWs c then c else tc) :: keepOriginalWs cs tcs

/-- `str.rstrip()`. -/
def pyRstrip (l : List Char) : List Char := (l.reverse.dropWhile isPyWs).reverse

/-- `_qformat`: the `'- '`, `'? '`, `'+ '`, `'? '` quad for a synch pair,
with the guide lines omitted when their tags strip to nothing. -/
def qformat (aline bline atags btags : String) : List String :=
  let at2 := pyRstrip (keepOriginalWs aline.data atags.data)
  let bt2 := pyRstrip (keepOriginalWs bline.data btags.data)
  ["- " ++ aline] ++
  (if at2.isEmpty then [] else ["? " ++ String.mk at2 ++ "\n"]) ++
  ["+ " ++ bline] ++
  (if bt2.isEmpty then [] else ["? " ++ String.mk bt2 ++ "\n"])

/-- The intraline `'^'`/`'-'`/`'+'`/`' '` tag strings accumulated from the
character-level opcodes in `_fancy_replace`. -/
def intralineTags (ops : List Opcode) : String × String :=
  ops.foldl (fun acc op =>
    match op.tag with
    | .replace => (acc.1 ++ String.mk (List.replicate (op.a2 - op.a1) '^'),
                   acc.2 ++ String.mk (List.replicate (op.b2 - op.b1) '^'))
    | .delete => (acc.1 ++ String.mk (List.replicate (op.a2 - op.a1) '-'), acc.2)
    | .insert => (acc.1, acc.2 ++ String.mk (List.replicate (op.b2 - op.b1) '+'))
    | .equal => (acc.1 ++ String.mk (List.replicate (op.a2 - op.a1) ' '),
                 acc.2 ++ String.mk (List.replicate (op.b2 - op.b1) ' '))) ("", "")

/-- The scan state of `_fancy_replace`: the best similarity ratio seen so far
(initially `0.74`), its indices, and the first identical pair. -/
structure FancyScan where
  bestRatio : ℚ
  best : Option (Nat × Nat)
  eqPair : Option (Nat × Nat)
deriving DecidableEq

/-- One step of the `_fancy_replace` scan at pair `(j, i)`: identical lines
only record the first equal pair, other lines update the best ratio when all
three similarity bounds exceed it. -/
def fancyScanStep (a b : List String) (st : FancyScan) (j i : Nat) : FancyScan :=
  let ai := a.getD i ""
  let bj := b.getD j ""
  if ai == bj then
    { st with eqPair := match st.eqPair with | none => some (i, j) | some p => some p }
  else
    let rq := smRealQuickRatio ai.data.length bj.data.length
    let q := smQuickRatio ai.data bj.data
    let r := smRatio isCharJunk ai.data bj.data
    if rq > st.bestRatio && q > st.bestRatio && r > st.bestRatio then
      { bestRatio := r, best := some (i, j), eqPair := st.eqPair }
    else st

/-- The double loop of `_fancy_replace` over `range(blo, bhi)` and
`range(alo, ahi)`. -/
def fancyScan (a b : List String) (alo ahi blo bhi : Nat) : FancyScan :=
  (List.range' blo (bhi - blo)).foldl (fun st j =>
    (List.range' alo (ahi - alo)).foldl (fun st2 i => fancyScanStep a b st2 j i) st)
    ⟨74/100, none, none⟩

/-- `_fancy_helper`, parameterised over the replace continuation so that the
recursion stays structural in the fuel of `fancyReplace`. -/
def fancyHelperWith
    (fr : List String → Nat → Nat → List String → Nat → Nat → List String)
    (a : List String) (alo ahi : Nat) (b : List String) (blo bhi : Nat) :
    List String :=
  if alo < ahi then
    if blo < bhi then fr a alo ahi b blo bhi
    else dumpLines '-' a alo ahi
  else if blo < bhi then dumpLines '+' b blo bhi
  else []

/-- `_fancy_replace`: synch on the best similar pair (or the first identical
pair), recurse on both sides through `_fancy_helper`, and mark the synch pair
intraline.  The fuel bounds the recursion and `a.length + b.length` always
suffices; the branch on an absent best pair is unreachable, since the best
ratio exceeds its initial value only when a pair was recorded. -/
def fancyReplace : Nat → List String → Nat → Nat → List String → Nat → Nat →
    List String
  | 0, _, _, _, _, _, _ => []
  | fuel + 1, a, alo, ahi, b, blo, bhi =>
    let st := fancyScan a b alo ahi blo bhi
    if st.bestRatio < 3/4 then
      match st.eqPair with
      | none => plainReplace a alo ahi b blo bhi
      | some (ei, ej) =>
        fancyHelperWith (fancyReplace fuel) a alo ei b blo ej ++
        ["  " ++ a.getD ei ""] ++
        fancyHelperWith (fancyReplace fuel) a (ei + 1) ahi b (ej + 1) bhi
    else
      match st.best with
      | some (bi, bj) =>
        let aelt := a.getD bi ""
        let belt := b.getD bj ""
        let tags := intralineTags (getOpcodes isCharJunk aelt.data belt.data)
        fancyHelperWith (fancyReplace fuel) a alo bi b blo bj ++
        qformat aelt belt tags.1 tags.2 ++
        fancyHelperWith (fancyReplace fuel) a (bi + 1) ahi b (bj + 1) bhi
      | none => plainReplace a alo ahi b blo bhi

/-- `Differ().compare(a, b)` as called by `draw_comparison_graph`: the
line-level opcodes dispatched to dumps and fancy replaces. -/
def differCompare (a b : List String) : List String :=
  (getOpcodes (fun _ => false) a b).flatMap (fun op =>
    match op.tag with
    | .replace => fancyReplace (a.length + b.length) a op.a1 op.a2 b op.b1 op.b2
    | .delete => dumpLines '-' a op.a1 op.a2
    | .insert => dumpLines '+' b op.b1 op.b2
    | .equal => dumpLines ' ' a op.a1 op.a2)

/-! ### xmlsasd.py — draw_comparison_graph -/

/-- The report items printed by `draw_comparison_graph` between its header
and footer (the constant borders are not modelled). -/
inductive ReportItem where
  | okMarker (lineNum : Nat)
  | missingInXml (lineNum : Nat) (sentence : String)
  | extraInXml (lineNum : Nat) (sentence : String)
deriving DecidableEq

/-- The entry loop of `draw_comparison_graph` (alignment-revision xmlsasd.py
lines 103–124): `status` is `entry[0]`, a one-character string, so the
comparison with the two-character `'  '` in the match branch can never
succeed; `-` and `+` entries are rendered with the running line counter,
which advances on every diff entry. -/
def drawGraphGo : List String → Nat → List ReportItem
  | [], _ => []
  | entry :: rest, lineNum =>
    let status := strTake 1 entry
    let sentence : String := ⟨entry.data.drop 2⟩
    (if status == "  " then
       (if lineNum % 15 == 0 then [.okMarker lineNum] else [])
     else if status == "-" then [.missingInXml lineNum sentence]
     else if status == "+" then [.extraInXml lineNum sentence]
     else []) ++
    drawGraphGo rest (lineNum + 1)

/-- `draw_comparison_graph(pdf_sent, xml_sent)`: the rendered report items of
the difflib delta, in order.  The function prints no matched/total count and
no percentage summary. -/
def drawComparisonGraph (pdfSent xmlSent : List String) : List ReportItem :=
  drawGraphGo (differCompare pdfSent xmlSent) 1

/-! ### Auxiliary predicates used in the statements of the properties -/

mutual
/-- The text of the element and, recursively, of all its subelements. -/
def Elem.allTexts : Elem → List String
  | .mk _ _ x c _ _ => (match x with | some s => [s] | none => []) ++ allTextsL c

def allTextsL : List Elem → List String
  | [] => []
  | e :: es => e.allTexts ++ allTextsL es
end

/-- Whether a character list contains an occurrence of the soft-hyphen
pattern `(\w)-\s+(\w)`. -/
def hasArtifact : List Char → Bool
  | [] => false
  | a :: rest => (isWordChar a && (artifactSplit rest).isSome) || hasArtifact rest

/-- Every direct text in the tree reaches a fixed point of the soft-hyphen
substitution after one application (no substitution creates a fresh
artifact). -/
def hyphenStable (root : Elem) : Bool :=
  (Elem.iterL root).all (fun d =>
    match d.text with
    | some s => pySubHyphen (pySubHyphen s) == pySubHyphen s
    | none => true)

/-- No metadata element (`article-meta`/`book-meta`) occurs inside a `bold`
element, whose subtree the uniform-bold fix may discard. -/
def metaFreeBold (root : Elem) : Bool :=
  (Elem.iterL root).all (fun d =>
    d.tag != "bold" ||
      (iterLs d.children).all (fun z =>
        z.tag != "article-meta" && z.tag != "book-meta"))

/-- The classification the specification's reconciliation vocabulary
(§4.6) attaches to a differ delta entry: `'  '` is MATCHED, `'- '` is
MISSING_FROM_XML, `'+ '` is EXTRA_IN_XML, and `'? '` guide lines carry no
classification. -/
def deltaStatus (entry : String) : Option (String × RecStatus) :=
  match entry.data with
  | ' ' :: ' ' :: rest => some (⟨rest⟩, .matched)
  | '-' :: ' ' :: rest => some (⟨rest⟩, .missingFromXml)
  | '+' :: ' ' :: rest => some (⟨rest⟩, .extraInXml)
  | _ => none

/-- The PDF-side projection of a differ delta: the payloads of the `'- '`
and `'  '` entries, in order. -/
def projA (delta : List String) : List String :=
  delta.filterMap (fun e =>
    match e.data with
    | '-' :: ' ' :: rest => some ⟨rest⟩
    | ' ' :: ' ' :: rest => some ⟨rest⟩
    | _ => none)

/-- The XML-side projection of a differ delta: the payloads of the `'+ '`
and `'  '` entries, in order. -/
def projB (delta : List String) : List String :=
  delta.filterMap (fun e =>
    match e.data with
    | '+' :: ' ' :: rest => some ⟨rest⟩
    | ' ' :: ' ' :: rest => some ⟨rest⟩
    | _ => none)

/-- An opcode list free of `replace` operations (every element pair is
either matched by the diff or one-sided). -/
def noReplace (ops : List Opcode) : Bool :=
  ops.all (fun op => op.tag != OpTag.replace)

/-- The elements of `l` at positions `[lo, hi)`, read through `getD`. -/
def sliceGetD {α : Type} [Inhabited α] (l : List α) (lo hi : Nat) : List α :=
  (List.range' lo (hi - lo)).map (fun t => l.getD t default)

/-- A sound matching block: every offset pairs equal elements of the two
sequences. -/
def SoundBlock {α : Type} [Inhabited α] (a b : List α) (m : FlmBest) : Prop :=
  ∀ d, d < m.size → a.getD (m.i + d) default = b.getD (m.j + d) default

/-- A matching block inside the window `[alo, ahi) × [blo, bhi)`. -/
def GoodMatch {α : Type} [Inhabited α] (a b : List α)
    (alo ahi blo bhi : Nat) (m : FlmBest) : Prop :=
  alo ≤ m.i ∧ blo ≤ m.j ∧ m.i + m.size ≤ ahi ∧ m.j + m.size ≤ bhi
    ∧ SoundBlock a b m

/-- A chain of matching blocks ahead of the cursor `(i, j)`: each block is
nonempty, sound, inside the window, and advances the cursor. -/
def ChainOK {α : Type} [Inhabited α] (a b : List α) (ahi bhi : Nat) :
    Nat → Nat → List FlmBest → Prop
  | _, _, [] => True
  | i, j, m :: rest =>
      i ≤ m.i ∧ j ≤ m.j ∧ 1 ≤ m.size ∧ m.i + m.size ≤ ahi ∧ m.j + m.size ≤ bhi
        ∧ SoundBlock a b m
        ∧ ChainOK a b ahi bhi (m.i + m.size) (m.j + m.size) rest

/-- A matching-block list as consumed by `get_opcodes`: a chain of sound
nonempty blocks closed by the size-zero sentinel at the sequence ends. -/
def BlocksOK {α : Type} [Inhabited α] (a b : List α) :
    Nat → Nat → List FlmBest → Prop
  | _, _, [] => False
  | i, j, m :: rest =>
      match rest with
      | [] => m = FlmBest.mk a.length b.length 0 ∧ i ≤ a.length ∧ j ≤ b.length
      | _ :: _ =>
          i ≤ m.i ∧ j ≤ m.j ∧ 1 ≤ m.size ∧ m.i + m.size ≤ a.length
            ∧ m.j + m.size ≤ b.length ∧ SoundBlock a b m
            ∧ BlocksOK a b (m.i + m.size) (m.j + m.size) rest

/-- A common-subsequence chain ending at positions `(i, j)` with length `k`,
fully above `(alo, blo)`: the `j2len` row invariant of
`find_longest_match`. -/
def ChainEnd {α : Type} [Inhabited α] (a b : List α)
    (alo blo i j k : Nat) : Prop :=
  alo + k ≤ i + 1 ∧ blo + k ≤ j + 1
    ∧ ∀ d, d < k → a.getD (i - d) default = b.getD (j - d) default

/-! ### Shared lemmas -/

theorem elemRec {P : Elem → Prop} {Q : List Elem → Prop}
    (h1 : ∀ t a x c tl ln, Q c → P (.mk t a x c tl ln))
    (h2 : Q [])
    (h3 : ∀ e es, P e → Q es → Q (e :: es)) :
    ∀ e, P e :=
  fun e => @Elem.rec P Q h1 h2 h3 e

theorem elemRecL {P : Elem → Prop} {Q : List Elem → Prop}
    (h1 : ∀ t a x c tl ln, Q c → P (.mk t a x c tl ln))
    (h2 : Q [])
    (h3 : ∀ e es, P e → Q es → Q (e :: es)) :
    ∀ l, Q l :=
  fun l => @Elem.rec_1 P Q h1 h2 h3 l

theorem subHyphenF_no_artifact :
    ∀ (fuel : Nat) (l : List Char), hasArtifact l = false → subHyphenF fuel l = l := by
  intro fuel
  induction fuel with
  | zero => intro l _; rfl
  | succ n ih =>
    intro l h
    match l with
    | [] => rfl
    | a :: rest =>
      rw [hasArtifact, Bool.or_eq_false_iff] at h
      obtain ⟨hhead, htail⟩ := h
      have hrest := ih rest htail
      rw [subHyphenF]
      by_cases hw : isWordChar a
      · simp only [hw, if_true]
        match hsp : artifactSplit rest with
        | some (b, rest4) => simp [hw, hsp] at hhead
        | none => rw [hrest]
      · simp [hw, hrest]

/-! ### C6 — soft-hyphen normalisation -/

/-- C6: the fixer collapses a hyphen immediately followed by whitespace
between two word characters by joining the two word fragments: the node text
`"exam- ple"` becomes `"example"` (with one counted fix), the text
`"multi-word"` is left unchanged (zero fixes), and in general any direct
text containing no such artifact is left unchanged by the substitution. -/
theorem c6_soft_hyphen_normalization :
    (∀ (fuel : Nat) (l : List Char),
        hasArtifact l = false → subHyphenF fuel l = l)
    ∧ fixTree (.mk "p" [] (some "exam- ple") [] none (some 4))
        = (.mk "p" [] (some "example") [] none (some 4), 1)
    ∧ fixTree (.mk "p" [] (some "multi-word") [] none (some 4))
        = (.mk "p" [] (some "multi-word") [] none (some 4), 0)
    ∧ pySubHyphen "exam- ple" = "example"
    ∧ pySubHyphen "multi-word" = "multi-word"
    ∧ hasArtifact "exam- ple".data = true
    ∧ hasArtifact "multi-word".data = false := by
  refine ⟨subHyphenF_no_artifact, ?_, ?_, ?_, ?_, ?_, ?_⟩ <;> rfl

/-- C6 witness: the general conjunct applied at the concrete artifact-free
input `"multi-word"`. -/
theorem c6_witness :
    hasArtifact "multi-word".data = false
      ∧ subHyphenF 10 "multi-word".data = "multi-word".data :=
  ⟨by decide, c6_soft_hyphen_normalization.1 10 "multi-word".data (by decide)⟩

/-! ### C7 — uniform-emphasis stripping -/

/-- C7: a title node whose only child is a bold element with text
`"Chapter One"` is flagged by the audit with exactly one Emphasis violation,
and the fixer transforms it into a title node with direct text
`"Chapter One"` and no children (one counted fix). -/
theorem c7_uniform_emphasis_stripping :
    runAemAudit false
        (.mk "title" [] none
          [.mk "bold" [] (some "Chapter One") [] none (some 2)] none (some 1))
      = [⟨"title", some 1, "Chapter One", "Uniform Bold Emphasis found in Title",
          "Spec Rule: Remove uniform emphasis in titles unless it provides additional meaning.",
          "Emphasis"⟩]
    ∧ runAemFixer
        (.mk "title" [] none
          [.mk "bold" [] (some "Chapter One") [] none (some 2)] none (some 1))
      = (.mk "title" [] (some "Chapter One") [] none (some 1), 1) := by
  exact ⟨rfl, rfl⟩

/-! ### C10 — the front-matter truthiness trap -/

/-- C10: the metadata element chosen as insertion target is the first
`article-meta` only when that element has at least one child; a childless
`article-meta` sends the lookup on to the `book-meta` lookup (possibly
finding nothing), because a childless element is falsy in the `or`.  On a
tree whose only metadata element is an empty `article-meta`, the fixer
therefore inserts nothing; when a `book-meta` also exists, the identifier is
inserted there and the empty `article-meta` stays empty. -/
theorem c10_front_matter_or_trap :
    (∀ (root m : Elem), findFirstL isArticleMeta root.children = some m →
        m.children = [] → frontMeta root = findFirstL isBookMeta root.children)
    ∧ (∀ (root m : Elem), findFirstL isArticleMeta root.children = some m →
        m.children = [] → runFrontFix root = frontInsertAt isBookMeta root)
    ∧ runAemFixer
        (.mk "r" [] none [.mk "article-meta" [] none [] none (some 2)] none (some 1))
      = (.mk "r" [] none [.mk "article-meta" [] none [] none (some 2)] none (some 1), 0)
    ∧ runAemFixer
        (.mk "r" [] none
          [.mk "article-meta" [] none [] none (some 2),
           .mk "book-meta" [] none
             [.mk "p" [] (some "x") [] none (some 3)] none (some 2)] none (some 1))
      = (.mk "r" [] none
          [.mk "article-meta" [] none [] none (some 2),
           .mk "book-meta" [] none
             [ncesElem, .mk "p" [] (some "x") [] none (some 3)] none (some 2)]
           none (some 1), 1) := by
  refine ⟨?_, ?_, rfl, rfl⟩
  · intro root m hfind hempty
    rw [frontMeta, hfind]
    simp [hempty]
  · intro root m hfind hempty
    rw [runFrontFix, hfind]
    simp [hempty]

/-- C10 witness: the general conjuncts applied to the concrete tree with an
empty `article-meta`. -/
theorem c10_witness :
    frontMeta (.mk "r" [] none [.mk "article-meta" [] none [] none (some 2)] none (some 1))
        = findFirstL isBookMeta
            [Elem.mk "article-meta" [] none [] none (some 2)]
      ∧ runFrontFix (.mk "r" [] none [.mk "article-meta" [] none [] none (some 2)] none (some 1))
        = frontInsertAt isBookMeta
            (.mk "r" [] none [.mk "article-meta" [] none [] none (some 2)] none (some 1)) :=
  ⟨c10_front_matter_or_trap.1
      (.mk "r" [] none [.mk "article-meta" [] none [] none (some 2)] none (some 1))
      (.mk "article-meta" [] none [] none (some 2)) rfl rfl,
   c10_front_matter_or_trap.2.1
      (.mk "r" [] none [.mk "article-meta" [] none [] none (some 2)] none (some 1))
      (.mk "article-meta" [] none [] none (some 2)) rfl rfl⟩

/-! ### C3 — containment-mode reconciliation -/

theorem startsWithL_iff (needle hay : List Char) :
    startsWithL hay needle = true ↔ ∃ v, needle ++ v = hay := by
  induction needle generalizing hay with
  | nil => simp [startsWithL]
  | cons n ns ih =>
    cases hay with
    | nil => simp [startsWithL]
    | cons h hs =>
      rw [startsWithL, Bool.and_eq_true, beq_iff_eq, ih]
      constructor
      · rintro ⟨rfl, v, rfl⟩
        exact ⟨v, rfl⟩
      · rintro ⟨v, hv⟩
        injection hv with h1 h2
        exact ⟨h1.symm, v, h2⟩

theorem containsSeq_iff (hay needle : List Char) :
    containsSeq hay needle = true ↔ ∃ u v, u ++ needle ++ v = hay := by
  induction hay with
  | nil =>
    rw [containsSeq, Bool.or_eq_true, startsWithL_iff]
    simp [List.append_eq_nil]
  | cons h t ih =>
    rw [containsSeq, Bool.or_eq_true, startsWithL_iff, ih]
    constructor
    · rintro (⟨v, hv⟩ | ⟨u, v, rfl⟩)
      · exact ⟨[], v, by simpa using hv⟩
      · exact ⟨h :: u, v, rfl⟩
    · rintro ⟨u, v, huv⟩
      cases u with
      | nil =>
        left
        exact ⟨v, by simpa using huv⟩
      | cons a u' =>
        right
        injection huv with h1 h2
        exact ⟨u', v, h2⟩

theorem containmentMatch_iff (xmlPool : List String) (para : String) :
    containmentMatch xmlPool para = true ↔
      ∃ x ∈ xmlPool, ∃ u v,
        u ++ (strTake 60 (pyLower para)).data ++ v = (pyLower x).data := by
  rw [containmentMatch, List.any_map, List.any_eq_true]
  apply exists_congr
  intro x
  apply and_congr_right'
  rw [Function.comp, strContains, containsSeq_iff]

/-- C3 counterexample: with XML units `["abc", "def"]` and PDF unit
`"bcde"`, the unit's prefix does occur, case-insensitively, in the
concatenation of all XML units, yet containment mode classifies it
MISSING_FROM_XML — refuting the claim that MATCHED holds exactly on
substrings of the concatenation. -/
theorem c3_counterexample :
    containmentStatus ["abc", "def"] "bcde" = RecStatus.missingFromXml
      ∧ strContains (String.join (["abc", "def"].map pyLower))
          (strTake 60 (pyLower "bcde")) = true := by
  exact ⟨rfl, rfl⟩

/-- C3 amended: in containment mode a PDF TextUnit is classified MATCHED
exactly when the first 60 characters of its lowercased content occur as a
substring of at least one individual lowercased XML TextUnit (not of their
concatenation), and MISSING_FROM_XML otherwise; in particular the spec's
example pool `["The quick brown fox."]` matches a case-insensitive prefix
and misses an absent one. -/
theorem c3_containment_per_unit :
    (∀ (xmlPool : List String) (para : String),
        containmentStatus xmlPool para = RecStatus.matched ↔
          ∃ x ∈ xmlPool, ∃ u v,
            u ++ (strTake 60 (pyLower para)).data ++ v = (pyLower x).data)
    ∧ (∀ (xmlPool : List String) (para : String),
        containmentStatus xmlPool para = RecStatus.missingFromXml ↔
          ¬ ∃ x ∈ xmlPool, ∃ u v,
            u ++ (strTake 60 (pyLower para)).data ++ v = (pyLower x).data)
    ∧ containmentStatus ["The quick brown fox."] "The QUICK brown f"
        = RecStatus.matched
    ∧ containmentStatus ["The quick brown fox."] "wholly absent text"
        = RecStatus.missingFromXml := by
  refine ⟨?_, ?_, rfl, rfl⟩
  · intro xmlPool para
    rw [← containmentMatch_iff, containmentStatus]
    by_cases h : containmentMatch xmlPool para
    · simp [h]
    · simp [h]
  · intro xmlPool para
    rw [← containmentMatch_iff, containmentStatus]
    by_cases h : containmentMatch xmlPool para
    · simp [h]
    · simp [h]

/-! ### C8 — output written iff fixes applied, to a distinct path -/

theorem dropAppendLen {α : Type} (l₁ l₂ : List α) (n : Nat) :
    (l₁ ++ l₂).drop (l₁.length + n) = l₂.drop n := by
  induction l₁ with
  | nil => simp
  | cons a l₁ ih =>
    simp only [List.cons_append, List.length_cons]
    rw [Nat.succ_add, List.drop_succ_cons, ih]

theorem memOfAppendEq {α : Type} :
    ∀ (p dir q rest : List α) (x : α),
      p ++ q = dir ++ x :: rest → p.length ≤ dir.length → x ∈ q := by
  intro p
  induction p with
  | nil =>
    intro dir q rest x h _
    rw [List.nil_append] at h
    rw [h]
    exact List.mem_append_right dir (List.mem_cons_self x rest)
  | cons a p' ih =>
    intro dir q rest x h hlen
    cases dir with
    | nil => simp at hlen
    | cons d dir' =>
      rw [List.cons_append, List.cons_append] at h
      injection h with h1 h2
      exact ih dir' q rest x h2 (by simpa using hlen)

/-- C8: the fixer writes an output document exactly when at least one fix
was applied, the written document is the mutated tree at the path derived
from the source stem and suffix, and this path never coincides with the
source path (for any source directory, given that a path stem contains no
separator), so the source file itself is never overwritten; zero fixes
produce no file. -/
theorem c8_output_iff_fixes :
    (∀ (stem suffix : String) (root : Elem),
        (fixerOutput stem suffix root).isSome ↔ 0 < (runAemFixer root).2)
    ∧ (∀ (stem suffix : String) (root : Elem),
        fixerOutput stem suffix root = none ↔ (runAemFixer root).2 = 0)
    ∧ (∀ (stem suffix : String) (root : Elem) (out : String × Elem),
        fixerOutput stem suffix root = some out →
          out = (savedPath stem suffix, (runAemFixer root).1))
    ∧ (∀ (stem suffix dir : String), '/' ∉ stem.data → '/' ∉ suffix.data →
        savedPath stem suffix ≠ dir ++ "/" ++ stem ++ suffix) := by
  refine ⟨?_, ?_, ?_, ?_⟩
  · intro stem suffix root
    rw [fixerOutput]
    by_cases h : (runAemFixer root).2 > 0
    · simp [h]
    · simp [h]
  · intro stem suffix root
    rw [fixerOutput]
    by_cases h : (runAemFixer root).2 > 0
    · simp [h]
      omega
    · simp [h]
      omega
  · intro stem suffix root out hout
    rw [fixerOutput] at hout
    by_cases h : (runAemFixer root).2 > 0
    · simp [h] at hout
      exact hout.symm
    · simp [h] at hout
  · intro stem suffix dir hs hsfx h
    have hd := congrArg String.data h
    rw [savedPath] at hd
    simp only [String.data_append, List.append_assoc, List.cons_append,
      List.nil_append] at hd
    have hlen := congrArg List.length hd
    simp only [List.length_append, List.length_cons, List.length_nil] at hlen
    have hmem : ('/' : Char) ∈
        stem.data ++ ('_' :: 'F' :: 'I' :: 'X' :: 'E' :: 'D' :: suffix.data) :=
      memOfAppendEq ['f', 'i', 'l', 'e', 's', '/', 'a', 'u', 'd', 'i', 't', 'e', 'd', '/']
        dir.data _ _ '/' hd
        (by simp only [List.length_cons, List.length_nil]; omega)
    rcases List.mem_append.mp hmem with hin | hin
    · exact hs hin
    · simp only [List.mem_cons] at hin
      rcases hin with h1 | h1 | h1 | h1 | h1 | h1 | h1
    
      · exact absurd h1 (by decide)
      · exact absurd h1 (by decide)
      · exact absurd h1 (by decide)
      · exact absurd h1 (by decide)
      · exact absurd h1 (by decide)
      · exact absurd h1 (by decide)
      · exact hsfx h1

/-- C8 witness: the path-distinctness conjunct applied at stem `"doc"`,
suffix `".xml"` and source directory `"files"`, and the output-iff conjunct
applied to a tree with one fixable artifact. -/
theorem c8_witness :
    savedPath "doc" ".xml" ≠ "files" ++ "/" ++ "doc" ++ ".xml"
      ∧ ((fixerOutput "doc" ".xml"
            (.mk "r" [] (some "exam- ple") [] none (some 1))).isSome ↔
          0 < (runAemFixer (.mk "r" [] (some "exam- ple") [] none (some 1))).2) :=
  ⟨c8_output_iff_fixes.2.2.2 "doc" ".xml" "files" (by decide) (by decide),
   c8_output_iff_fixes.1 "doc" ".xml" (.mk "r" [] (some "exam- ple") [] none (some 1))⟩

/-! ### C1 — rule exhaustiveness for mandatory attributes -/

theorem countP_flatMap {α β : Type} (p : β → Bool) (f : α → List β) :
    ∀ l : List α, ((l.flatMap f).countP p) = (l.map (fun a => (f a).countP p)).sum := by
  intro l
  induction l with
  | nil => rfl
  | cons a t ih => simp [List.flatMap_cons, List.countP_append, ih]

theorem sumIndicatorCountP {α : Type} (q : α → Bool) :
    ∀ l : List α, (l.map (fun a => if q a then 1 else 0)).sum = l.countP q := by
  intro l
  induction l with
  | nil => rfl
  | cons a t ih =>
    rw [List.map_cons, List.sum_cons, List.countP_cons, ih]
    by_cases h : q a
    · simp [h]
      omega
    · simp [h]

theorem countP_filterMap {α β : Type} (p : β → Bool) (f : α → Option β) :
    ∀ l : List α, ((l.filterMap f).countP p)
      = l.countP (fun a => match f a with | some b => p b | none => false) := by
  intro l
  induction l with
  | nil => rfl
  | cons a t ih =>
    rw [List.filterMap_cons]
    match hfa : f a with
    | some b => rw [List.countP_cons, List.countP_cons, ih, hfa]
    | none => rw [List.countP_cons, ih, hfa]; simp

theorem findMapOfMem {β : Type} :
    ∀ (l : List (String × β)) (k : String) (v : β),
      (k, v) ∈ l → (l.map Prod.fst).Nodup →
      ((l.find? (fun r => r.1 == k)).map (fun r => r.2)) = some v := by
  intro l
  induction l with
  | nil => intro k v h _; simp at h
  | cons hd t ih =>
    intro k v hmem hnd
    rw [List.map_cons, List.nodup_cons] at hnd
    rcases List.mem_cons.mp hmem with heq | htl
    · rw [← heq, List.find?_cons_of_pos _ (by simp)]
      rfl
    · by_cases hk : hd.1 = k
      · exact absurd (hk ▸ (List.mem_map.mpr ⟨(k, v), htl, rfl⟩)) hnd.1
      · rw [List.find?_cons_of_neg _ (by simpa using hk)]
        exact ih k v htl hnd.2

theorem missingAttrMsg_inj (a b : String) :
    missingAttrMsg a = missingAttrMsg b → a = b := by
  intro h
  have hd := congrArg String.data h
  simp only [missingAttrMsg, String.data_append] at hd
  rw [List.append_assoc, List.append_assoc] at hd
  have := List.append_cancel_right (List.append_cancel_left hd)
  exact String.ext this

theorem missingAttrMsg_ne_math (attr : String) :
    missingAttrMsg attr ≠ "Math Equation missing ID" := by
  intro h
  have hd := congrArg String.data h
  simp only [missingAttrMsg, String.data_append] at hd
  simp at hd

theorem auditNode_tag (isBits : Bool) (e : Elem) :
    ∀ v ∈ auditNode isBits e, v.tag = e.tag := by
  intro v hv
  simp only [auditNode, List.mem_append] at hv
  rcases hv with ((h | h) | h) | h
  · split at h
    · rw [List.mem_filterMap] at h
      obtain ⟨a, _, ha⟩ := h
      split at ha
      · injection ha with ha
        rw [← ha]
      · exact absurd ha (by simp)
    · simp at h
  · split at h
    · rw [List.mem_singleton] at h
      rw [h]
    · simp at h
  · split at h
    · rw [List.mem_singleton] at h
      rw [h]
    · simp at h
  · split at h
    · rw [List.mem_singleton] at h
      rw [h]
    · simp at h

theorem countP_ext {α : Type} (p q : α → Bool) (h : ∀ a, p a = q a) :
    ∀ l : List α, l.countP p = l.countP q := by
  intro l
  induction l with
  | nil => rfl
  | cons a t ih => rw [List.countP_cons, List.countP_cons, ih, h]

theorem auditCountEngine (tag attr name : String) (attrs : List String)
    (h1 : rulesLookup tag = some (attrs, name))
    (h2 : attrs.countP (fun a => a == attr) = 1)
    (h4 : tag ≠ "publisher")
    (h5 : tag ≠ "title" ∧ tag ≠ "article-title" ∧ tag ≠ "book-title")
    (isBits : Bool) (e : Elem) :
    ((auditNode isBits e).countP
        (fun v => v.tag == tag && v.violation == missingAttrMsg attr))
      = if e.tag == tag && (attrLookup e attr).isNone then 1 else 0 := by
  by_cases he : e.tag = tag
  case neg =>
    have hz : ((auditNode isBits e).countP
        (fun v => v.tag == tag && v.violation == missingAttrMsg attr)) = 0 :=
      List.countP_eq_zero.mpr (fun v hv => by
        have ht := auditNode_tag isBits e v hv
        simp [ht, he])
    rw [hz, if_neg (by simp [he])]
  case pos =>
    subst he
    simp only [auditNode, List.countP_append]
    have hs2 : ∀ L : List AuditViolation,
        ((if isBits && e.tag == "publisher"
            && !(e.children.any (fun ch => ch.tag == "publisher-loc")) then L
          else []).countP
          (fun v => v.tag == e.tag && v.violation == missingAttrMsg attr)) = 0 := by
      intro L
      split
      · next hg =>
        simp only [Bool.and_eq_true, beq_iff_eq] at hg
        exact absurd hg.1.2 h4
      · rfl
    have hs3 : ∀ L : List AuditViolation,
        ((if (e.tag == "title" || e.tag == "article-title" || e.tag == "book-title")
            && singleBoldChild e then L
          else []).countP
          (fun v => v.tag == e.tag && v.violation == missingAttrMsg attr)) = 0 := by
      intro L
      split
      · next hg =>
        simp only [Bool.and_eq_true, Bool.or_eq_true, beq_iff_eq] at hg
        rcases hg.1 with (h | h) | h
        · exact absurd h h5.1
        · exact absurd h h5.2.1
        · exact absurd h h5.2.2
      · rfl
    have hs4 :
        ((if (e.tag == "disp-formula" || e.tag == "inline-formula")
            && (attrLookup e "id").isNone then
            [⟨e.tag, e.line, e.fullText, "Math Equation missing ID",
              "Spec Rule: 'id' is mandatory for linking to <xref> pointers.",
              "Math Equations"⟩]
          else ([] : List AuditViolation)).countP
          (fun v => v.tag == e.tag && v.violation == missingAttrMsg attr)) = 0 := by
      split
      · simp [beq_eq_false_iff_ne, Ne.symm (missingAttrMsg_ne_math attr)]
      · rfl
    rw [hs2, hs3, hs4, h1]
    rw [countP_filterMap]
    simp only [Nat.add_zero]
    refine Eq.trans
      (countP_ext _ (fun a => a == attr && (attrLookup e attr).isNone) ?_ attrs) ?_
    · intro a
      by_cases hma : (attrLookup e a).isNone
      · simp only [hma, if_true]
        by_cases haa : a = attr
        · subst haa
          simp [hma]
        · have hne : missingAttrMsg a ≠ missingAttrMsg attr :=
            fun hcon => haa (missingAttrMsg_inj a attr hcon)
          rw [beq_eq_false_iff_ne.mpr hne, beq_eq_false_iff_ne.mpr haa]
          simp
      · simp only [hma, if_false]
        by_cases haa : a = attr
        · subst haa
          simp [hma]
        · simp [haa]
    · by_cases hm : (attrLookup e attr).isNone
      · rw [countP_ext _ (fun a => a == attr) (fun a => by simp [hm]) attrs, h2]
        simp [hm]
      · rw [countP_ext _ (fun _ => false) (fun a => by simp [hm]) attrs]
        simp [hm]

theorem mapCongrAll {α β : Type} (f g : α → β) (h : ∀ a, f a = g a) :
    ∀ l : List α, l.map f = l.map g := by
  intro l
  induction l with
  | nil => rfl
  | cons a t ih => rw [List.map_cons, List.map_cons, ih, h]

theorem auditCountFull (tag attr name : String) (attrs : List String)
    (h1 : rulesLookup tag = some (attrs, name))
    (h2 : attrs.countP (fun a => a == attr) = 1)
    (h4 : tag ≠ "publisher")
    (h5 : tag ≠ "title" ∧ tag ≠ "article-title" ∧ tag ≠ "book-title")
    (isBits : Bool) (root : Elem) :
    ((runAemAudit isBits root).countP
        (fun v => v.tag == tag && v.violation == missingAttrMsg attr))
      = ((Elem.iterL root).countP
          (fun e => e.tag == tag && (attrLookup e attr).isNone)) := by
  rw [runAemAudit, countP_flatMap]
  rw [mapCongrAll _ _
    (fun e => auditCountEngine tag attr name attrs h1 h2 h4 h5 isBits e)]
  exact sumIndicatorCountP _ _

/-- C1 counterexample: a `table-wrap` element with no attributes fails its
registry rule (which demands both `id` and `position`) as a single node, yet
the audit emits two Violation records for that rule, so the number of
records for the rule is not the number of failing nodes. -/
theorem c1_counterexample :
    ((runAemAudit false (.mk "table-wrap" [] none [] none (some 3))).countP
        (fun v => v.tag == "table-wrap")) = 2
      ∧ ((Elem.iterL (.mk "table-wrap" [] none [] none (some 3))).countP
          (fun e => e.tag == "table-wrap"
            && !((attrLookup e "id").isSome && (attrLookup e "position").isSome))) = 1
      ∧ runAemAudit false (.mk "table-wrap" [] none [] none (some 3))
        = [⟨"table-wrap", some 3, "", missingAttrMsg "id",
            missingAttrFix "id" "Tables", "Tables"⟩,
           ⟨"table-wrap", some 3, "", missingAttrMsg "position",
            missingAttrFix "position" "Tables", "Tables"⟩] := by
  refine ⟨rfl, rfl, rfl⟩

/-- C1 amended: for every rule in the registry and every attribute the rule
requires, the audit emits exactly one mandatory-attribute Violation per node
with the rule's tag lacking that attribute (so a node missing k required
attributes yields k records, one per attribute); in particular an `article`
element without `article-type` yields exactly one such Violation wherever it
sits in the tree. -/
theorem c1_rule_attribute_exhaustiveness :
    ∀ (tag : String) (attrs : List String) (name attr : String)
      (isBits : Bool) (root : Elem),
      (tag, attrs, name) ∈ aemRules → attr ∈ attrs →
      ((runAemAudit isBits root).countP
          (fun v => v.tag == tag && v.violation == missingAttrMsg attr))
        = ((Elem.iterL root).countP
            (fun e => e.tag == tag && (attrLookup e attr).isNone)) := by
  intro tag attrs name attr isBits root hmem hattr
  have hkeys : (aemRules.map Prod.fst).Nodup := by decide
  have h1 : rulesLookup tag = some (attrs, name) :=
    findMapOfMem aemRules tag (attrs, name) hmem hkeys
  have hnd : attrs.Nodup := by
    have hall : ∀ r ∈ aemRules, (r.2.1 : List String).Nodup := by decide
    exact hall _ hmem
  have h2 : attrs.countP (fun a => a == attr) = 1 := by
    simpa [List.count] using List.count_eq_one_of_mem hnd hattr
  have h4 : tag ≠ "publisher" := by
    have hall : ∀ r ∈ aemRules, r.1 ≠ "publisher" := by decide
    exact hall _ hmem
  have h5 : tag ≠ "title" ∧ tag ≠ "article-title" ∧ tag ≠ "book-title" := by
    have hall : ∀ r ∈ aemRules,
        r.1 ≠ "title" ∧ r.1 ≠ "article-title" ∧ r.1 ≠ "book-title" := by decide
    exact hall _ hmem
  exact auditCountFull tag attr name attrs h1 h2 h4 h5 isBits root

/-- C1 witness: the amended count equation applied to the `article` rule, the
`article-type` attribute and a one-node tree missing the attribute. -/
theorem c1_witness :
    ((runAemAudit false (.mk "article" [] none [] none (some 1))).countP
        (fun v => v.tag == "article" && v.violation == missingAttrMsg "article-type"))
      = ((Elem.iterL (.mk "article" [] none [] none (some 1))).countP
          (fun e => e.tag == "article" && (attrLookup e "article-type").isNone)) :=
  c1_rule_attribute_exhaustiveness "article" ["article-type"] "Article-type"
    "article-type" false (.mk "article" [] none [] none (some 1))
    (by decide) (by decide)

/-! ### C9 — the XML-side text extractors -/

theorem filterIfChar {α : Type} (p : α → Bool) (g : α → String) :
    ∀ l : List α,
      (l.filterMap (fun e => if p e then
          (if (g e).length > 20 then some (g e) else none) else none))
        = (((l.filter p).map g).filter (fun s => s.length > 20)) := by
  intro l
  induction l with
  | nil => rfl
  | cons e t ih =>
    by_cases hc : p e
    · by_cases hl : (g e).length > 20
      · rw [List.filterMap_cons, if_pos hc, if_pos hl, List.filter_cons,
            if_pos (by simpa using hc), List.map_cons, List.filter_cons,
            if_pos (by simpa using hl), ih]
      · rw [List.filterMap_cons, if_pos hc, if_neg hl, List.filter_cons,
            if_pos (by simpa using hc), List.map_cons, List.filter_cons,
            if_neg (by simpa using hl), ih]
    · rw [List.filterMap_cons, if_neg hc, List.filter_cons,
          if_neg (by simpa using hc), ih]

theorem extract_xml_paragraphs_char (root : Elem) :
    extract_xml_paragraphs root
      = ((((Elem.iterL root).filter (fun e => contentTags.contains e.tag)).map
          (fun e => clean_text e.itertext)).filter (fun s => s.length > 20)) := by
  rw [extract_xml_paragraphs]
  exact filterIfChar (fun e => contentTags.contains e.tag)
    (fun e => clean_text e.itertext) (Elem.iterL root)

/-- C9 counterexample: on a paragraph with a nested child, the sentence-level
extractor `extract_xml_text` collects only the paragraph's direct text `"x"`,
not the node's flattened (all-descendant) text, and produces a single
concatenated string rather than one TextUnit per content-bearing node —
refuting the claim for that extractor, while the block-level extractor does
produce the flattened unit. -/
theorem c9_counterexample :
    extract_xml_text
        (.mk "p" [] (some "x ")
          [.mk "bold" [] (some "flattened descendant text body here") [] none (some 2)]
          none (some 1))
      = "x"
    ∧ extract_xml_paragraphs
        (.mk "p" [] (some "x ")
          [.mk "bold" [] (some "flattened descendant text body here") [] none (some 2)]
          none (some 1))
      = ["x flattened descendant text body here"]
    ∧ clean_text (Elem.itertext
        (.mk "p" [] (some "x ")
          [.mk "bold" [] (some "flattened descendant text body here") [] none (some 2)]
          none (some 1)))
      = "x flattened descendant text body here"
    ∧ ("x" : String) ≠ "x flattened descendant text body here" := by
  refine ⟨rfl, rfl, rfl, by decide⟩

/-- C9 amended: the block-level extractor (`extract_xml_paragraphs`)
produces, in document order, one TextUnit per node whose tag is in the
content-bearing set, each being that node's flattened all-descendant text
with whitespace collapsed and trimmed, and drops every unit of length at or
below 20; the sentence-side extractor (`extract_xml_text`) instead collects
only the stripped direct text and tail fragments of content-bearing nodes
and joins them into one cleaned string. -/
theorem c9_extractor_contract :
    (∀ root : Elem,
      extract_xml_paragraphs root
        = ((((Elem.iterL root).filter (fun e => contentTags.contains e.tag)).map
            (fun e => clean_text e.itertext)).filter (fun s => s.length > 20)))
    ∧ extract_xml_paragraphs
        (.mk "p" [] (some "  twenty-one characters!  ")
          [] none (some 1))
      = ["twenty-one characters!"]
    ∧ extract_xml_paragraphs (.mk "p" [] (some "short text") [] none (some 1)) = []
    ∧ extract_xml_text
        (.mk "p" [] (some " a ")
          [.mk "td" [] (some "inner") [] (some " b ") (some 2)] none (some 1))
      = "a inner b" := by
  exact ⟨extract_xml_paragraphs_char, rfl, rfl, rfl⟩

/-! ### C5 — report contents of the two reconciliation modes -/

theorem strTakeOneNeTwoSpaces (s : String) : (strTake 1 s == "  ") = false := by
  rw [beq_eq_false_iff_ne]
  intro h
  have hd := congrArg String.data h
  rw [strTake] at hd
  have h2 : (s.data.take 1).length ≤ 1 := by
    rw [List.length_take]
    exact Nat.min_le_left _ _
  rw [show (String.mk (s.data.take 1)).data = s.data.take 1 from rfl] at hd
  rw [hd] at h2
  simp at h2

theorem filterMapComm {α β : Type} (f : α → β) (q : β → Bool) :
    ∀ l : List α, ((l.map f).filter q) = ((l.filter (fun a => q (f a))).map f) := by
  intro l
  induction l with
  | nil => rfl
  | cons a t ih =>
    rw [List.map_cons, List.filter_cons, List.filter_cons]
    by_cases h : q (f a)
    · rw [if_pos (by simpa using h), if_pos (by simpa using h), List.map_cons, ih]
    · rw [if_neg (by simpa using h), if_neg (by simpa using h), ih]

theorem drawGraphGo_no_marker :
    ∀ (diff : List String) (n k : Nat),
      ReportItem.okMarker k ∉ drawGraphGo diff n := by
  intro diff
  induction diff with
  | nil => intro n k h; simp [drawGraphGo] at h
  | cons entry rest ih =>
    intro n k h
    rw [drawGraphGo] at h
    rw [List.mem_append] at h
    rcases h with h | h
    · rw [strTakeOneNeTwoSpaces] at h
      simp only [Bool.false_eq_true, if_false] at h
      by_cases h1 : (strTake 1 entry == "-") = true
      · simp [h1] at h
      · simp only [h1, Bool.false_eq_true, if_false] at h
        by_cases h2 : (strTake 1 entry == "+") = true
        · simp [h2] at h
        · simp [h2] at h
    · exact ih (n + 1) k h

/-- C5 counterexample: for PDF and XML unit lists `["A."]` the diff is one
matched entry, and the alignment report renders nothing at all — no
per-unit classification line, no matched/total count and no
match-percentage summary, contradicting the claim. -/
theorem c5_counterexample :
    differCompare ["A."] ["A."] = ["  A."]
      ∧ drawComparisonGraph ["A."] ["A."] = [] := by
  exact ⟨rfl, rfl⟩

/-- C5 amended: containment mode reports the matched count over the
classified rows, the total and the match percentage; alignment mode renders
only MISSING_FROM_XML and EXTRA_IN_XML entries, in the interleaved order of
the diff, with a running line counter advancing on every diff entry, and it
renders no per-unit MATCHED lines and never emits its every-15th-line
progress marker (the one-character `entry[0]` can never equal the
two-character `'  '`), and produces no count or percentage summary items. -/
theorem c5_report_contents :
    (∀ (pdfParas xmlPool : List String),
      (drawTableSummary pdfParas xmlPool).1
          = ((drawTableRows pdfParas xmlPool).filter
              (fun r => r.2 == RecStatus.matched)).length
        ∧ (drawTableSummary pdfParas xmlPool).2.1 = pdfParas.length
        ∧ (drawTableSummary pdfParas xmlPool).2.2
          = (if pdfParas.isEmpty then 0 else
              (((drawTableRows pdfParas xmlPool).filter
                (fun r => r.2 == RecStatus.matched)).length : ℚ)
                / (pdfParas.length : ℚ) * 100))
    ∧ (∀ (entry : String) (rest : List String) (n : Nat),
        strTake 1 entry = "-" →
          drawGraphGo (entry :: rest) n
            = .missingInXml n ⟨entry.data.drop 2⟩ :: drawGraphGo rest (n + 1))
    ∧ (∀ (entry : String) (rest : List String) (n : Nat),
        strTake 1 entry = "+" →
          drawGraphGo (entry :: rest) n
            = .extraInXml n ⟨entry.data.drop 2⟩ :: drawGraphGo rest (n + 1))
    ∧ (∀ (entry : String) (rest : List String) (n : Nat),
        strTake 1 entry ≠ "-" → strTake 1 entry ≠ "+" →
          drawGraphGo (entry :: rest) n = drawGraphGo rest (n + 1))
    ∧ (∀ (diff : List String) (n k : Nat),
        ReportItem.okMarker k ∉ drawGraphGo diff n) := by
  have hrows : ∀ (pdfParas xmlPool : List String),
      ((drawTableRows pdfParas xmlPool).filter
        (fun r => r.2 == RecStatus.matched)).length
      = ((pdfParas.filter (fun p => containmentMatch xmlPool p)).length) := by
    intro pdfParas xmlPool
    rw [drawTableRows, filterMapComm, List.length_map]
    congr 1
    apply congrArg (fun q => List.filter q pdfParas)
    funext p
    rw [containmentStatus]
    by_cases h : containmentMatch xmlPool p
    · simp [h]
    · simp [h]
  refine ⟨?_, ?_, ?_, ?_, drawGraphGo_no_marker⟩
  · intro pdfParas xmlPool
    refine ⟨?_, rfl, ?_⟩
    · rw [hrows]
      rfl
    · rw [hrows]
      rfl
  · intro entry rest n h
    rw [drawGraphGo, strTakeOneNeTwoSpaces]
    simp [h]
  · intro entry rest n h
    rw [drawGraphGo, strTakeOneNeTwoSpaces]
    have hm : (strTake 1 entry == "-") = false := by
      rw [beq_eq_false_iff_ne]
      rw [h]
      decide
    simp [h, hm]
  · intro entry rest n h1 h2
    rw [drawGraphGo, strTakeOneNeTwoSpaces]
    simp [beq_eq_false_iff_ne.mpr h1, beq_eq_false_iff_ne.mpr h2]

/-- C5 witness: the amended rendering equations applied to concrete `'- '`
and `'+ '` entries and a concrete matched entry. -/
theorem c5_witness :
    drawGraphGo ["- B."] 1 = [.missingInXml 1 "B."]
      ∧ drawGraphGo ["+ C."] 5 = [.extraInXml 5 "C."]
      ∧ drawGraphGo ["  A."] 15 = [] := by
  refine ⟨?_, ?_, ?_⟩
  · rw [c5_report_contents.2.1 "- B." [] 1 (by decide)]
    rfl
  · rw [c5_report_contents.2.2.1 "+ C." [] 5 (by decide)]
    rfl
  · rw [c5_report_contents.2.2.2.1 "  A." [] 15 (by decide) (by decide)]
    rfl

/-! ### C4 — alignment-mode classification: SequenceMatcher soundness -/

theorem b2jInsert_sound {α : Type} [BEq α] [LawfulBEq α] [Inhabited α]
    (b : List α) (k : α) (i : Nat) (hk : b.getD i default = k) :
    ∀ (m : List (α × List Nat)),
      (∀ pr ∈ m, ∀ j ∈ pr.2, b.getD j default = pr.1) →
      ∀ pr ∈ b2jInsert m k i, ∀ j ∈ pr.2, b.getD j default = pr.1 := by
  intro m
  induction m with
  | nil =>
    intro _ pr hpr j hj
    rw [b2jInsert] at hpr
    rw [List.mem_singleton] at hpr
    subst hpr
    rw [List.mem_singleton] at hj
    subst hj
    exact hk
  | cons hd rest ih =>
    intro hm pr hpr j hj
    match hd with
    | (k', is) =>
      rw [b2jInsert] at hpr
      by_cases hkk : (k' == k) = true
      · rw [if_pos hkk] at hpr
        rcases List.mem_cons.mp hpr with heq | htl
        · subst heq
          rcases List.mem_append.mp hj with hin | hin
          · exact hm (k', is) (List.mem_cons_self _ _) j hin
          · rw [List.mem_singleton] at hin
            subst hin
            rw [hk]
            exact (eq_of_beq hkk).symm
        · exact hm pr (List.mem_cons_of_mem _ htl) j hj
      · rw [if_neg hkk] at hpr
        rcases List.mem_cons.mp hpr with heq | htl
        · subst heq
          exact hm (k', is) (List.mem_cons_self _ _) j hj
        · exact ih (fun q hq => hm q (List.mem_cons_of_mem _ hq)) pr htl j hj

theorem enumFrom_getD {α : Type} [Inhabited α] :
    ∀ (l : List α) (s : Nat) (p : Nat × α), p ∈ l.enumFrom s →
      s ≤ p.1 ∧ l.getD (p.1 - s) default = p.2 := by
  intro l
  induction l with
  | nil => intro s p hp; simp [List.enumFrom] at hp
  | cons x xs ih =>
    intro s p hp
    rw [List.enumFrom] at hp
    rcases List.mem_cons.mp hp with heq | htl
    · subst heq
      simp
    · obtain ⟨h1, h2⟩ := ih (s + 1) p htl
      refine ⟨by omega, ?_⟩
      have : p.1 - s = (p.1 - (s + 1)) + 1 := by omega
      rw [this, List.getD_cons_succ, h2]

theorem b2jRaw_sound {α : Type} [BEq α] [LawfulBEq α] [Inhabited α] (b : List α) :
    ∀ pr ∈ b2jRaw b, ∀ j ∈ pr.2, b.getD j default = pr.1 := by
  rw [b2jRaw]
  have hgen : ∀ (l : List (Nat × α)) (m : List (α × List Nat)),
      (∀ pr ∈ m, ∀ j ∈ pr.2, b.getD j default = pr.1) →
      (∀ p ∈ l, b.getD p.1 default = p.2) →
      ∀ pr ∈ l.foldl (fun m p => b2jInsert m p.2 p.1) m,
        ∀ j ∈ pr.2, b.getD j default = pr.1 := by
    intro l
    induction l with
    | nil => intro m hm _ pr hpr; exact hm pr hpr
    | cons p t ih =>
      intro m hm hl pr hpr
      rw [List.foldl_cons] at hpr
      exact ih (b2jInsert m p.2 p.1)
        (b2jInsert_sound b p.2 p.1 (hl p (List.mem_cons_self _ _)) m hm)
        (fun q hq => hl q (List.mem_cons_of_mem _ hq)) pr hpr
  refine hgen b.enum [] (by simp) ?_
  intro p hp
  exact (enumFrom_getD b 0 p (by simpa [List.enum] using hp)).2.trans rfl |>.trans rfl
    |> fun h => by simpa using h

theorem findPred {α : Type} (p : α → Bool) :
    ∀ (l : List α) (r : α), l.find? p = some r → p r = true ∧ r ∈ l := by
  intro l
  induction l with
  | nil => intro r h; simp at h
  | cons a t ih =>
    intro r h
    rw [List.find?_cons] at h
    by_cases hp : p a
    · rw [hp] at h
      injection h with h
      subst h
      exact ⟨hp, List.mem_cons_self _ _⟩
    · rw [Bool.not_eq_true] at hp
      rw [hp] at h
      obtain ⟨h1, h2⟩ := ih r h
      exact ⟨h1, List.mem_cons_of_mem _ h2⟩

theorem b2jGet_sound {α : Type} [BEq α] [LawfulBEq α] [Inhabited α]
    (b : List α) (junk : α → Bool) (x : α) (j : Nat)
    (hj : j ∈ b2jGet (mkB2j junk b) x) : b.getD j default = x := by
  rw [b2jGet] at hj
  match hfind : (mkB2j junk b).find? (fun p => p.1 == x) with
  | none => rw [hfind] at hj; simp at hj
  | some pr =>
    rw [hfind] at hj
    obtain ⟨hpred, hmem⟩ := findPred _ _ _ hfind
    have hx : pr.1 = x := eq_of_beq hpred
    have hraw : pr ∈ b2jRaw b := by
      simp only [mkB2j] at hmem
      split at hmem
      · exact List.mem_of_mem_filter (List.mem_of_mem_filter hmem)
      · exact List.mem_of_mem_filter hmem
    rw [← hx]
    exact b2jRaw_sound b pr hraw j hj

theorem j2lenGet_nil (j : Nat) : j2lenGet [] j = 0 := rfl

theorem j2lenGet_cons_self (j k : Nat) (m : List (Nat × Nat)) :
    j2lenGet ((j, k) :: m) j = k := by
  simp [j2lenGet, List.find?_cons]

theorem j2lenGet_cons_ne (j0 k0 j : Nat) (m : List (Nat × Nat)) (h : j ≠ j0) :
    j2lenGet ((j0, k0) :: m) j = j2lenGet m j := by
  have hb : (j0 == j) = false := by
    simp [Ne.symm h]
  simp [j2lenGet, List.find?_cons, hb]

theorem j2lenGet_set :
    ∀ (m : List (Nat × Nat)) (j k j' : Nat),
      j2lenGet (j2lenSet m j k) j' = if j' = j then k else j2lenGet m j' := by
  intro m
  induction m with
  | nil =>
    intro j k j'
    rw [j2lenSet]
    by_cases h : j' = j
    · subst h
      rw [if_pos rfl, j2lenGet_cons_self]
    · rw [if_neg h, j2lenGet_cons_ne _ _ _ _ h]
  | cons hd rest ih =>
    intro j k j'
    obtain ⟨j0, k0⟩ := hd
    rw [j2lenSet]
    by_cases h0 : j0 = j
    · subst h0
      rw [if_pos (by simp)]
      by_cases h : j' = j0
      · subst h
        rw [if_pos rfl, j2lenGet_cons_self]
      · rw [if_neg h, j2lenGet_cons_ne _ _ _ _ h, j2lenGet_cons_ne _ _ _ _ h]
    · rw [if_neg (by simp [h0])]
      by_cases h : j' = j0
      · subst h
        rw [j2lenGet_cons_self, j2lenGet_cons_self,
          if_neg (fun hc => h0 (by rw [hc]))]
      · rw [j2lenGet_cons_ne _ _ _ _ h, j2lenGet_cons_ne _ _ _ _ h, ih]
theorem flmJs_sound {α : Type} [Inhabited α] (a b : List α)
    (alo ahi blo bhi i : Nat) (hi1 : alo ≤ i) (hi2 : i < ahi) :
    ∀ (js : List Nat) (j2len nj : List (Nat × Nat)) (best : FlmBest),
      (∀ j ∈ js, b.getD j default = a.getD i default) →
      (∀ j, j2lenGet j2len j ≠ 0 →
        1 ≤ i ∧ blo ≤ j ∧ ChainEnd a b alo blo (i - 1) j (j2lenGet j2len j)) →
      (∀ j, j2lenGet nj j ≠ 0 →
        blo ≤ j ∧ ChainEnd a b alo blo i j (j2lenGet nj j)) →
      GoodMatch a b alo ahi blo bhi best →
      (∀ j, j2lenGet (flmJs blo bhi i j2len js nj best).1 j ≠ 0 →
        blo ≤ j ∧ ChainEnd a b alo blo i j
          (j2lenGet (flmJs blo bhi i j2len js nj best).1 j))
      ∧ GoodMatch a b alo ahi blo bhi (flmJs blo bhi i j2len js nj best).2 := by
  intro js
  induction js with
  | nil =>
    intro j2len nj best _ _ hnj hbest
    exact ⟨hnj, hbest⟩
  | cons j js ih =>
    intro j2len nj best hEq hrow hnj hbest
    rw [flmJs]
    by_cases hblo : j < blo
    · rw [if_pos hblo]
      exact ih j2len nj best (fun q hq => hEq q (List.mem_cons_of_mem _ hq))
        hrow hnj hbest
    · rw [if_neg hblo]
      by_cases hbhi : bhi ≤ j
      · rw [if_pos hbhi]
        exact ⟨hnj, hbest⟩
      · rw [if_neg hbhi]
        have hjb : blo ≤ j := Nat.le_of_not_lt hblo
        have hjh : j < bhi := Nat.lt_of_not_le hbhi
        have hEqj : b.getD j default = a.getD i default :=
          hEq j (List.mem_cons_self _ _)
        have hchain : ChainEnd a b alo blo i j
            ((if j = 0 then 0 else j2lenGet j2len (j - 1)) + 1) := by
          by_cases hj0 : j = 0
          · subst hj0
            rw [if_pos rfl]
            refine ⟨by omega, by omega, ?_⟩
            intro d hd
            have hd0 : d = 0 := by omega
            subst hd0
            simpa using hEqj.symm
          · rw [if_neg hj0]
            by_cases hk0 : j2lenGet j2len (j - 1) = 0
            · rw [hk0]
              refine ⟨by omega, by omega, ?_⟩
              intro d hd
              have hd0 : d = 0 := by omega
              subst hd0
              simpa using hEqj.symm
            · obtain ⟨hi1', hjb', hce⟩ := hrow (j - 1) hk0
              obtain ⟨hc1, hc2, hc3⟩ := hce
              refine ⟨by omega, by omega, ?_⟩
              intro d hd
              match d with
              | 0 => simpa using hEqj.symm
              | d' + 1 =>
                have e1 : i - (d' + 1) = (i - 1) - d' := by omega
                have e2 : j - (d' + 1) = (j - 1) - d' := by omega
                rw [e1, e2]
                exact hc3 d' (by omega)
        set k := (if j = 0 then 0 else j2lenGet j2len (j - 1)) + 1 with hk
        obtain ⟨hc1, hc2, hc3⟩ := hchain
        have hnj' : ∀ q, j2lenGet (j2lenSet nj j k) q ≠ 0 →
            blo ≤ q ∧ ChainEnd a b alo blo i q (j2lenGet (j2lenSet nj j k) q) := by
          intro q hq
          rw [j2lenGet_set] at hq ⊢
          by_cases hqj : q = j
          · subst hqj
            rw [if_pos rfl] at hq ⊢
            exact ⟨hjb, hc1, hc2, hc3⟩
          · rw [if_neg hqj] at hq ⊢
            exact hnj q hq
        have hbest' : GoodMatch a b alo ahi blo bhi
            (if k > best.size then FlmBest.mk (i + 1 - k) (j + 1 - k) k
             else best) := by
          by_cases hgt : k > best.size
          · rw [if_pos hgt]
            refine ⟨?_, ?_, ?_, ?_, ?_⟩
            · show alo ≤ i + 1 - k
              omega
            · show blo ≤ j + 1 - k
              omega
            · show i + 1 - k + k ≤ ahi
              omega
            · show j + 1 - k + k ≤ bhi
              omega
            · intro d hd
              have hdk : d < k := hd
              show a.getD (i + 1 - k + d) default = b.getD (j + 1 - k + d) default
              have e1 : i + 1 - k + d = i - (k - 1 - d) := by omega
              have e2 : j + 1 - k + d = j - (k - 1 - d) := by omega
              rw [e1, e2]
              exact hc3 (k - 1 - d) (by omega)
          · rw [if_neg hgt]
            exact hbest
        exact ih j2len (j2lenSet nj j k)
          (if k > best.size then FlmBest.mk (i + 1 - k) (j + 1 - k) k else best)
          (fun q hq => hEq q (List.mem_cons_of_mem _ hq)) hrow hnj' hbest'
theorem flmRows_sound {α : Type} [BEq α] [Inhabited α] (a b : List α)
    (b2j : List (α × List Nat)) (alo ahi blo bhi : Nat)
    (hb2j : ∀ (x : α) (j : Nat), j ∈ b2jGet b2j x → b.getD j default = x) :
    ∀ (n i0 : Nat) (j2len : List (Nat × Nat)) (best : FlmBest),
      alo ≤ i0 → i0 + n ≤ ahi →
      (∀ j, j2lenGet j2len j ≠ 0 →
        1 ≤ i0 ∧ blo ≤ j ∧ ChainEnd a b alo blo (i0 - 1) j (j2lenGet j2len j)) →
      GoodMatch a b alo ahi blo bhi best →
      GoodMatch a b alo ahi blo bhi
        (flmRows a b2j blo bhi (List.range' i0 n) j2len best) := by
  intro n
  induction n with
  | zero =>
    intro i0 j2len best _ _ _ hbest
    exact hbest
  | succ n ih =>
    intro i0 j2len best hlo hhi hrow hbest
    rw [List.range'_succ, flmRows]
    have hstep := flmJs_sound a b alo ahi blo bhi i0 hlo (by omega)
      (b2jGet b2j (a.getD i0 default)) j2len [] best
      (fun j hj => hb2j _ j hj) hrow
      (fun j hj => absurd rfl hj) hbest
    exact ih (i0 + 1)
      (flmJs blo bhi i0 j2len (b2jGet b2j (a.getD i0 default)) [] best).1
      (flmJs blo bhi i0 j2len (b2jGet b2j (a.getD i0 default)) [] best).2
      (by omega) (by omega)
      (fun j hj => ⟨by omega, (hstep.1 j hj).1, by
        simpa using (hstep.1 j hj).2⟩)
      hstep.2

theorem extLeftF_good {α : Type} [Inhabited α] (a b : List α)
    (cond : Nat → Nat → Bool) (alo ahi blo bhi : Nat)
    (hcond : ∀ i j, cond i j = true → a.getD i default = b.getD j default) :
    ∀ (fuel : Nat) (best : FlmBest),
      GoodMatch a b alo ahi blo bhi best →
      GoodMatch a b alo ahi blo bhi (extLeftF cond alo blo fuel best) := by
  intro fuel
  induction fuel with
  | zero => intro best hbest; exact hbest
  | succ fuel ih =>
    intro best hbest
    rw [extLeftF]
    by_cases hc : alo < best.i ∧ blo < best.j ∧ cond (best.i - 1) (best.j - 1) = true
    · rw [if_pos (by simp [hc.1, hc.2.1, hc.2.2])]
      obtain ⟨hb1, hb2, hb3, hb4, hb5⟩ := hbest
      refine ih _ ⟨?_, ?_, ?_, ?_, ?_⟩
      · show alo ≤ best.i - 1
        omega
      · show blo ≤ best.j - 1
        omega
      · show best.i - 1 + (best.size + 1) ≤ ahi
        omega
      · show best.j - 1 + (best.size + 1) ≤ bhi
        omega
      · intro d hd
        have hdk : d < best.size + 1 := hd
        show a.getD (best.i - 1 + d) default = b.getD (best.j - 1 + d) default
        match d with
        | 0 =>
          simpa using hcond _ _ hc.2.2
        | d' + 1 =>
          have e1 : best.i - 1 + (d' + 1) = best.i + d' := by omega
          have e2 : best.j - 1 + (d' + 1) = best.j + d' := by omega
          rw [e1, e2]
          exact hb5 d' (by omega)
    · have : (alo < best.i && blo < best.j
          && cond (best.i - 1) (best.j - 1)) = false := by
        by_cases h1 : alo < best.i
        · by_cases h2 : blo < best.j
          · have h3 : cond (best.i - 1) (best.j - 1) = false := by
              by_cases h3' : cond (best.i - 1) (best.j - 1) = true
              · exact absurd ⟨h1, h2, h3'⟩ hc
              · simpa using h3'
            simp [h1, h2, h3]
          · simp [h2]
        · simp [h1]
      rw [if_neg (by simp [this])]
      exact hbest

theorem extRightF_good {α : Type} [Inhabited α] (a b : List α)
    (cond : Nat → Nat → Bool) (alo ahi blo bhi : Nat)
    (hcond : ∀ i j, cond i j = true → a.getD i default = b.getD j default) :
    ∀ (fuel : Nat) (best : FlmBest),
      GoodMatch a b alo ahi blo bhi best →
      GoodMatch a b alo ahi blo bhi (extRightF cond ahi bhi fuel best) := by
  intro fuel
  induction fuel with
  | zero => intro best hbest; exact hbest
  | succ fuel ih =>
    intro best hbest
    rw [extRightF]
    by_cases hc : best.i + best.size < ahi ∧ best.j + best.size < bhi
        ∧ cond (best.i + best.size) (best.j + best.size) = true
    · rw [if_pos (by simp [hc.1, hc.2.1, hc.2.2])]
      obtain ⟨hb1, hb2, hb3, hb4, hb5⟩ := hbest
      refine ih _ ⟨hb1, hb2, ?_, ?_, ?_⟩
      · show best.i + (best.size + 1) ≤ ahi
        omega
      · show best.j + (best.size + 1) ≤ bhi
        omega
      · intro d hd
        have hdk : d < best.size + 1 := hd
        show a.getD (best.i + d) default = b.getD (best.j + d) default
        by_cases hds : d < best.size
        · exact hb5 d hds
        · have : d = best.size := by omega
          subst this
          exact hcond _ _ hc.2.2
    · have : (best.i + best.size < ahi && best.j + best.size < bhi
          && cond (best.i + best.size) (best.j + best.size)) = false := by
        by_cases h1 : best.i + best.size < ahi
        · by_cases h2 : best.j + best.size < bhi
          · have h3 : cond (best.i + best.size) (best.j + best.size) = false := by
              by_cases h3' : cond (best.i + best.size) (best.j + best.size) = true
              · exact absurd ⟨h1, h2, h3'⟩ hc
              · simpa using h3'
            simp [h1, h2, h3]
          · simp [h2]
        · simp [h1]
      rw [if_neg (by simp [this])]
      exact hbest

theorem findLongestMatch_good {α : Type} [BEq α] [LawfulBEq α] [Inhabited α]
    (isjunk : α → Bool) (a b : List α) (alo ahi blo bhi : Nat)
    (hal : alo ≤ ahi) (hbl : blo ≤ bhi) :
    GoodMatch a b alo ahi blo bhi
      (findLongestMatch isjunk a b (mkB2j isjunk b) alo ahi blo bhi) := by
  rw [findLongestMatch]
  have hcond1 : ∀ i j,
      (!isjunk (b.getD j default) && (a.getD i default == b.getD j default)) = true →
      a.getD i default = b.getD j default := by
    intro i j h
    simp only [Bool.and_eq_true, beq_iff_eq] at h
    exact h.2
  have hcond2 : ∀ i j,
      (isjunk (b.getD j default) && (a.getD i default == b.getD j default)) = true →
      a.getD i default = b.getD j default := by
    intro i j h
    simp only [Bool.and_eq_true, beq_iff_eq] at h
    exact h.2
  have h0 : GoodMatch a b alo ahi blo bhi (FlmBest.mk alo blo 0) := by
    refine ⟨Nat.le_refl _, Nat.le_refl _, by simpa using hal, by simpa using hbl, ?_⟩
    intro d hd
    exact absurd hd (by simp [FlmBest.size])
  have h1 := flmRows_sound a b (mkB2j isjunk b) alo ahi blo bhi
    (fun x j hj => b2jGet_sound b isjunk x j hj)
    (ahi - alo) alo [] (FlmBest.mk alo blo 0) (Nat.le_refl _) (by omega)
    (fun j hj => absurd rfl hj) h0
  exact extRightF_good a b _ alo ahi blo bhi hcond2 ahi _
    (extLeftF_good a b _ alo ahi blo bhi hcond2 _ _
      (extRightF_good a b _ alo ahi blo bhi hcond1 ahi _
        (extLeftF_good a b _ alo ahi blo bhi hcond1 _ _ h1)))
theorem chainOK_cursor_le {α : Type} [Inhabited α] (a b : List α) (ahi bhi : Nat)
    (l : List FlmBest) (i j i' j' : Nat) (h1 : i' ≤ i) (h2 : j' ≤ j)
    (h : ChainOK a b ahi bhi i j l) : ChainOK a b ahi bhi i' j' l := by
  cases l with
  | nil => trivial
  | cons m rest =>
    replace h : i ≤ m.i ∧ j ≤ m.j ∧ 1 ≤ m.size ∧ m.i + m.size ≤ ahi
        ∧ m.j + m.size ≤ bhi ∧ SoundBlock a b m
        ∧ ChainOK a b ahi bhi (m.i + m.size) (m.j + m.size) rest := h
    exact ⟨Nat.le_trans h1 h.1, Nat.le_trans h2 h.2.1, h.2.2⟩

theorem chainOK_append {α : Type} [Inhabited α] (a b : List α)
    (ahi bhi p q : Nat) (l2 : List FlmBest)
    (hp : p ≤ ahi) (hq : q ≤ bhi) (h2 : ChainOK a b ahi bhi p q l2) :
    ∀ (l1 : List FlmBest) (i j : Nat), i ≤ p → j ≤ q →
      ChainOK a b p q i j l1 → ChainOK a b ahi bhi i j (l1 ++ l2) := by
  intro l1
  induction l1 with
  | nil =>
    intro i j hip hjq _
    exact chainOK_cursor_le a b ahi bhi l2 p q i j hip hjq h2
  | cons m rest ih =>
    intro i j hip hjq h
    replace h : i ≤ m.i ∧ j ≤ m.j ∧ 1 ≤ m.size ∧ m.i + m.size ≤ p
        ∧ m.j + m.size ≤ q ∧ SoundBlock a b m
        ∧ ChainOK a b p q (m.i + m.size) (m.j + m.size) rest := h
    obtain ⟨hc1, hc2, hc3, hc4, hc5, hc6, hc7⟩ := h
    exact ⟨hc1, hc2, hc3, by omega, by omega, hc6,
      ih (m.i + m.size) (m.j + m.size) hc4 hc5 hc7⟩

theorem matchingBlocksF_chain {α : Type} [Inhabited α] (a b : List α)
    (flm : Nat → Nat → Nat → Nat → FlmBest)
    (hflm : ∀ alo ahi blo bhi, alo ≤ ahi → blo ≤ bhi →
      GoodMatch a b alo ahi blo bhi (flm alo ahi blo bhi)) :
    ∀ (fuel alo ahi blo bhi : Nat), alo ≤ ahi → blo ≤ bhi →
      (ahi - alo) + (bhi - blo) < fuel →
      ChainOK a b ahi bhi alo blo (matchingBlocksF flm fuel alo ahi blo bhi) := by
  intro fuel
  induction fuel with
  | zero =>
    intro alo ahi blo bhi _ _ hfuel
    exact absurd hfuel (by omega)
  | succ fuel ih =>
    intro alo ahi blo bhi hal hbl hfuel
    simp only [matchingBlocksF]
    have hm : alo ≤ (flm alo ahi blo bhi).i ∧ blo ≤ (flm alo ahi blo bhi).j
        ∧ (flm alo ahi blo bhi).i + (flm alo ahi blo bhi).size ≤ ahi
        ∧ (flm alo ahi blo bhi).j + (flm alo ahi blo bhi).size ≤ bhi
        ∧ SoundBlock a b (flm alo ahi blo bhi) := hflm alo ahi blo bhi hal hbl
    set M := flm alo ahi blo bhi with hMdef
    obtain ⟨hm1, hm2, hm3, hm4, hm5⟩ := hm
    by_cases hz : M.size = 0
    · rw [if_pos hz]
      trivial
    · rw [if_neg hz]
      have hs1 : 1 ≤ M.size := by omega
      have hright : ChainOK a b ahi bhi (M.i + M.size) (M.j + M.size)
          (if M.i + M.size < ahi && M.j + M.size < bhi then
            matchingBlocksF flm fuel (M.i + M.size) ahi (M.j + M.size) bhi
          else []) := by
        by_cases hc2 : M.i + M.size < ahi ∧ M.j + M.size < bhi
        · rw [if_pos (by simp [hc2.1, hc2.2])]
          exact ih (M.i + M.size) ahi (M.j + M.size) bhi (by omega) (by omega)
            (by omega)
        · rw [if_neg (by simpa using hc2)]
          trivial
      have hleft : ChainOK a b M.i M.j alo blo
          (if alo < M.i && blo < M.j then
            matchingBlocksF flm fuel alo M.i blo M.j
          else []) := by
        by_cases hc1 : alo < M.i ∧ blo < M.j
        · rw [if_pos (by simp [hc1.1, hc1.2])]
          exact ih alo M.i blo M.j (by omega) (by omega) (by omega)
        · rw [if_neg (by simpa using hc1)]
          trivial
      rw [List.append_assoc]
      refine chainOK_append a b ahi bhi M.i M.j ([M] ++ _) (by omega) (by omega)
        ?_ _ alo blo hm1 hm2 hleft
      exact ⟨Nat.le_refl _, Nat.le_refl _, hs1, hm3, hm4, hm5, hright⟩

theorem mergeAdjacent_chain {α : Type} [Inhabited α] (a b : List α)
    (ahi bhi : Nat) :
    ∀ (l : List FlmBest) (i1 j1 k1 i j : Nat),
      i ≤ i1 → j ≤ j1 → i1 + k1 ≤ ahi → j1 + k1 ≤ bhi →
      (k1 ≠ 0 → SoundBlock a b (FlmBest.mk i1 j1 k1)) →
      ChainOK a b ahi bhi (i1 + k1) (j1 + k1) l →
      ChainOK a b ahi bhi i j (mergeAdjacent l i1 j1 k1) := by
  intro l
  induction l with
  | nil =>
    intro i1 j1 k1 i j h1 h2 h3 h4 hs _
    rw [mergeAdjacent]
    by_cases hk : k1 ≠ 0
    · rw [if_pos hk]
      exact ⟨h1, h2, Nat.one_le_iff_ne_zero.mpr hk, h3, h4, hs hk, trivial⟩
    · rw [if_neg hk]
      trivial
  | cons m rest ih =>
    intro i1 j1 k1 i j h1 h2 h3 h4 hs hch
    rw [mergeAdjacent]
    replace hch : i1 + k1 ≤ m.i ∧ j1 + k1 ≤ m.j ∧ 1 ≤ m.size
        ∧ m.i + m.size ≤ ahi ∧ m.j + m.size ≤ bhi ∧ SoundBlock a b m
        ∧ ChainOK a b ahi bhi (m.i + m.size) (m.j + m.size) rest := hch
    obtain ⟨hc1, hc2, hc3, hc4, hc5, hc6, hc7⟩ := hch
    by_cases heq : i1 + k1 = m.i ∧ j1 + k1 = m.j
    · rw [if_pos (by simp [heq.1, heq.2])]
      apply ih i1 j1 (k1 + m.size) i j h1 h2 (by omega) (by omega)
      · intro _
        intro d hd
        have hdk : d < k1 + m.size := hd
        show a.getD (i1 + d) default = b.getD (j1 + d) default
        by_cases hdlt : d < k1
        · exact hs (by omega) d hdlt
        · have e1 : i1 + d = m.i + (d - k1) := by omega
          have e2 : j1 + d = m.j + (d - k1) := by omega
          rw [e1, e2]
          exact hc6 (d - k1) (by omega)
      · have e1 : i1 + (k1 + m.size) = m.i + m.size := by omega
        have e2 : j1 + (k1 + m.size) = m.j + m.size := by omega
        rw [e1, e2]
        exact hc7
    · rw [if_neg (by simpa using heq)]
      have hrec := ih m.i m.j m.size (i1 + k1) (j1 + k1) hc1 hc2 hc4 hc5
        (fun _ => hc6) hc7
      by_cases hk : k1 ≠ 0
      · rw [if_pos hk]
        exact ⟨h1, h2, Nat.one_le_iff_ne_zero.mpr hk, h3, h4, hs hk, hrec⟩
      · rw [if_neg hk]
        rw [List.nil_append]
        exact chainOK_cursor_le a b ahi bhi _ (i1 + k1) (j1 + k1) i j
          (by omega) (by omega) hrec

theorem blocksOK_of_chain {α : Type} [Inhabited α] (a b : List α) :
    ∀ (l : List FlmBest) (i j : Nat),
      ChainOK a b a.length b.length i j l → i ≤ a.length → j ≤ b.length →
      BlocksOK a b i j (l ++ [FlmBest.mk a.length b.length 0]) := by
  intro l
  induction l with
  | nil =>
    intro i j _ hi hj
    exact ⟨rfl, hi, hj⟩
  | cons m rest ih =>
    intro i j hch hi hj
    replace hch : i ≤ m.i ∧ j ≤ m.j ∧ 1 ≤ m.size ∧ m.i + m.size ≤ a.length
        ∧ m.j + m.size ≤ b.length ∧ SoundBlock a b m
        ∧ ChainOK a b a.length b.length (m.i + m.size) (m.j + m.size) rest := hch
    obtain ⟨hc1, hc2, hc3, hc4, hc5, hc6, hc7⟩ := hch
    have hrec := ih (m.i + m.size) (m.j + m.size) hc7 (by omega) (by omega)
    cases rest with
    | nil => exact ⟨hc1, hc2, hc3, hc4, hc5, hc6, hrec⟩
    | cons m2 rest2 => exact ⟨hc1, hc2, hc3, hc4, hc5, hc6, hrec⟩

theorem getMatchingBlocks_ok {α : Type} [BEq α] [LawfulBEq α] [Inhabited α]
    (isjunk : α → Bool) (a b : List α) :
    BlocksOK a b 0 0 (getMatchingBlocks isjunk a b) := by
  simp only [getMatchingBlocks]
  apply blocksOK_of_chain a b _ 0 0 _ (Nat.zero_le _) (Nat.zero_le _)
  apply mergeAdjacent_chain a b a.length b.length _ 0 0 0 0 0
    (Nat.le_refl _) (Nat.le_refl _) (Nat.zero_le _) (Nat.zero_le _)
    (fun h => absurd rfl h)
  exact matchingBlocksF_chain a b _
    (fun alo ahi blo bhi hal hbl => findLongestMatch_good isjunk a b
      alo ahi blo bhi hal hbl)
    (a.length + b.length + 1) 0 a.length 0 b.length
    (Nat.zero_le _) (Nat.zero_le _) (by omega)
theorem sliceGetD_empty {α : Type} [Inhabited α] (l : List α) (lo : Nat) :
    sliceGetD l lo lo = [] := by
  rw [sliceGetD, Nat.sub_self]
  rfl

theorem sliceGetD_split {α : Type} [Inhabited α] (l : List α) (lo mid hi : Nat)
    (h1 : lo ≤ mid) (h2 : mid ≤ hi) :
    sliceGetD l lo hi = sliceGetD l lo mid ++ sliceGetD l mid hi := by
  rw [sliceGetD, sliceGetD, sliceGetD, ← List.map_append]
  have e : hi - lo = (hi - mid) + (mid - lo) := by omega
  rw [e, ← List.range'_append]
  have e2 : lo + 1 * (mid - lo) = mid := by omega
  rw [e2]

theorem sliceGetD_all {α : Type} [Inhabited α] (l : List α) :
    sliceGetD l 0 l.length = l := by
  rw [sliceGetD, Nat.sub_zero]
  apply List.ext_getElem
  · simp
  · intro n h1 h2
    have h3 : n < l.length := by simpa using h2
    simp [List.getElem_range', List.getD, List.getElem?_eq_getElem h3]

theorem sliceGetD_sound {α : Type} [Inhabited α] (a b : List α) (m : FlmBest)
    (hs : SoundBlock a b m) :
    sliceGetD a m.i (m.i + m.size) = sliceGetD b m.j (m.j + m.size) := by
  rw [sliceGetD, sliceGetD, Nat.add_sub_cancel_left, Nat.add_sub_cancel_left]
  apply List.ext_getElem
  · simp
  · intro n h1 h2
    have h3 : n < m.size := by simpa using h1
    simp only [List.getElem_map, List.getElem_range', Nat.one_mul]
    exact hs n h3

theorem filterMapEqMapOn {α β : Type} (g : α → Option β) (f : α → β) :
    ∀ l : List α, (∀ x ∈ l, g x = some (f x)) → l.filterMap g = l.map f := by
  intro l
  induction l with
  | nil => intro _; rfl
  | cons x t ih =>
    intro h
    rw [List.filterMap_cons, h x (List.mem_cons_self _ _), List.map_cons,
      ih (fun y hy => h y (List.mem_cons_of_mem _ hy))]

theorem filterMapNilOn {α β : Type} (g : α → Option β) :
    ∀ l : List α, (∀ x ∈ l, g x = none) → l.filterMap g = [] := by
  intro l
  induction l with
  | nil => intro _; rfl
  | cons x t ih =>
    intro h
    rw [List.filterMap_cons, h x (List.mem_cons_self _ _),
      ih (fun y hy => h y (List.mem_cons_of_mem _ hy))]

theorem projA_append (l1 l2 : List String) :
    projA (l1 ++ l2) = projA l1 ++ projA l2 := by
  simp [projA]

theorem projB_append (l1 l2 : List String) :
    projB (l1 ++ l2) = projB l1 ++ projB l2 := by
  simp [projB]

theorem projA_dump_minus (x : List String) (lo hi : Nat) :
    projA (dumpLines '-' x lo hi) = sliceGetD x lo hi := by
  rw [projA, dumpLines, List.filterMap_map, sliceGetD]
  exact filterMapEqMapOn _ _ _ (fun t _ => rfl)

theorem projA_dump_space (x : List String) (lo hi : Nat) :
    projA (dumpLines ' ' x lo hi) = sliceGetD x lo hi := by
  rw [projA, dumpLines, List.filterMap_map, sliceGetD]
  exact filterMapEqMapOn _ _ _ (fun t _ => rfl)

theorem projA_dump_plus (x : List String) (lo hi : Nat) :
    projA (dumpLines '+' x lo hi) = [] := by
  rw [projA, dumpLines, List.filterMap_map]
  exact filterMapNilOn _ _ (fun t _ => rfl)

theorem projB_dump_plus (x : List String) (lo hi : Nat) :
    projB (dumpLines '+' x lo hi) = sliceGetD x lo hi := by
  rw [projB, dumpLines, List.filterMap_map, sliceGetD]
  exact filterMapEqMapOn _ _ _ (fun t _ => rfl)

theorem projB_dump_space (x : List String) (lo hi : Nat) :
    projB (dumpLines ' ' x lo hi) = sliceGetD x lo hi := by
  rw [projB, dumpLines, List.filterMap_map, sliceGetD]
  exact filterMapEqMapOn _ _ _ (fun t _ => rfl)

theorem projB_dump_minus (x : List String) (lo hi : Nat) :
    projB (dumpLines '-' x lo hi) = [] := by
  rw [projB, dumpLines, List.filterMap_map]
  exact filterMapNilOn _ _ (fun t _ => rfl)
theorem sliceGetD_glue {α : Type} [Inhabited α] (l : List α) (lo m1 m2 hi : Nat)
    (h1 : lo ≤ m1) (h2 : m1 ≤ m2) (h3 : m2 ≤ hi) :
    (sliceGetD l lo m1 ++ sliceGetD l m1 m2) ++ sliceGetD l m2 hi
      = sliceGetD l lo hi := by
  rw [List.append_assoc, ← sliceGetD_split l m1 m2 hi h2 h3,
    ← sliceGetD_split l lo m1 hi h1 (Nat.le_trans h2 h3)]

theorem opcodes_proj (a b : List String) (rend : Opcode → List String)
    (hdel : ∀ op, op.tag = OpTag.delete → rend op = dumpLines '-' a op.a1 op.a2)
    (hins : ∀ op, op.tag = OpTag.insert → rend op = dumpLines '+' b op.b1 op.b2)
    (heqr : ∀ op, op.tag = OpTag.equal → rend op = dumpLines ' ' a op.a1 op.a2) :
    ∀ (blocks : List FlmBest) (i j : Nat),
      BlocksOK a b i j blocks →
      noReplace (opcodesOfBlocks blocks i j) = true →
      projA ((opcodesOfBlocks blocks i j).flatMap rend) = sliceGetD a i a.length
      ∧ projB ((opcodesOfBlocks blocks i j).flatMap rend)
          = sliceGetD b j b.length := by
  intro blocks
  induction blocks with
  | nil =>
    intro i j hB _
    exact (hB : False).elim
  | cons m rest ih =>
    intro i j hB hnr
    cases rest with
    | nil =>
      replace hB : m = FlmBest.mk a.length b.length 0
          ∧ i ≤ a.length ∧ j ≤ b.length := hB
      obtain ⟨hm, hia, hjb⟩ := hB
      have hmi : m.i = a.length := by rw [hm]
      have hmj : m.j = b.length := by rw [hm]
      have hmk : m.size = 0 := by rw [hm]
      rw [opcodesOfBlocks, hmi, hmj, hmk] at hnr ⊢
      rw [opcodesOfBlocks] at hnr ⊢
      have hz : ¬((0 : Nat) ≠ 0) := by simp
      rw [if_neg hz] at hnr ⊢
      simp only [List.append_nil] at hnr ⊢
      by_cases hc : i < a.length ∧ j < b.length
      · exfalso
        have hcb : (decide (i < a.length) && decide (j < b.length)) = true := by
          simp [hc.1, hc.2]
        rw [if_pos hcb] at hnr
        simp [noReplace] at hnr
      · have hcb : ¬((decide (i < a.length) && decide (j < b.length)) = true) := by
          simpa using hc
        rw [if_neg hcb] at hnr ⊢
        by_cases hd : i < a.length
        · have hj' : j = b.length := by omega
          rw [if_pos hd] at hnr ⊢
          subst hj'
          have hDel : rend (Opcode.mk .delete i a.length b.length b.length)
              = dumpLines '-' a i a.length :=
            hdel _ rfl
          constructor
          · rw [List.flatMap_cons, List.flatMap_nil, List.append_nil, hDel,
              projA_dump_minus]
          · rw [List.flatMap_cons, List.flatMap_nil, List.append_nil, hDel,
              projB_dump_minus, sliceGetD_empty]
        · have hi' : i = a.length := by omega
          rw [if_neg hd] at hnr ⊢
          subst hi'
          by_cases he : j < b.length
          · rw [if_pos he] at hnr ⊢
            have hIns : Opcode.tag
                (Opcode.mk .insert a.length a.length j b.length)
                  = OpTag.insert := rfl
            have hIns2 : rend (Opcode.mk .insert a.length a.length j b.length)
                = dumpLines '+' b j b.length :=
              hins _ hIns
            constructor
            · rw [List.flatMap_cons, List.flatMap_nil, List.append_nil, hIns2,
                projA_dump_plus, sliceGetD_empty]
            · rw [List.flatMap_cons, List.flatMap_nil, List.append_nil, hIns2,
                projB_dump_plus]
          · have hj' : j = b.length := by omega
            rw [if_neg he]
            subst hj'
            constructor
            · rw [List.flatMap_nil, projA, List.filterMap_nil, sliceGetD_empty]
            · rw [List.flatMap_nil, projB, List.filterMap_nil, sliceGetD_empty]
    | cons m2 rest2 =>
      replace hB : i ≤ m.i ∧ j ≤ m.j ∧ 1 ≤ m.size ∧ m.i + m.size ≤ a.length
          ∧ m.j + m.size ≤ b.length ∧ SoundBlock a b m
          ∧ BlocksOK a b (m.i + m.size) (m.j + m.size) (m2 :: rest2) := hB
      obtain ⟨h1, h2, h3, h4, h5, h6, h7⟩ := hB
      rw [opcodesOfBlocks] at hnr ⊢
      rw [if_pos (by omega : m.size ≠ 0)] at hnr ⊢
      have hEq : rend (Opcode.mk .equal m.i (m.i + m.size) m.j (m.j + m.size))
          = dumpLines ' ' a m.i (m.i + m.size) :=
        heqr _ rfl
      have eA2 : projA ([Opcode.mk .equal m.i (m.i + m.size) m.j
          (m.j + m.size)].flatMap rend) = sliceGetD a m.i (m.i + m.size) := by
        rw [List.flatMap_cons, List.flatMap_nil, List.append_nil, hEq,
          projA_dump_space]
      have eB2 : projB ([Opcode.mk .equal m.i (m.i + m.size) m.j
          (m.j + m.size)].flatMap rend) = sliceGetD b m.j (m.j + m.size) := by
        rw [List.flatMap_cons, List.flatMap_nil, List.append_nil, hEq,
          projB_dump_space]
        exact sliceGetD_sound a b m h6
      by_cases hc : i < m.i ∧ j < m.j
      · exfalso
        have hcb : (decide (i < m.i) && decide (j < m.j)) = true := by
          simp [hc.1, hc.2]
        rw [if_pos hcb] at hnr
        simp [noReplace] at hnr
      · have hcb : ¬((decide (i < m.i) && decide (j < m.j)) = true) := by
          simpa using hc
        rw [if_neg hcb] at hnr ⊢
        by_cases hd : i < m.i
        · have hj' : j = m.j := by omega
          rw [if_pos hd] at hnr ⊢
          subst hj'
          simp only [noReplace, List.all_append, Bool.and_eq_true] at hnr
          have hrec := ih (m.i + m.size) (m.j + m.size) h7 hnr.2
          have hDel : rend (Opcode.mk .delete i m.i m.j m.j)
              = dumpLines '-' a i m.i :=
            hdel _ rfl
          constructor
          · rw [List.flatMap_append, List.flatMap_append, projA_append,
              projA_append, List.flatMap_cons, List.flatMap_nil,
              List.append_nil, hDel, projA_dump_minus, eA2, hrec.1]
            exact sliceGetD_glue a i m.i (m.i + m.size) a.length
              (by omega) (by omega) (by omega)
          · rw [List.flatMap_append, List.flatMap_append, projB_append,
              projB_append, List.flatMap_cons, List.flatMap_nil,
              List.append_nil, hDel, projB_dump_minus, eB2, hrec.2,
              List.nil_append]
            rw [← sliceGetD_split b m.j (m.j + m.size) b.length
              (by omega) (by omega)]
        · have hi' : i = m.i := by omega
          rw [if_neg hd] at hnr ⊢
          subst hi'
          by_cases he : j < m.j
          · rw [if_pos he] at hnr ⊢
            simp only [noReplace, List.all_append, Bool.and_eq_true] at hnr
            have hrec := ih (m.i + m.size) (m.j + m.size) h7 hnr.2
            have hIns : rend (Opcode.mk .insert m.i m.i j m.j)
                = dumpLines '+' b j m.j :=
              hins _ rfl
            constructor
            · rw [List.flatMap_append, List.flatMap_append, projA_append,
                projA_append, List.flatMap_cons, List.flatMap_nil,
                List.append_nil, hIns, projA_dump_plus, eA2, hrec.1,
                List.nil_append]
              rw [← sliceGetD_split a m.i (m.i + m.size) a.length
                (by omega) (by omega)]
            · rw [List.flatMap_append, List.flatMap_append, projB_append,
                projB_append, List.flatMap_cons, List.flatMap_nil,
                List.append_nil, hIns, projB_dump_plus, eB2, hrec.2]
              exact sliceGetD_glue b j m.j (m.j + m.size) b.length
                (by omega) (by omega) (by omega)
          · have hj' : j = m.j := by omega
            rw [if_neg he] at hnr ⊢
            subst hj'
            simp only [noReplace, List.all_append, Bool.and_eq_true] at hnr
            have hrec := ih (m.i + m.size) (m.j + m.size) h7 hnr.2
            constructor
            · rw [List.nil_append, List.flatMap_append, projA_append, eA2,
                hrec.1]
              rw [← sliceGetD_split a m.i (m.i + m.size) a.length
                (by omega) (by omega)]
            · rw [List.nil_append, List.flatMap_append, projB_append, eB2,
                hrec.2]
              rw [← sliceGetD_split b m.j (m.j + m.size) b.length
                (by omega) (by omega)]
/-- C4: in alignment mode the differ classifies unchanged elements as
MATCHED, PDF-only elements as MISSING_FROM_XML and XML-only elements as
EXTRA_IN_XML.  Concretely, for PDF sequence `["A.", "B.", "C."]` and XML
sequence `["A.", "C."]` the delta classifies `A.` MATCHED, `B.`
MISSING_FROM_XML, `C.` MATCHED with zero EXTRA_IN_XML entries; in general,
whenever the line-level diff produces no `replace` opcode, the MATCHED and
MISSING_FROM_XML payloads of the delta reproduce the PDF sequence exactly and
the MATCHED and EXTRA_IN_XML payloads reproduce the XML sequence exactly, in
order. -/
theorem c4_alignment_classification :
    ((differCompare ["A.", "B.", "C."] ["A.", "C."]).filterMap deltaStatus
      = [("A.", RecStatus.matched), ("B.", RecStatus.missingFromXml),
         ("C.", RecStatus.matched)]
      ∧ ((differCompare ["A.", "B.", "C."] ["A.", "C."]).filterMap
          deltaStatus).countP (fun e => e.2 == RecStatus.extraInXml) = 0)
    ∧ ∀ a b : List String, noReplace (getOpcodes (fun _ => false) a b) = true →
        projA (differCompare a b) = a ∧ projB (differCompare a b) = b := by
  constructor
  · exact ⟨rfl, rfl⟩
  · intro a b hnr
    have hB := getMatchingBlocks_ok (fun _ => false) a b
    have h := opcodes_proj a b
      (fun op => match op.tag with
        | .replace =>
            fancyReplace (a.length + b.length) a op.a1 op.a2 b op.b1 op.b2
        | .delete => dumpLines '-' a op.a1 op.a2
        | .insert => dumpLines '+' b op.b1 op.b2
        | .equal => dumpLines ' ' a op.a1 op.a2)
      (fun op hop => by obtain ⟨t, x1, x2, y1, y2⟩ := op; cases hop; rfl)
      (fun op hop => by obtain ⟨t, x1, x2, y1, y2⟩ := op; cases hop; rfl)
      (fun op hop => by obtain ⟨t, x1, x2, y1, y2⟩ := op; cases hop; rfl)
      (getMatchingBlocks (fun _ => false) a b) 0 0 hB hnr
    have hA : projA (differCompare a b) = sliceGetD a 0 a.length := h.1
    have hBp : projB (differCompare a b) = sliceGetD b 0 b.length := h.2
    exact ⟨hA.trans (sliceGetD_all a), hBp.trans (sliceGetD_all b)⟩

/-- Witness for C4: at the concrete pair `["x", "y"]` vs `["x", "y"]` the
diff has no replace opcode and the PDF-side projection of the delta is the
PDF sequence itself. -/
theorem c4_witness :
    noReplace (getOpcodes (fun _ => false) ["x", "y"] ["x", "y"]) = true
    ∧ projA (differCompare ["x", "y"] ["x", "y"]) = ["x", "y"] :=
  ⟨rfl, (c4_alignment_classification.2 ["x", "y"] ["x", "y"] rfl).1⟩
theorem iterL_self (e : Elem) : e ∈ e.iterL := by
  cases e
  rw [Elem.iterL]
  exact List.mem_cons_self _ _

theorem mem_iterLs_of_mem {l : List Elem} {c : Elem} (hc : c ∈ l) {d : Elem}
    (hd : d ∈ c.iterL) : d ∈ iterLs l := by
  induction l with
  | nil => cases hc
  | cons e es ih =>
    rw [iterLs]
    rcases List.mem_cons.mp hc with h | h
    · subst h
      exact List.mem_append_left _ hd
    · exact List.mem_append_right _ (ih h)

theorem mem_iterL_of_child {t : String} {a : List (String × String)}
    {x : Option String} {c : List Elem} {tl : Option String} {ln : Option Nat}
    {d : Elem} (hd : d ∈ iterLs c) : d ∈ (Elem.mk t a x c tl ln).iterL := by
  rw [Elem.iterL]
  exact List.mem_cons_of_mem _ hd

theorem fixForest_map : ∀ l : List Elem,
    (fixForest l).1 = l.map (fun e => (fixTree e).1) := by
  intro l
  induction l with
  | nil => rfl
  | cons e es ih =>
    simp only [fixForest, List.map_cons]
    rw [ih]

theorem fixTree_tag : ∀ e : Elem, (fixTree e).1.tag = e.tag := by
  intro e
  cases e with
  | mk t a x c tl ln =>
    simp only [fixTree.eq_def]
    by_cases h1 : (t == "publisher" && !(c.any (fun ch => ch.tag == "publisher-loc"))) = true
    · rw [if_pos h1]
      rfl
    · rw [if_neg h1]
      by_cases h2 : ((t == "title" || t == "article-title")
          && singleBoldChild (.mk t a x c tl ln)) = true
      · rw [if_pos h2]
        cases c with
        | nil => rfl
        | cons b rest => rfl
      · rw [if_neg h2]
        rfl

theorem fixTree_attrib : ∀ e : Elem, (fixTree e).1.attrib = e.attrib := by
  intro e
  cases e with
  | mk t a x c tl ln =>
    simp only [fixTree.eq_def]
    by_cases h1 : (t == "publisher" && !(c.any (fun ch => ch.tag == "publisher-loc"))) = true
    · rw [if_pos h1]
      rfl
    · rw [if_neg h1]
      by_cases h2 : ((t == "title" || t == "article-title")
          && singleBoldChild (.mk t a x c tl ln)) = true
      · rw [if_pos h2]
        cases c with
        | nil => rfl
        | cons b rest => rfl
      · rw [if_neg h2]
        rfl

theorem fixTree_newLocElem : fixTree newLocElem = (newLocElem, 0) := rfl

theorem fixTree_ncesElem : fixTree ncesElem = (ncesElem, 0) := rfl

theorem hyphenFix_stable (x : Option String)
    (hx : ∀ t, x = some t → pySubHyphen (pySubHyphen t) = pySubHyphen t) :
    hyphenFix ((hyphenFix x).1) = ((hyphenFix x).1, 0) := by
  cases x with
  | none => rfl
  | some t =>
    simp only [hyphenFix]
    by_cases h0 : (t == "") = true
    · rw [if_pos h0]
      simp only [hyphenFix]
      rw [if_pos h0]
    · rw [if_neg h0]
      have hst := hx t rfl
      by_cases hc : (pySubHyphen t != t) = true
      · rw [if_pos hc]
        simp only [hyphenFix]
        by_cases h0' : (pySubHyphen t == "") = true
        · rw [if_pos h0']
        · rw [if_neg h0']
          rw [if_neg (by simp [hst])]
      · rw [if_neg hc]
        simp only [hyphenFix]
        rw [if_neg h0, if_neg hc]
theorem fixTree_else (t : String) (a : List (String × String)) (x : Option String)
    (c : List Elem) (tl : Option String) (ln : Option Nat)
    (h1 : ¬((t == "publisher" && !(c.any (fun ch => ch.tag == "publisher-loc"))) = true))
    (h2 : ¬(((t == "title" || t == "article-title")
        && singleBoldChild (.mk t a x c tl ln)) = true)) :
    fixTree (.mk t a x c tl ln)
      = (.mk t a (hyphenFix x).1 (fixForest c).1 tl ln,
         (hyphenFix x).2 + (fixForest c).2) := by
  simp only [fixTree.eq_def]
  rw [if_neg h1, if_neg h2]

theorem fixTree_meta : ∀ m : Elem, m.tag = "article-meta" ∨ m.tag = "book-meta" →
    fixTree m = (.mk m.tag m.attrib (hyphenFix m.text).1 (fixForest m.children).1
        m.tail m.line, (hyphenFix m.text).2 + (fixForest m.children).2) := by
  intro m hm
  cases m with
  | mk t a x c tl ln =>
    simp only [Elem.tag] at hm
    rcases hm with h | h
    · subst h
      exact fixTree_else _ _ _ _ _ _ (by simp) (by simp)
    · subst h
      exact fixTree_else _ _ _ _ _ _ (by simp) (by simp)

theorem fixTree_children_meta (m : Elem)
    (hm : m.tag = "article-meta" ∨ m.tag = "book-meta") :
    ((fixTree m).1).children = (fixForest m.children).1 := by
  rw [fixTree_meta m hm]
  rfl

theorem hasNces_fixTree (m : Elem)
    (hm : m.tag = "article-meta" ∨ m.tag = "book-meta") :
    hasNcesChild ((fixTree m).1) = hasNcesChild m := by
  rw [hasNcesChild, hasNcesChild, fixTree_children_meta m hm, fixForest_map,
    List.any_map]
  exact congrArg _ (funext fun ch => by
    simp [Function.comp, attrLookup, fixTree_tag, fixTree_attrib])

theorem children_isEmpty_fixTree (m : Elem)
    (hm : m.tag = "article-meta" ∨ m.tag = "book-meta") :
    ((fixTree m).1).children.isEmpty = m.children.isEmpty := by
  rw [fixTree_children_meta m hm, fixForest_map]
  cases m.children <;> rfl

theorem addNces_tag : ∀ m : Elem, (addNces m).tag = m.tag := by
  intro m
  cases m with
  | mk t a x c tl ln =>
    rw [addNces]
    by_cases h : hasNcesChild (.mk t a x c tl ln) = true
    · rw [if_pos h]
    · rw [if_neg h]
      rfl

theorem addNces_children (m : Elem) (h : ¬(hasNcesChild m = true)) :
    (addNces m).children = ncesElem :: m.children := by
  cases m with
  | mk t a x c tl ln =>
    rw [addNces, if_neg h]
    rfl

theorem addNces_has : ∀ m : Elem, hasNcesChild (addNces m) = true := by
  intro m
  cases m with
  | mk t a x c tl ln =>
    rw [addNces]
    by_cases h : hasNcesChild (.mk t a x c tl ln) = true
    · rw [if_pos h]
      exact h
    · rw [if_neg h]
      simp only [hasNcesChild, Elem.children, List.any_cons]
      have hn : ((ncesElem.tag == "article-id")
          && (attrLookup ncesElem "pub-id-type" == some "nces")) = true := rfl
      rw [hn, Bool.true_or]
theorem findFirst_pred (p : Elem → Bool) :
    ∀ l : List Elem, ∀ m, findFirstL p l = some m → p m = true := by
  have h1 : ∀ t a x c tl ln,
      (∀ m, findFirstL p c = some m → p m = true) →
      (∀ m, (Elem.mk t a x c tl ln).findFirstE p = some m → p m = true) := by
    intro t a x c tl ln ihc m hm
    rw [Elem.findFirstE] at hm
    by_cases hp : p (.mk t a x c tl ln) = true
    · rw [if_pos hp] at hm
      cases hm
      exact hp
    · rw [if_neg hp] at hm
      exact ihc m hm
  have h2 : ∀ m, findFirstL p ([] : List Elem) = some m → p m = true := by
    intro m hm
    rw [findFirstL] at hm
    cases hm
  have h3 : ∀ e es, (∀ m, e.findFirstE p = some m → p m = true) →
      (∀ m, findFirstL p es = some m → p m = true) →
      (∀ m, findFirstL p (e :: es) = some m → p m = true) := by
    intro e es ihe ihes m hm
    rw [findFirstL] at hm
    match hf : e.findFirstE p with
    | some r =>
      rw [hf] at hm
      cases hm
      exact ihe _ hf
    | none =>
      rw [hf] at hm
      exact ihes m hm
  exact @elemRecL (fun e => ∀ m, e.findFirstE p = some m → p m = true)
    (fun l => ∀ m, findFirstL p l = some m → p m = true) h1 h2 h3

theorem findFirstL_none (q : Elem → Bool) :
    ∀ l : List Elem, (∀ z ∈ iterLs l, q z = false) → findFirstL q l = none := by
  have h1 : ∀ t a x c tl ln,
      ((∀ z ∈ iterLs c, q z = false) → findFirstL q c = none) →
      ((∀ z ∈ (Elem.mk t a x c tl ln).iterL, q z = false) →
        (Elem.mk t a x c tl ln).findFirstE q = none) := by
    intro t a x c tl ln ihc hz
    rw [Elem.findFirstE]
    rw [if_neg (by simp [hz _ (iterL_self _)])]
    exact ihc (fun z hzm => hz z (mem_iterL_of_child hzm))
  have h2 : (∀ z ∈ iterLs ([] : List Elem), q z = false) →
      findFirstL q ([] : List Elem) = none := by
    intro _
    rfl
  have h3 : ∀ e es, ((∀ z ∈ e.iterL, q z = false) → e.findFirstE q = none) →
      ((∀ z ∈ iterLs es, q z = false) → findFirstL q es = none) →
      ((∀ z ∈ iterLs (e :: es), q z = false) → findFirstL q (e :: es) = none) := by
    intro e es ihe ihes hz
    rw [iterLs] at hz
    rw [findFirstL, ihe (fun z hzm => hz z (List.mem_append_left _ hzm)),
      ihes (fun z hzm => hz z (List.mem_append_right _ hzm))]
  exact @elemRecL (fun e => (∀ z ∈ e.iterL, q z = false) → e.findFirstE q = none)
    (fun l => (∀ z ∈ iterLs l, q z = false) → findFirstL q l = none) h1 h2 h3

theorem updFirstL_length (p : Elem → Bool) (f : Elem → Elem) :
    ∀ l : List Elem, ∀ orig l', updFirstL p f l = some (orig, l') →
      l'.length = l.length := by
  intro l
  induction l with
  | nil =>
    intro orig l' h
    rw [updFirstL] at h
    cases h
  | cons e es ih =>
    intro orig l' h
    rw [updFirstL] at h
    match h1 : e.updFirstE p f with
    | some (o, e2) =>
      rw [h1] at h
      cases h
      rfl
    | none =>
      rw [h1] at h
      match h2 : updFirstL p f es with
      | some (o, es2) =>
        rw [h2] at h
        cases h
        simp [ih _ _ h2]
      | none =>
        rw [h2] at h
        cases h

theorem updFirst_corr (p : Elem → Bool) (f : Elem → Elem) :
    ∀ l : List Elem,
      (findFirstL p l = none → updFirstL p f l = none)
      ∧ (∀ m, findFirstL p l = some m → ∃ l', updFirstL p f l = some (m, l')) := by
  have h1 : ∀ t a x c tl ln,
      ((findFirstL p c = none → updFirstL p f c = none)
        ∧ (∀ m, findFirstL p c = some m → ∃ c', updFirstL p f c = some (m, c'))) →
      (((Elem.mk t a x c tl ln).findFirstE p = none →
          (Elem.mk t a x c tl ln).updFirstE p f = none)
        ∧ (∀ m, (Elem.mk t a x c tl ln).findFirstE p = some m →
            ∃ e', (Elem.mk t a x c tl ln).updFirstE p f = some (m, e'))) := by
    intro t a x c tl ln ihc
    rw [Elem.findFirstE, Elem.updFirstE]
    by_cases hp : p (.mk t a x c tl ln) = true
    · rw [if_pos hp, if_pos hp]
      constructor
      · intro h
        cases h
      · intro m hm
        cases hm
        exact ⟨_, rfl⟩
    · rw [if_neg hp, if_neg hp]
      constructor
      · intro h
        rw [ihc.1 h]
      · intro m hm
        obtain ⟨c', hc'⟩ := ihc.2 m hm
        rw [hc']
        exact ⟨_, rfl⟩
  have h2 : (findFirstL p ([] : List Elem) = none →
        updFirstL p f ([] : List Elem) = none)
      ∧ (∀ m, findFirstL p ([] : List Elem) = some m →
          ∃ l', updFirstL p f ([] : List Elem) = some (m, l')) := by
    constructor
    · intro _
      rfl
    · intro m hm
      cases hm
  have h3 : ∀ e es,
      ((e.findFirstE p = none → e.updFirstE p f = none)
        ∧ (∀ m, e.findFirstE p = some m → ∃ e', e.updFirstE p f = some (m, e'))) →
      ((findFirstL p es = none → updFirstL p f es = none)
        ∧ (∀ m, findFirstL p es = some m →
            ∃ l', updFirstL p f es = some (m, l'))) →
      ((findFirstL p (e :: es) = none → updFirstL p f (e :: es) = none)
        ∧ (∀ m, findFirstL p (e :: es) = some m →
            ∃ l', updFirstL p f (e :: es) = some (m, l'))) := by
    intro e es ihe ihes
    rw [findFirstL, updFirstL]
    constructor
    · intro h
      match hf : e.findFirstE p with
      | some r =>
        rw [hf] at h
        cases h
      | none =>
        rw [hf] at h
        rw [ihe.1 hf, ihes.1 h]
    · intro m hm
      match hf : e.findFirstE p with
      | some r =>
        rw [hf] at hm
        cases hm
        obtain ⟨e', he'⟩ := ihe.2 _ hf
        rw [he']
        exact ⟨_, rfl⟩
      | none =>
        rw [hf] at hm
        rw [ihe.1 hf]
        obtain ⟨l', hl'⟩ := ihes.2 m hm
        rw [hl']
        exact ⟨_, rfl⟩
  exact @elemRecL
    (fun e => (e.findFirstE p = none → e.updFirstE p f = none)
      ∧ (∀ m, e.findFirstE p = some m → ∃ e', e.updFirstE p f = some (m, e')))
    (fun l => (findFirstL p l = none → updFirstL p f l = none)
      ∧ (∀ m, findFirstL p l = some m → ∃ l', updFirstL p f l = some (m, l')))
    h1 h2 h3

theorem updFirstL_none_iff (p : Elem → Bool) (f : Elem → Elem) (l : List Elem) :
    updFirstL p f l = none ↔ findFirstL p l = none := by
  constructor
  · intro h
    match hf : findFirstL p l with
    | none => rfl
    | some m =>
      obtain ⟨l', hl'⟩ := (updFirst_corr p f l).2 m hf
      rw [h] at hl'
      cases hl'
  · exact (updFirst_corr p f l).1

theorem updFirstL_some_find (p : Elem → Bool) (f : Elem → Elem)
    (l : List Elem) (orig : Elem) (l' : List Elem)
    (h : updFirstL p f l = some (orig, l')) : findFirstL p l = some orig := by
  match hf : findFirstL p l with
  | none =>
    rw [(updFirst_corr p f l).1 hf] at h
    cases h
  | some m =>
    obtain ⟨l2, hl2⟩ := (updFirst_corr p f l).2 m hf
    rw [h] at hl2
    cases hl2
    rfl
theorem updFirstE_none (p : Elem → Bool) (f : Elem → Elem) :
    ∀ e : Elem, e.updFirstE p f = none → e.findFirstE p = none := by
  have h1 : ∀ t a x c tl ln,
      (updFirstL p f c = none → findFirstL p c = none) →
      ((Elem.mk t a x c tl ln).updFirstE p f = none →
        (Elem.mk t a x c tl ln).findFirstE p = none) := by
    intro t a x c tl ln ihc hu
    rw [Elem.updFirstE] at hu
    rw [Elem.findFirstE]
    by_cases hp : p (.mk t a x c tl ln) = true
    · rw [if_pos hp] at hu
      cases hu
    · rw [if_neg hp] at hu
      rw [if_neg hp]
      match hc : updFirstL p f c with
      | some (o, c2) =>
        rw [hc] at hu
        cases hu
      | none =>
        exact ihc hc
  have h2 : updFirstL p f ([] : List Elem) = none →
      findFirstL p ([] : List Elem) = none := by
    intro _
    rfl
  have h3 : ∀ e es,
      (e.updFirstE p f = none → e.findFirstE p = none) →
      (updFirstL p f es = none → findFirstL p es = none) →
      (updFirstL p f (e :: es) = none → findFirstL p (e :: es) = none) := by
    intro e es ihe ihes hu
    rw [updFirstL] at hu
    rw [findFirstL]
    match h1' : e.updFirstE p f with
    | some (o, e2) =>
      rw [h1'] at hu
      cases hu
    | none =>
      rw [h1'] at hu
      rw [ihe h1']
      match h2' : updFirstL p f es with
      | some (o, es2) =>
        rw [h2'] at hu
        cases hu
      | none =>
        exact ihes h2'
  exact @elemRec
    (fun e => e.updFirstE p f = none → e.findFirstE p = none)
    (fun l => updFirstL p f l = none → findFirstL p l = none)
    h1 h2 h3

theorem updFirst_find_after (p : Elem → Bool) (f : Elem → Elem)
    (htag : ∀ e e' : Elem, e.tag = e'.tag → p e = p e')
    (hpf : ∀ m, p m = true → p (f m) = true) :
    ∀ l : List Elem, ∀ orig l', updFirstL p f l = some (orig, l') →
      findFirstL p l' = some (f orig) := by
  have h1 : ∀ t a x c tl ln,
      (∀ orig c', updFirstL p f c = some (orig, c') →
        findFirstL p c' = some (f orig)) →
      (∀ orig e', (Elem.mk t a x c tl ln).updFirstE p f = some (orig, e') →
        e'.findFirstE p = some (f orig)) := by
    intro t a x c tl ln ihc orig e' hu
    rw [Elem.updFirstE] at hu
    by_cases hp : p (.mk t a x c tl ln) = true
    · rw [if_pos hp] at hu
      cases hu
      match hfe : f (.mk t a x c tl ln) with
      | .mk t2 a2 x2 c2 tl2 ln2 =>
        rw [Elem.findFirstE]
        rw [if_pos (by rw [← hfe]; exact hpf _ hp)]
    · rw [if_neg hp] at hu
      match hc : updFirstL p f c with
      | some (o, c') =>
        rw [hc] at hu
        cases hu
        rw [Elem.findFirstE]
        rw [if_neg (by rw [htag (Elem.mk t a x c' tl ln) (Elem.mk t a x c tl ln) rfl]; exact hp)]
        exact ihc _ _ hc
      | none =>
        rw [hc] at hu
        cases hu
  have h2 : ∀ orig l', updFirstL p f ([] : List Elem) = some (orig, l') →
      findFirstL p l' = some (f orig) := by
    intro orig l' h
    rw [updFirstL] at h
    cases h
  have h3 : ∀ e es,
      (∀ orig e', e.updFirstE p f = some (orig, e') →
        e'.findFirstE p = some (f orig)) →
      (∀ orig l', updFirstL p f es = some (orig, l') →
        findFirstL p l' = some (f orig)) →
      (∀ orig l', updFirstL p f (e :: es) = some (orig, l') →
        findFirstL p l' = some (f orig)) := by
    intro e es ihe ihes orig l' hu
    rw [updFirstL] at hu
    match h1' : e.updFirstE p f with
    | some (o, e2) =>
      rw [h1'] at hu
      cases hu
      rw [findFirstL, ihe _ _ h1']
    | none =>
      rw [h1'] at hu
      match h2' : updFirstL p f es with
      | some (o, es2) =>
        rw [h2'] at hu
        cases hu
        rw [findFirstL]
        rw [updFirstE_none p f e h1']
        exact ihes _ _ h2'
      | none =>
        rw [h2'] at hu
        cases hu
  exact @elemRecL
    (fun e => ∀ orig e', e.updFirstE p f = some (orig, e') →
      e'.findFirstE p = some (f orig))
    (fun l => ∀ orig l', updFirstL p f l = some (orig, l') →
      findFirstL p l' = some (f orig))
    h1 h2 h3
theorem updFirst_find_other (q p : Elem → Bool) (f : Elem → Elem)
    (htagq : ∀ e e' : Elem, e.tag = e'.tag → q e = q e')
    (hfq : ∀ m, p m = true → Elem.findFirstE q (f m) = Elem.findFirstE q m) :
    ∀ l : List Elem, ∀ orig l', updFirstL p f l = some (orig, l') →
      (findFirstL q l = none → findFirstL q l' = none)
      ∧ (∀ m, findFirstL q l = some m → ∃ m', findFirstL q l' = some m'
          ∧ m'.tag = m.tag ∧ m'.children.length = m.children.length) := by
  have h1 : ∀ t a x c tl ln,
      (∀ orig c', updFirstL p f c = some (orig, c') →
        (findFirstL q c = none → findFirstL q c' = none)
        ∧ (∀ m, findFirstL q c = some m → ∃ m', findFirstL q c' = some m'
            ∧ m'.tag = m.tag ∧ m'.children.length = m.children.length)) →
      (∀ orig e', (Elem.mk t a x c tl ln).updFirstE p f = some (orig, e') →
        ((Elem.mk t a x c tl ln).findFirstE q = none → e'.findFirstE q = none)
        ∧ (∀ m, (Elem.mk t a x c tl ln).findFirstE q = some m →
            ∃ m', e'.findFirstE q = some m'
              ∧ m'.tag = m.tag ∧ m'.children.length = m.children.length)) := by
    intro t a x c tl ln ihc orig e' hu
    rw [Elem.updFirstE] at hu
    by_cases hp : p (.mk t a x c tl ln) = true
    · rw [if_pos hp] at hu
      cases hu
      constructor
      · intro h
        rw [hfq _ hp]
        exact h
      · intro m hm
        exact ⟨m, by rw [hfq _ hp]; exact hm, rfl, rfl⟩
    · rw [if_neg hp] at hu
      match hc : updFirstL p f c with
      | none =>
        rw [hc] at hu
        cases hu
      | some (o, c') =>
        rw [hc] at hu
        cases hu
        have hqe : q (Elem.mk t a x c' tl ln) = q (Elem.mk t a x c tl ln) :=
          htagq _ _ rfl
        by_cases hq : q (.mk t a x c tl ln) = true
        · constructor
          · intro h
            rw [Elem.findFirstE, if_pos hq] at h
            cases h
          · intro m hm
            rw [Elem.findFirstE, if_pos hq] at hm
            cases hm
            refine ⟨Elem.mk t a x c' tl ln, ?_, rfl, ?_⟩
            · rw [Elem.findFirstE, if_pos (by rw [hqe]; exact hq)]
            · show c'.length = c.length
              exact updFirstL_length p f c _ _ hc
        · constructor
          · intro h
            rw [Elem.findFirstE, if_neg hq] at h
            rw [Elem.findFirstE, if_neg (by rw [hqe]; exact hq)]
            exact (ihc _ _ hc).1 h
          · intro m hm
            rw [Elem.findFirstE, if_neg hq] at hm
            rw [Elem.findFirstE, if_neg (by rw [hqe]; exact hq)]
            exact (ihc _ _ hc).2 m hm
  have h2 : ∀ orig l', updFirstL p f ([] : List Elem) = some (orig, l') →
      (findFirstL q ([] : List Elem) = none → findFirstL q l' = none)
      ∧ (∀ m, findFirstL q ([] : List Elem) = some m →
          ∃ m', findFirstL q l' = some m'
            ∧ m'.tag = m.tag ∧ m'.children.length = m.children.length) := by
    intro orig l' h
    rw [updFirstL] at h
    cases h
  have h3 : ∀ e es,
      (∀ orig e', e.updFirstE p f = some (orig, e') →
        (e.findFirstE q = none → e'.findFirstE q = none)
        ∧ (∀ m, e.findFirstE q = some m → ∃ m', e'.findFirstE q = some m'
            ∧ m'.tag = m.tag ∧ m'.children.length = m.children.length)) →
      (∀ orig l', updFirstL p f es = some (orig, l') →
        (findFirstL q es = none → findFirstL q l' = none)
        ∧ (∀ m, findFirstL q es = some m → ∃ m', findFirstL q l' = some m'
            ∧ m'.tag = m.tag ∧ m'.children.length = m.children.length)) →
      (∀ orig l', updFirstL p f (e :: es) = some (orig, l') →
        (findFirstL q (e :: es) = none → findFirstL q l' = none)
        ∧ (∀ m, findFirstL q (e :: es) = some m →
            ∃ m', findFirstL q l' = some m'
              ∧ m'.tag = m.tag ∧ m'.children.length = m.children.length)) := by
    intro e es ihe ihes orig l' hu
    rw [updFirstL] at hu
    match h1' : e.updFirstE p f with
    | some (o, e2) =>
      rw [h1'] at hu
      cases hu
      have he := ihe _ _ h1'
      constructor
      · intro h
        rw [findFirstL] at h ⊢
        match hf : e.findFirstE q with
        | some r =>
          rw [hf] at h
          cases h
        | none =>
          rw [hf] at h
          rw [he.1 hf]
          exact h
      · intro m hm
        rw [findFirstL] at hm ⊢
        match hf : e.findFirstE q with
        | some r =>
          rw [hf] at hm
          cases hm
          obtain ⟨m', hm', ht, hl⟩ := he.2 _ hf
          rw [hm']
          exact ⟨m', rfl, ht, hl⟩
        | none =>
          rw [hf] at hm
          rw [he.1 hf]
          exact ⟨m, hm, rfl, rfl⟩
    | none =>
      rw [h1'] at hu
      match h2' : updFirstL p f es with
      | some (o, es2) =>
        rw [h2'] at hu
        cases hu
        have hes := ihes _ _ h2'
        constructor
        · intro h
          rw [findFirstL] at h ⊢
          match hf : e.findFirstE q with
          | some r =>
            rw [hf] at h
            cases h
          | none =>
            rw [hf] at h
            exact hes.1 h
        · intro m hm
          rw [findFirstL] at hm ⊢
          match hf : e.findFirstE q with
          | some r =>
            rw [hf] at hm
            cases hm
            exact ⟨m, rfl, rfl, rfl⟩
          | none =>
            rw [hf] at hm
            exact hes.2 m hm
      | none =>
        rw [h2'] at hu
        cases hu
  exact @elemRecL
    (fun e => ∀ orig e', e.updFirstE p f = some (orig, e') →
      (e.findFirstE q = none → e'.findFirstE q = none)
      ∧ (∀ m, e.findFirstE q = some m → ∃ m', e'.findFirstE q = some m'
          ∧ m'.tag = m.tag ∧ m'.children.length = m.children.length))
    (fun l => ∀ orig l', updFirstL p f l = some (orig, l') →
      (findFirstL q l = none → findFirstL q l' = none)
      ∧ (∀ m, findFirstL q l = some m → ∃ m', findFirstL q l' = some m'
          ∧ m'.tag = m.tag ∧ m'.children.length = m.children.length))
    h1 h2 h3

theorem findFirstE_addNces_other (q : Elem → Bool)
    (htagq : ∀ e e' : Elem, e.tag = e'.tag → q e = q e')
    (hn : q ncesElem = false) :
    ∀ m : Elem, q m = false →
      Elem.findFirstE q (addNces m) = Elem.findFirstE q m := by
  intro m hm
  cases m with
  | mk t a x c tl ln =>
    rw [addNces]
    by_cases h : hasNcesChild (.mk t a x c tl ln) = true
    · rw [if_pos h]
    · rw [if_neg h]
      have hq2 : q (Elem.mk t a x (ncesElem :: c) tl ln) = false := by
        rw [htagq (Elem.mk t a x (ncesElem :: c) tl ln)
          (Elem.mk t a x c tl ln) rfl]
        exact hm
      rw [Elem.findFirstE, Elem.findFirstE, if_neg (by simp [hq2]),
        if_neg (by simp [hm])]
      rw [findFirstL]
      have hnone : Elem.findFirstE q ncesElem = none := by
        have he : Elem.findFirstE q ncesElem
            = if q ncesElem = true then some ncesElem
              else findFirstL q [] := rfl
        rw [he, if_neg (by simp [hn])]
        rfl
      rw [hnone]
theorem findFirstL_append (p : Elem → Bool) :
    ∀ l1 l2 : List Elem, findFirstL p (l1 ++ l2)
      = match findFirstL p l1 with
        | some r => some r
        | none => findFirstL p l2 := by
  intro l1 l2
  induction l1 with
  | nil => rfl
  | cons e es ih =>
    rw [List.cons_append, findFirstL, findFirstL, ih]
    match hf : e.findFirstE p with
    | some r => rfl
    | none => rfl

theorem findFirstE_newLoc_none (p : Elem → Bool) (hploc : p newLocElem = false) :
    Elem.findFirstE p newLocElem = none := by
  have he : Elem.findFirstE p newLocElem
      = if p newLocElem = true then some newLocElem else findFirstL p [] := rfl
  rw [he, if_neg (by simp [hploc])]
  rfl

theorem findFirstE_fixTree (p : Elem → Bool)
    (htag : ∀ e e' : Elem, e.tag = e'.tag → p e = p e')
    (hpb : ∀ e : Elem, e.tag = "bold" → p e = false)
    (hploc : p newLocElem = false) :
    ∀ l : List Elem,
      (∀ d ∈ iterLs l, d.tag = "bold" → ∀ z ∈ iterLs d.children, p z = false) →
      findFirstL p (fixForest l).1
        = (findFirstL p l).map (fun m => (fixTree m).1) := by
  have h1 : ∀ t a x c tl ln,
      ((∀ d ∈ iterLs c, d.tag = "bold" → ∀ z ∈ iterLs d.children, p z = false) →
        findFirstL p (fixForest c).1
          = (findFirstL p c).map (fun m => (fixTree m).1)) →
      ((∀ d ∈ (Elem.mk t a x c tl ln).iterL, d.tag = "bold" →
          ∀ z ∈ iterLs d.children, p z = false) →
        Elem.findFirstE p (fixTree (Elem.mk t a x c tl ln)).1
          = ((Elem.mk t a x c tl ln).findFirstE p).map (fun m => (fixTree m).1)) := by
    intro t a x c tl ln ihc hbp
    have hbpf : ∀ d ∈ iterLs c, d.tag = "bold" →
        ∀ z ∈ iterLs d.children, p z = false :=
      fun d hd => hbp d (mem_iterL_of_child hd)
    by_cases h1c : (t == "publisher" && !(c.any fun ch => ch.tag == "publisher-loc")) = true
    · have hfx : (fixTree (.mk t a x c tl ln)).1
          = .mk t a (hyphenFix x).1 ((fixForest c).1 ++ [newLocElem]) tl ln := by
        simp only [fixTree.eq_def]
        rw [if_pos h1c]
      rw [hfx, Elem.findFirstE, Elem.findFirstE]
      have hpe : p (Elem.mk t a (hyphenFix x).1
          ((fixForest c).1 ++ [newLocElem]) tl ln)
          = p (Elem.mk t a x c tl ln) := htag _ _ rfl
      by_cases hp : p (.mk t a x c tl ln) = true
      · rw [if_pos (by rw [hpe]; exact hp), if_pos hp]
        show _ = some ((fixTree (Elem.mk t a x c tl ln)).1)
        rw [hfx]
      · rw [if_neg (by rw [hpe]; exact hp), if_neg hp]
        rw [findFirstL_append, ihc hbpf]
        match hfc : findFirstL p c with
        | some r => rfl
        | none =>
          show findFirstL p [newLocElem] = none
          rw [findFirstL, findFirstE_newLoc_none p hploc]
          rfl
    · by_cases h2c : ((t == "title" || t == "article-title")
          && singleBoldChild (.mk t a x c tl ln)) = true
      · have hsb : singleBoldChild (.mk t a x c tl ln) = true := by
          have := h2c
          rw [Bool.and_eq_true] at this
          exact this.2
        match c, hsb with
        | [b], hsb =>
          have hbold : b.tag = "bold" := by
            simpa [singleBoldChild, Elem.children] using hsb
          have hfx : (fixTree (.mk t a x [b] tl ln)).1
              = .mk t a (hyphenFix b.text).1 [] tl ln := by
            simp only [fixTree.eq_def]
            rw [if_neg h1c, if_pos h2c]
          rw [hfx, Elem.findFirstE, Elem.findFirstE]
          have hpe : p (Elem.mk t a (hyphenFix b.text).1 [] tl ln)
              = p (Elem.mk t a x [b] tl ln) := htag _ _ rfl
          by_cases hp : p (.mk t a x [b] tl ln) = true
          · rw [if_pos (by rw [hpe]; exact hp), if_pos hp]
            show _ = some ((fixTree (Elem.mk t a x [b] tl ln)).1)
            rw [hfx]
          · rw [if_neg (by rw [hpe]; exact hp), if_neg hp]
            have hfb : findFirstL p [b] = none := by
              rw [findFirstL]
              have hbe : Elem.findFirstE p b = none := by
                cases b with
                | mk tb ab xb cb tlb lnb =>
                  rw [Elem.findFirstE]
                  rw [if_neg (by simp [hpb _ hbold])]
                  apply findFirstL_none
                  intro z hz
                  exact hbp (Elem.mk tb ab xb cb tlb lnb)
                    (mem_iterL_of_child (by
                      rw [iterLs, iterLs, List.append_nil]
                      exact iterL_self _)) hbold z hz
              rw [hbe]
              rfl
            rw [hfb]
            rfl
      · have hfx : (fixTree (.mk t a x c tl ln)).1
            = .mk t a (hyphenFix x).1 (fixForest c).1 tl ln := by
          rw [fixTree_else _ _ _ _ _ _ h1c h2c]
        rw [hfx, Elem.findFirstE, Elem.findFirstE]
        have hpe : p (Elem.mk t a (hyphenFix x).1 (fixForest c).1 tl ln)
            = p (Elem.mk t a x c tl ln) := htag _ _ rfl
        by_cases hp : p (.mk t a x c tl ln) = true
        · rw [if_pos (by rw [hpe]; exact hp), if_pos hp]
          show _ = some ((fixTree (Elem.mk t a x c tl ln)).1)
          rw [hfx]
        · rw [if_neg (by rw [hpe]; exact hp), if_neg hp]
          exact ihc hbpf
  have h2 : (∀ d ∈ iterLs ([] : List Elem), d.tag = "bold" →
        ∀ z ∈ iterLs d.children, p z = false) →
      findFirstL p (fixForest ([] : List Elem)).1
        = (findFirstL p ([] : List Elem)).map (fun m => (fixTree m).1) := by
    intro _
    rfl
  have h3 : ∀ e es,
      ((∀ d ∈ e.iterL, d.tag = "bold" → ∀ z ∈ iterLs d.children, p z = false) →
        Elem.findFirstE p (fixTree e).1
          = (e.findFirstE p).map (fun m => (fixTree m).1)) →
      ((∀ d ∈ iterLs es, d.tag = "bold" → ∀ z ∈ iterLs d.children, p z = false) →
        findFirstL p (fixForest es).1
          = (findFirstL p es).map (fun m => (fixTree m).1)) →
      ((∀ d ∈ iterLs (e :: es), d.tag = "bold" →
          ∀ z ∈ iterLs d.children, p z = false) →
        findFirstL p (fixForest (e :: es)).1
          = (findFirstL p (e :: es)).map (fun m => (fixTree m).1)) := by
    intro e es ihe ihes hbp
    have hbe : ∀ d ∈ e.iterL, d.tag = "bold" →
        ∀ z ∈ iterLs d.children, p z = false := by
      intro d hd
      exact hbp d (by rw [iterLs]; exact List.mem_append_left _ hd)
    have hbes : ∀ d ∈ iterLs es, d.tag = "bold" →
        ∀ z ∈ iterLs d.children, p z = false := by
      intro d hd
      exact hbp d (by rw [iterLs]; exact List.mem_append_right _ hd)
    have hcons : (fixForest (e :: es)).1 = (fixTree e).1 :: (fixForest es).1 := by
      simp only [fixForest]
    rw [hcons, findFirstL, findFirstL, ihe hbe]
    match hfe : e.findFirstE p with
    | some r => rfl
    | none =>
      show findFirstL p (fixForest es).1 = _
      exact ihes hbes
  exact @elemRecL
    (fun e => (∀ d ∈ e.iterL, d.tag = "bold" →
        ∀ z ∈ iterLs d.children, p z = false) →
      Elem.findFirstE p (fixTree e).1
        = (e.findFirstE p).map (fun m => (fixTree m).1))
    (fun l => (∀ d ∈ iterLs l, d.tag = "bold" →
        ∀ z ∈ iterLs d.children, p z = false) →
      findFirstL p (fixForest l).1
        = (findFirstL p l).map (fun m => (fixTree m).1))
    h1 h2 h3
theorem addNces_id : ∀ m : Elem, hasNcesChild m = true → addNces m = m := by
  intro m h
  cases m with
  | mk t a x c tl ln =>
    rw [addNces, if_pos h]

theorem ncesElem_iterL : Elem.iterL ncesElem = [ncesElem] := rfl

theorem findFirstL_mem (p : Elem → Bool) :
    ∀ l : List Elem, ∀ m, findFirstL p l = some m → m ∈ iterLs l := by
  have h1 : ∀ t a x c tl ln,
      (∀ m, findFirstL p c = some m → m ∈ iterLs c) →
      (∀ m, (Elem.mk t a x c tl ln).findFirstE p = some m →
        m ∈ (Elem.mk t a x c tl ln).iterL) := by
    intro t a x c tl ln ihc m hm
    rw [Elem.findFirstE] at hm
    by_cases hp : p (.mk t a x c tl ln) = true
    · rw [if_pos hp] at hm
      cases hm
      exact iterL_self _
    · rw [if_neg hp] at hm
      exact mem_iterL_of_child (ihc m hm)
  have h2 : ∀ m, findFirstL p ([] : List Elem) = some m →
      m ∈ iterLs ([] : List Elem) := by
    intro m hm
    cases hm
  have h3 : ∀ e es,
      (∀ m, e.findFirstE p = some m → m ∈ e.iterL) →
      (∀ m, findFirstL p es = some m → m ∈ iterLs es) →
      (∀ m, findFirstL p (e :: es) = some m → m ∈ iterLs (e :: es)) := by
    intro e es ihe ihes m hm
    rw [findFirstL] at hm
    rw [iterLs]
    match hf : e.findFirstE p with
    | some r =>
      rw [hf] at hm
      cases hm
      exact List.mem_append_left _ (ihe _ hf)
    | none =>
      rw [hf] at hm
      exact List.mem_append_right _ (ihes m hm)
  exact @elemRecL
    (fun e => ∀ m, e.findFirstE p = some m → m ∈ e.iterL)
    (fun l => ∀ m, findFirstL p l = some m → m ∈ iterLs l)
    h1 h2 h3

theorem updFirst_addNces_text (p : Elem → Bool) :
    ∀ l : List Elem, ∀ orig l', updFirstL p addNces l = some (orig, l') →
      (∀ z ∈ iterLs l, ∀ s, z.text = some s →
        pySubHyphen (pySubHyphen s) = pySubHyphen s) →
      (∀ z ∈ iterLs l', ∀ s, z.text = some s →
        pySubHyphen (pySubHyphen s) = pySubHyphen s) := by
  have hnces : ∀ s, Elem.text ncesElem = some s →
      pySubHyphen (pySubHyphen s) = pySubHyphen s := by
    intro s hs
    cases hs
    rfl
  have h1 : ∀ t a x c tl ln,
      (∀ orig c', updFirstL p addNces c = some (orig, c') →
        (∀ z ∈ iterLs c, ∀ s, z.text = some s →
          pySubHyphen (pySubHyphen s) = pySubHyphen s) →
        (∀ z ∈ iterLs c', ∀ s, z.text = some s →
          pySubHyphen (pySubHyphen s) = pySubHyphen s)) →
      (∀ orig e', (Elem.mk t a x c tl ln).updFirstE p addNces = some (orig, e') →
        (∀ z ∈ (Elem.mk t a x c tl ln).iterL, ∀ s, z.text = some s →
          pySubHyphen (pySubHyphen s) = pySubHyphen s) →
        (∀ z ∈ e'.iterL, ∀ s, z.text = some s →
          pySubHyphen (pySubHyphen s) = pySubHyphen s)) := by
    intro t a x c tl ln ihc orig e' hu htx
    rw [Elem.updFirstE] at hu
    by_cases hp : p (.mk t a x c tl ln) = true
    · rw [if_pos hp] at hu
      cases hu
      by_cases hn : hasNcesChild (.mk t a x c tl ln) = true
      · rw [addNces_id _ hn]
        exact htx
      · have he' : addNces (Elem.mk t a x c tl ln)
            = Elem.mk t a x (ncesElem :: c) tl ln := by
          rw [addNces, if_neg hn]
        rw [he']
        intro z hz
        rw [Elem.iterL] at hz
        rcases List.mem_cons.mp hz with hz | hz
        · subst hz
          intro s hs
          exact htx (Elem.mk t a x c tl ln) (iterL_self _) s hs
        · rw [iterLs, ncesElem_iterL] at hz
          rcases List.mem_append.mp hz with hz | hz
          · have hz' := List.mem_singleton.mp hz
            subst hz'
            exact hnces
          · exact htx z (mem_iterL_of_child hz)
    · rw [if_neg hp] at hu
      match hc : updFirstL p addNces c with
      | none =>
        rw [hc] at hu
        cases hu
      | some (o, c') =>
        rw [hc] at hu
        cases hu
        intro z hz
        rw [Elem.iterL] at hz
        rcases List.mem_cons.mp hz with hz | hz
        · subst hz
          intro s hs
          exact htx (Elem.mk t a x c tl ln) (iterL_self _) s hs
        · exact ihc _ _ hc (fun w hw => htx w (mem_iterL_of_child hw)) z hz
  have h2 : ∀ orig l', updFirstL p addNces ([] : List Elem) = some (orig, l') →
      (∀ z ∈ iterLs ([] : List Elem), ∀ s, z.text = some s →
        pySubHyphen (pySubHyphen s) = pySubHyphen s) →
      (∀ z ∈ iterLs l', ∀ s, z.text = some s →
        pySubHyphen (pySubHyphen s) = pySubHyphen s) := by
    intro orig l' h
    cases h
  have h3 : ∀ e es,
      (∀ orig e', e.updFirstE p addNces = some (orig, e') →
        (∀ z ∈ e.iterL, ∀ s, z.text = some s →
          pySubHyphen (pySubHyphen s) = pySubHyphen s) →
        (∀ z ∈ e'.iterL, ∀ s, z.text = some s →
          pySubHyphen (pySubHyphen s) = pySubHyphen s)) →
      (∀ orig l', updFirstL p addNces es = some (orig, l') →
        (∀ z ∈ iterLs es, ∀ s, z.text = some s →
          pySubHyphen (pySubHyphen s) = pySubHyphen s) →
        (∀ z ∈ iterLs l', ∀ s, z.text = some s →
          pySubHyphen (pySubHyphen s) = pySubHyphen s)) →
      (∀ orig l', updFirstL p addNces (e :: es) = some (orig, l') →
        (∀ z ∈ iterLs (e :: es), ∀ s, z.text = some s →
          pySubHyphen (pySubHyphen s) = pySubHyphen s) →
        (∀ z ∈ iterLs l', ∀ s, z.text = some s →
          pySubHyphen (pySubHyphen s) = pySubHyphen s)) := by
    intro e es ihe ihes orig l' hu htx
    rw [updFirstL] at hu
    rw [iterLs] at htx
    match h1' : e.updFirstE p addNces with
    | some (o, e2) =>
      rw [h1'] at hu
      cases hu
      intro z hz
      rw [iterLs] at hz
      rcases List.mem_append.mp hz with hz | hz
      · exact ihe _ _ h1' (fun w hw => htx w (List.mem_append_left _ hw)) z hz
      · exact htx z (List.mem_append_right _ hz)
    | none =>
      rw [h1'] at hu
      match h2' : updFirstL p addNces es with
      | some (o, es2) =>
        rw [h2'] at hu
        cases hu
        intro z hz
        rw [iterLs] at hz
        rcases List.mem_append.mp hz with hz | hz
        · exact htx z (List.mem_append_left _ hz)
        · exact ihes _ _ h2' (fun w hw => htx w (List.mem_append_right _ hw)) z hz
      | none =>
        rw [h2'] at hu
        cases hu
  exact @elemRecL
    (fun e => ∀ orig e', e.updFirstE p addNces = some (orig, e') →
      (∀ z ∈ e.iterL, ∀ s, z.text = some s →
        pySubHyphen (pySubHyphen s) = pySubHyphen s) →
      (∀ z ∈ e'.iterL, ∀ s, z.text = some s →
        pySubHyphen (pySubHyphen s) = pySubHyphen s))
    (fun l => ∀ orig l', updFirstL p addNces l = some (orig, l') →
      (∀ z ∈ iterLs l, ∀ s, z.text = some s →
        pySubHyphen (pySubHyphen s) = pySubHyphen s) →
      (∀ z ∈ iterLs l', ∀ s, z.text = some s →
        pySubHyphen (pySubHyphen s) = pySubHyphen s))
    h1 h2 h3
theorem updFirst_addNces_bold (p q : Elem → Bool) (hqn : q ncesElem = false) :
    ∀ l : List Elem, ∀ orig l', updFirstL p addNces l = some (orig, l') →
      (∀ d ∈ iterLs l, d.tag = "bold" → ∀ z ∈ iterLs d.children, p z = false) →
      (∀ d ∈ iterLs l, d.tag = "bold" → ∀ z ∈ iterLs d.children, q z = false) →
      (∀ d ∈ iterLs l', d.tag = "bold" →
        ∀ z ∈ iterLs d.children, q z = false) := by
  have h1 : ∀ t a x c tl ln,
      (∀ orig c', updFirstL p addNces c = some (orig, c') →
        (∀ d ∈ iterLs c, d.tag = "bold" → ∀ z ∈ iterLs d.children, p z = false) →
        (∀ d ∈ iterLs c, d.tag = "bold" → ∀ z ∈ iterLs d.children, q z = false) →
        (∀ d ∈ iterLs c', d.tag = "bold" →
          ∀ z ∈ iterLs d.children, q z = false)) →
      (∀ orig e', (Elem.mk t a x c tl ln).updFirstE p addNces = some (orig, e') →
        (∀ d ∈ (Elem.mk t a x c tl ln).iterL, d.tag = "bold" →
          ∀ z ∈ iterLs d.children, p z = false) →
        (∀ d ∈ (Elem.mk t a x c tl ln).iterL, d.tag = "bold" →
          ∀ z ∈ iterLs d.children, q z = false) →
        (∀ d ∈ e'.iterL, d.tag = "bold" →
          ∀ z ∈ iterLs d.children, q z = false)) := by
    intro t a x c tl ln ihc orig e' hu hbp hbq
    rw [Elem.updFirstE] at hu
    by_cases hp : p (.mk t a x c tl ln) = true
    · rw [if_pos hp] at hu
      cases hu
      by_cases hn : hasNcesChild (.mk t a x c tl ln) = true
      · rw [addNces_id _ hn]
        exact hbq
      · have he' : addNces (Elem.mk t a x c tl ln)
            = Elem.mk t a x (ncesElem :: c) tl ln := by
          rw [addNces, if_neg hn]
        rw [he']
        intro d hd
        rw [Elem.iterL] at hd
        rcases List.mem_cons.mp hd with hd | hd
        · subst hd
          intro htb z hz
          have htb' : t = "bold" := htb
          rw [show Elem.children (Elem.mk t a x (ncesElem :: c) tl ln)
              = ncesElem :: c from rfl] at hz
          rw [iterLs, ncesElem_iterL] at hz
          rcases List.mem_append.mp hz with hz | hz
          · have hz' := List.mem_singleton.mp hz
            subst hz'
            exact hqn
          · exact hbq (Elem.mk t a x c tl ln) (iterL_self _) htb' z hz
        · rw [iterLs, ncesElem_iterL] at hd
          rcases List.mem_append.mp hd with hd | hd
          · have hd' := List.mem_singleton.mp hd
            subst hd'
            intro habs
            exact absurd habs (by decide)
          · exact hbq d (mem_iterL_of_child hd)
    · rw [if_neg hp] at hu
      match hc : updFirstL p addNces c with
      | none =>
        rw [hc] at hu
        cases hu
      | some (o, c') =>
        rw [hc] at hu
        cases hu
        intro d hd
        rw [Elem.iterL] at hd
        rcases List.mem_cons.mp hd with hd | hd
        · subst hd
          intro htb
          exfalso
          have horig := updFirstL_some_find p addNces c _ _ hc
          have hporig : p orig = true := findFirst_pred p c orig horig
          have hmem : orig ∈ iterLs c := findFirstL_mem p c orig horig
          have hfalse := hbp (Elem.mk t a x c tl ln) (iterL_self _) htb orig hmem
          rw [hporig] at hfalse
          cases hfalse
        · exact ihc _ _ hc
            (fun w hw => hbp w (mem_iterL_of_child hw))
            (fun w hw => hbq w (mem_iterL_of_child hw)) d hd
  have h2 : ∀ orig l', updFirstL p addNces ([] : List Elem) = some (orig, l') →
      (∀ d ∈ iterLs ([] : List Elem), d.tag = "bold" →
        ∀ z ∈ iterLs d.children, p z = false) →
      (∀ d ∈ iterLs ([] : List Elem), d.tag = "bold" →
        ∀ z ∈ iterLs d.children, q z = false) →
      (∀ d ∈ iterLs l', d.tag = "bold" →
        ∀ z ∈ iterLs d.children, q z = false) := by
    intro orig l' h
    cases h
  have h3 : ∀ e es,
      (∀ orig e', e.updFirstE p addNces = some (orig, e') →
        (∀ d ∈ e.iterL, d.tag = "bold" → ∀ z ∈ iterLs d.children, p z = false) →
        (∀ d ∈ e.iterL, d.tag = "bold" → ∀ z ∈ iterLs d.children, q z = false) →
        (∀ d ∈ e'.iterL, d.tag = "bold" →
          ∀ z ∈ iterLs d.children, q z = false)) →
      (∀ orig l', updFirstL p addNces es = some (orig, l') →
        (∀ d ∈ iterLs es, d.tag = "bold" →
          ∀ z ∈ iterLs d.children, p z = false) →
        (∀ d ∈ iterLs es, d.tag = "bold" →
          ∀ z ∈ iterLs d.children, q z = false) →
        (∀ d ∈ iterLs l', d.tag = "bold" →
          ∀ z ∈ iterLs d.children, q z = false)) →
      (∀ orig l', updFirstL p addNces (e :: es) = some (orig, l') →
        (∀ d ∈ iterLs (e :: es), d.tag = "bold" →
          ∀ z ∈ iterLs d.children, p z = false) →
        (∀ d ∈ iterLs (e :: es), d.tag = "bold" →
          ∀ z ∈ iterLs d.children, q z = false) →
        (∀ d ∈ iterLs l', d.tag = "bold" →
          ∀ z ∈ iterLs d.children, q z = false)) := by
    intro e es ihe ihes orig l' hu hbp hbq
    rw [updFirstL] at hu
    rw [iterLs] at hbp hbq
    match h1' : e.updFirstE p addNces with
    | some (o, e2) =>
      rw [h1'] at hu
      cases hu
      intro d hd
      rw [iterLs] at hd
      rcases List.mem_append.mp hd with hd | hd
      · exact ihe _ _ h1'
          (fun w hw => hbp w (List.mem_append_left _ hw))
          (fun w hw => hbq w (List.mem_append_left _ hw)) d hd
      · exact hbq d (List.mem_append_right _ hd)
    | none =>
      rw [h1'] at hu
      match h2' : updFirstL p addNces es with
      | some (o, es2) =>
        rw [h2'] at hu
        cases hu
        intro d hd
        rw [iterLs] at hd
        rcases List.mem_append.mp hd with hd | hd
        · exact hbq d (List.mem_append_left _ hd)
        · exact ihes _ _ h2'
            (fun w hw => hbp w (List.mem_append_right _ hw))
            (fun w hw => hbq w (List.mem_append_right _ hw)) d hd
      | none =>
        rw [h2'] at hu
        cases hu
  exact @elemRecL
    (fun e => ∀ orig e', e.updFirstE p addNces = some (orig, e') →
      (∀ d ∈ e.iterL, d.tag = "bold" → ∀ z ∈ iterLs d.children, p z = false) →
      (∀ d ∈ e.iterL, d.tag = "bold" → ∀ z ∈ iterLs d.children, q z = false) →
      (∀ d ∈ e'.iterL, d.tag = "bold" → ∀ z ∈ iterLs d.children, q z = false))
    (fun l => ∀ orig l', updFirstL p addNces l = some (orig, l') →
      (∀ d ∈ iterLs l, d.tag = "bold" → ∀ z ∈ iterLs d.children, p z = false) →
      (∀ d ∈ iterLs l, d.tag = "bold" → ∀ z ∈ iterLs d.children, q z = false) →
      (∀ d ∈ iterLs l', d.tag = "bold" → ∀ z ∈ iterLs d.children, q z = false))
    h1 h2 h3
theorem fixForest_append : ∀ l1 l2 : List Elem,
    fixForest (l1 ++ l2) = ((fixForest l1).1 ++ (fixForest l2).1,
      (fixForest l1).2 + (fixForest l2).2) := by
  intro l1 l2
  induction l1 with
  | nil =>
    show fixForest l2 = (([] : List Elem) ++ (fixForest l2).1,
      0 + (fixForest l2).2)
    rw [List.nil_append, Nat.zero_add]
  | cons e es ih =>
    simp only [List.cons_append, fixForest, List.append_eq]
    rw [ih, ← Nat.add_assoc]

theorem fixForest_anyTag : ∀ (c : List Elem) (s : String),
    ((fixForest c).1.any fun ch => ch.tag == s)
      = (c.any fun ch => ch.tag == s) := by
  intro c s
  rw [fixForest_map, List.any_map]
  exact congrArg _ (funext fun ch => by simp [Function.comp, fixTree_tag])

theorem singleBold_fixForest :
    ∀ (t : String) (a : List (String × String)) (x x' : Option String)
      (c : List Elem) (tl : Option String) (ln : Option Nat),
    singleBoldChild (Elem.mk t a x' (fixForest c).1 tl ln)
      = singleBoldChild (Elem.mk t a x c tl ln) := by
  intro t a x x' c tl ln
  simp only [singleBoldChild, Elem.children]
  rw [fixForest_map]
  cases c with
  | nil => rfl
  | cons b cs =>
    cases cs with
    | nil =>
      show ((fixTree b).1.tag == "bold") = (b.tag == "bold")
      rw [fixTree_tag]
    | cons b2 cs2 => rfl

theorem fixTree_stable :
    ∀ l : List Elem,
      (∀ z ∈ iterLs l, ∀ s, z.text = some s →
        pySubHyphen (pySubHyphen s) = pySubHyphen s) →
      fixForest ((fixForest l).1) = ((fixForest l).1, 0) := by
  have h1 : ∀ t a x c tl ln,
      ((∀ z ∈ iterLs c, ∀ s, z.text = some s →
          pySubHyphen (pySubHyphen s) = pySubHyphen s) →
        fixForest ((fixForest c).1) = ((fixForest c).1, 0)) →
      ((∀ z ∈ (Elem.mk t a x c tl ln).iterL, ∀ s, z.text = some s →
          pySubHyphen (pySubHyphen s) = pySubHyphen s) →
        fixTree ((fixTree (Elem.mk t a x c tl ln)).1)
          = ((fixTree (Elem.mk t a x c tl ln)).1, 0)) := by
    intro t a x c tl ln ihc htx
    have hx : ∀ s, x = some s → pySubHyphen (pySubHyphen s) = pySubHyphen s :=
      fun s hs => htx (Elem.mk t a x c tl ln) (iterL_self _) s hs
    have htxc : ∀ z ∈ iterLs c, ∀ s, z.text = some s →
        pySubHyphen (pySubHyphen s) = pySubHyphen s :=
      fun z hz => htx z (mem_iterL_of_child hz)
    by_cases h1c : (t == "publisher" && !(c.any fun ch => ch.tag == "publisher-loc")) = true
    · have ht : t = "publisher" := by
        rw [Bool.and_eq_true] at h1c
        exact eq_of_beq h1c.1
      subst ht
      have hfx : (fixTree (.mk "publisher" a x c tl ln)).1
          = .mk "publisher" a (hyphenFix x).1
              ((fixForest c).1 ++ [newLocElem]) tl ln := by
        simp only [fixTree.eq_def]
        rw [if_pos h1c]
      rw [hfx]
      have hany : (((fixForest c).1 ++ [newLocElem]).any
          fun ch => ch.tag == "publisher-loc") = true := by
        rw [List.any_append]
        have h2 : ([newLocElem].any fun ch => ch.tag == "publisher-loc")
            = true := rfl
        rw [h2, Bool.or_true]
      have h1o : ¬((("publisher" : String) == "publisher"
          && !(((fixForest c).1 ++ [newLocElem]).any
            fun ch => ch.tag == "publisher-loc")) = true) := by
        rw [hany]
        simp
      have h2o : ¬(((("publisher" : String) == "title"
          || ("publisher" : String) == "article-title")
          && singleBoldChild (.mk "publisher" a (hyphenFix x).1
            ((fixForest c).1 ++ [newLocElem]) tl ln)) = true) := by
        simp
      rw [fixTree_else _ _ _ _ _ _ h1o h2o]
      rw [hyphenFix_stable x hx]
      rw [fixForest_append, ihc htxc]
      rw [show fixForest [newLocElem] = ([newLocElem], 0) from rfl]
      rfl
    · by_cases h2c : ((t == "title" || t == "article-title")
          && singleBoldChild (.mk t a x c tl ln)) = true
      · have hsb : singleBoldChild (.mk t a x c tl ln) = true := by
          rw [Bool.and_eq_true] at h2c
          exact h2c.2
        have htor : t = "title" ∨ t = "article-title" := by
          rw [Bool.and_eq_true] at h2c
          have := h2c.1
          rw [Bool.or_eq_true] at this
          rcases this with h | h
          · exact Or.inl (eq_of_beq h)
          · exact Or.inr (eq_of_beq h)
        match c, hsb with
        | [b], hsb =>
          have hb : ∀ s, b.text = some s →
              pySubHyphen (pySubHyphen s) = pySubHyphen s := by
            intro s hs
            refine htxc b ?_ s hs
            rw [iterLs, iterLs, List.append_nil]
            exact iterL_self _
          have hfx : (fixTree (.mk t a x [b] tl ln)).1
              = .mk t a (hyphenFix b.text).1 [] tl ln := by
            simp only [fixTree.eq_def]
            rw [if_neg h1c, if_pos h2c]
          rw [hfx]
          have h1o : ¬((t == "publisher"
              && !(([] : List Elem).any fun ch => ch.tag == "publisher-loc"))
                = true) := by
            rcases htor with ht | ht <;> subst ht <;> simp
          have h2o : ¬(((t == "title" || t == "article-title")
              && singleBoldChild (.mk t a (hyphenFix b.text).1 [] tl ln))
                = true) := by
            simp [singleBoldChild, Elem.children]
          rw [fixTree_else _ _ _ _ _ _ h1o h2o]
          rw [hyphenFix_stable b.text hb]
          rfl
      · have hfx : (fixTree (.mk t a x c tl ln)).1
            = .mk t a (hyphenFix x).1 (fixForest c).1 tl ln := by
          rw [fixTree_else _ _ _ _ _ _ h1c h2c]
        rw [hfx]
        have h1o : ¬((t == "publisher"
            && !((fixForest c).1.any fun ch => ch.tag == "publisher-loc"))
              = true) := by
          rw [fixForest_anyTag]
          exact h1c
        have h2o : ¬(((t == "title" || t == "article-title")
            && singleBoldChild (.mk t a (hyphenFix x).1 (fixForest c).1 tl ln))
              = true) := by
          rw [singleBold_fixForest t a x (hyphenFix x).1 c tl ln]
          exact h2c
        rw [fixTree_else _ _ _ _ _ _ h1o h2o]
        rw [hyphenFix_stable x hx]
        rw [ihc htxc]
        rfl
  have h2 : (∀ z ∈ iterLs ([] : List Elem), ∀ s, z.text = some s →
        pySubHyphen (pySubHyphen s) = pySubHyphen s) →
      fixForest ((fixForest ([] : List Elem)).1)
        = ((fixForest ([] : List Elem)).1, 0) := by
    intro _
    rfl
  have h3 : ∀ e es,
      ((∀ z ∈ e.iterL, ∀ s, z.text = some s →
          pySubHyphen (pySubHyphen s) = pySubHyphen s) →
        fixTree ((fixTree e).1) = ((fixTree e).1, 0)) →
      ((∀ z ∈ iterLs es, ∀ s, z.text = some s →
          pySubHyphen (pySubHyphen s) = pySubHyphen s) →
        fixForest ((fixForest es).1) = ((fixForest es).1, 0)) →
      ((∀ z ∈ iterLs (e :: es), ∀ s, z.text = some s →
          pySubHyphen (pySubHyphen s) = pySubHyphen s) →
        fixForest ((fixForest (e :: es)).1) = ((fixForest (e :: es)).1, 0)) := by
    intro e es ihe ihes htx
    rw [iterLs] at htx
    have hcons : (fixForest (e :: es)).1 = (fixTree e).1 :: (fixForest es).1 := by
      simp only [fixForest]
    rw [hcons]
    simp only [fixForest]
    rw [ihe (fun z hz => htx z (List.mem_append_left _ hz)),
      ihes (fun z hz => htx z (List.mem_append_right _ hz))]
    rfl
  exact @elemRecL
    (fun e => (∀ z ∈ e.iterL, ∀ s, z.text = some s →
        pySubHyphen (pySubHyphen s) = pySubHyphen s) →
      fixTree ((fixTree e).1) = ((fixTree e).1, 0))
    (fun l => (∀ z ∈ iterLs l, ∀ s, z.text = some s →
        pySubHyphen (pySubHyphen s) = pySubHyphen s) →
      fixForest ((fixForest l).1) = ((fixForest l).1, 0))
    h1 h2 h3
theorem withChildren_children : ∀ (e : Elem) (cs : List Elem),
    (e.withChildren cs).children = cs := by
  intro e cs
  cases e
  rfl

theorem findFirstL_fixTree_children (p : Elem → Bool)
    (htag : ∀ e e' : Elem, e.tag = e'.tag → p e = p e')
    (hpb : ∀ e : Elem, e.tag = "bold" → p e = false)
    (hploc : p newLocElem = false) :
    ∀ e : Elem,
      (∀ d ∈ e.iterL, d.tag = "bold" → ∀ z ∈ iterLs d.children, p z = false) →
      findFirstL p ((fixTree e).1).children
        = (findFirstL p e.children).map (fun m => (fixTree m).1) := by
  intro e hbp
  cases e with
  | mk t a x c tl ln =>
    have hbpf : ∀ d ∈ iterLs c, d.tag = "bold" →
        ∀ z ∈ iterLs d.children, p z = false :=
      fun d hd => hbp d (mem_iterL_of_child hd)
    show findFirstL p ((fixTree (Elem.mk t a x c tl ln)).1).children
      = (findFirstL p c).map (fun m => (fixTree m).1)
    by_cases h1c : (t == "publisher" && !(c.any fun ch => ch.tag == "publisher-loc")) = true
    · have hfx : (fixTree (.mk t a x c tl ln)).1
          = .mk t a (hyphenFix x).1 ((fixForest c).1 ++ [newLocElem]) tl ln := by
        simp only [fixTree.eq_def]
        rw [if_pos h1c]
      rw [hfx]
      show findFirstL p ((fixForest c).1 ++ [newLocElem]) = _
      rw [findFirstL_append, findFirstE_fixTree p htag hpb hploc c hbpf]
      match hfc : findFirstL p c with
      | some r => rfl
      | none =>
        show findFirstL p [newLocElem] = none
        rw [findFirstL, findFirstE_newLoc_none p hploc]
        rfl
    · by_cases h2c : ((t == "title" || t == "article-title")
          && singleBoldChild (.mk t a x c tl ln)) = true
      · have hsb : singleBoldChild (.mk t a x c tl ln) = true := by
          rw [Bool.and_eq_true] at h2c
          exact h2c.2
        match c, hsb, hbp, hbpf with
        | [b], hsb, hbp, hbpf =>
          have hbold : b.tag = "bold" := by
            simpa [singleBoldChild, Elem.children] using hsb
          have hfx : (fixTree (.mk t a x [b] tl ln)).1
              = .mk t a (hyphenFix b.text).1 [] tl ln := by
            simp only [fixTree.eq_def]
            rw [if_neg h1c, if_pos h2c]
          rw [hfx]
          have hfb : findFirstL p [b] = none := by
            rw [findFirstL]
            have hbe : Elem.findFirstE p b = none := by
              cases b with
              | mk tb ab xb cb tlb lnb =>
                rw [Elem.findFirstE]
                rw [if_neg (by simp [hpb _ hbold])]
                apply findFirstL_none
                intro z hz
                exact hbp (Elem.mk tb ab xb cb tlb lnb)
                  (mem_iterL_of_child (by
                    rw [iterLs, iterLs, List.append_nil]
                    exact iterL_self _)) hbold z hz
            rw [hbe]
            rfl
          rw [hfb]
          rfl
      · have hfx : (fixTree (.mk t a x c tl ln)).1
            = .mk t a (hyphenFix x).1 (fixForest c).1 tl ln := by
          rw [fixTree_else _ _ _ _ _ _ h1c h2c]
        rw [hfx]
        show findFirstL p (fixForest c).1 = _
        exact findFirstE_fixTree p htag hpb hploc c hbpf

theorem fixTree_stable_tree :
    ∀ e : Elem,
      (∀ z ∈ e.iterL, ∀ s, z.text = some s →
        pySubHyphen (pySubHyphen s) = pySubHyphen s) →
      fixTree ((fixTree e).1) = ((fixTree e).1, 0) := by
  intro e htx
  have h := fixTree_stable [e] (by
    intro z hz
    rw [iterLs, iterLs, List.append_nil] at hz
    exact htx z hz)
  have h1 : (fixForest [e]).1 = [(fixTree e).1] := rfl
  rw [h1] at h
  have h2 : fixForest [(fixTree e).1]
      = ((fixTree ((fixTree e).1)).1 :: [], (fixTree ((fixTree e).1)).2 + 0) :=
    rfl
  rw [h2] at h
  have hfst := congrArg Prod.fst h
  have hsnd := congrArg Prod.snd h
  simp only at hfst hsnd
  have hfst' : (fixTree ((fixTree e).1)).1 = (fixTree e).1 := by
    have := List.cons.injEq (fixTree ((fixTree e).1)).1 []
      (fixTree e).1 []
    rw [this] at hfst
    exact hfst.1
  have hsnd' : (fixTree ((fixTree e).1)).2 = 0 := by omega
  exact Prod.ext hfst' hsnd'
theorem withChildren_iterL : ∀ (e : Elem) (cs : List Elem),
    (e.withChildren cs).iterL = e.withChildren cs :: iterLs cs := by
  intro e cs
  cases e
  rfl

theorem withChildren_tag : ∀ (e : Elem) (cs : List Elem),
    (e.withChildren cs).tag = e.tag := by
  intro e cs
  cases e
  rfl

theorem withChildren_text : ∀ (e : Elem) (cs : List Elem),
    (e.withChildren cs).text = e.text := by
  intro e cs
  cases e
  rfl

theorem mem_iterL_of_childE : ∀ (e : Elem) {d : Elem},
    d ∈ iterLs e.children → d ∈ e.iterL := by
  intro e d hd
  cases e
  exact mem_iterL_of_child hd

theorem htagA : ∀ e e' : Elem, e.tag = e'.tag →
    isArticleMeta e = isArticleMeta e' := by
  intro e e' h
  rw [isArticleMeta, isArticleMeta, h]

theorem htagB : ∀ e e' : Elem, e.tag = e'.tag →
    isBookMeta e = isBookMeta e' := by
  intro e e' h
  rw [isBookMeta, isBookMeta, h]

theorem hpbA : ∀ e : Elem, e.tag = "bold" → isArticleMeta e = false := by
  intro e h
  rw [isArticleMeta, h]
  rfl

theorem hpbB : ∀ e : Elem, e.tag = "bold" → isBookMeta e = false := by
  intro e h
  rw [isBookMeta, h]
  rfl

theorem hpfA : ∀ m : Elem, isArticleMeta m = true →
    isArticleMeta (addNces m) = true := by
  intro m h
  rw [isArticleMeta, addNces_tag]
  exact h

theorem hpfB : ∀ m : Elem, isBookMeta m = true →
    isBookMeta (addNces m) = true := by
  intro m h
  rw [isBookMeta, addNces_tag]
  exact h

theorem pAofB : ∀ m : Elem, isBookMeta m = true → isArticleMeta m = false := by
  intro m h
  have ht : m.tag = "book-meta" := eq_of_beq h
  rw [isArticleMeta, ht]
  rfl

theorem frontInsertAt_zero (p : Elem → Bool) (root : Elem)
    (h : ∀ m, findFirstL p root.children = some m → hasNcesChild m = true) :
    frontInsertAt p root = (root, 0) := by
  rw [frontInsertAt]
  match hu : updFirstL p addNces root.children with
  | none => rfl
  | some (orig, cs) =>
    show (if hasNcesChild orig = true then (root, 0)
      else (root.withChildren cs, 1)) = (root, 0)
    rw [if_pos (h orig (updFirstL_some_find _ _ _ _ _ hu))]

theorem runFrontFix_eval_zero (r : Elem)
    (hart : ∀ m, findFirstL isArticleMeta r.children = some m →
      m.children.isEmpty = false → hasNcesChild m = true)
    (hbook : (findFirstL isArticleMeta r.children = none
        ∨ ∃ m, findFirstL isArticleMeta r.children = some m
            ∧ m.children.isEmpty = true) →
      ∀ b, findFirstL isBookMeta r.children = some b →
        hasNcesChild b = true) :
    runFrontFix r = (r, 0) := by
  rw [runFrontFix]
  match hA : findFirstL isArticleMeta r.children with
  | some m =>
    show (if m.children.isEmpty = true then frontInsertAt isBookMeta r
      else frontInsertAt isArticleMeta r) = (r, 0)
    by_cases hemp : m.children.isEmpty = true
    · rw [if_pos hemp]
      exact frontInsertAt_zero _ _ (hbook (Or.inr ⟨m, hA, hemp⟩))
    · rw [if_neg hemp]
      have hemp' : m.children.isEmpty = false := by
        revert hemp
        cases m.children.isEmpty <;> simp
      exact frontInsertAt_zero _ _ (fun m2 hm2 => by
        rw [hA] at hm2
        injection hm2 with hm2'
        subst hm2'
        exact hart m hA hemp')
  | none =>
    show frontInsertAt isBookMeta r = (r, 0)
    exact frontInsertAt_zero _ _ (hbook (Or.inl hA))

theorem updChildren_bold (p q : Elem → Bool) (hqn : q ncesElem = false)
    (root orig : Elem) (cs : List Elem)
    (hu : updFirstL p addNces root.children = some (orig, cs))
    (hbp : ∀ d ∈ root.iterL, d.tag = "bold" →
      ∀ z ∈ iterLs d.children, p z = false)
    (hbq : ∀ d ∈ root.iterL, d.tag = "bold" →
      ∀ z ∈ iterLs d.children, q z = false) :
    ∀ d ∈ (root.withChildren cs).iterL, d.tag = "bold" →
      ∀ z ∈ iterLs d.children, q z = false := by
  intro d hd
  rw [withChildren_iterL] at hd
  rcases List.mem_cons.mp hd with hd | hd
  · subst hd
    intro htb
    exfalso
    have horig := updFirstL_some_find p addNces root.children _ _ hu
    have hp0 : p orig = true := findFirst_pred p root.children orig horig
    have hmem : orig ∈ iterLs root.children :=
      findFirstL_mem p root.children orig horig
    have htb' : root.tag = "bold" := by
      rw [withChildren_tag] at htb
      exact htb
    have hfalse := hbp root (iterL_self root) htb' orig hmem
    rw [hp0] at hfalse
    cases hfalse
  · exact updFirst_addNces_bold p q hqn root.children _ _ hu
      (fun w hw => hbp w (mem_iterL_of_childE root hw))
      (fun w hw => hbq w (mem_iterL_of_childE root hw)) d hd

theorem updChildren_text (p : Elem → Bool) (root orig : Elem) (cs : List Elem)
    (hu : updFirstL p addNces root.children = some (orig, cs))
    (htx : ∀ z ∈ root.iterL, ∀ s, z.text = some s →
      pySubHyphen (pySubHyphen s) = pySubHyphen s) :
    ∀ z ∈ (root.withChildren cs).iterL, ∀ s, z.text = some s →
      pySubHyphen (pySubHyphen s) = pySubHyphen s := by
  intro z hz
  rw [withChildren_iterL] at hz
  rcases List.mem_cons.mp hz with hz | hz
  · subst hz
    intro s hs
    rw [withChildren_text] at hs
    exact htx root (iterL_self root) s hs
  · exact updFirst_addNces_text p root.children _ _ hu
      (fun w hw => htx w (mem_iterL_of_childE root hw)) z hz
theorem runFrontFix_stable (root : Elem)
    (hbA : ∀ d ∈ root.iterL, d.tag = "bold" →
      ∀ z ∈ iterLs d.children, isArticleMeta z = false)
    (hbB : ∀ d ∈ root.iterL, d.tag = "bold" →
      ∀ z ∈ iterLs d.children, isBookMeta z = false) :
    runFrontFix ((fixTree (runFrontFix root).1).1)
      = ((fixTree (runFrontFix root).1).1, 0) := by
  match hA : findFirstL isArticleMeta root.children with
  | some m0 =>
    have hm0tag : m0.tag = "article-meta" :=
      eq_of_beq (findFirst_pred _ _ _ hA)
    by_cases hemp : m0.children.isEmpty = true
    · have hrf : runFrontFix root = frontInsertAt isBookMeta root := by
        rw [runFrontFix, hA]
        show (if m0.children.isEmpty = true then frontInsertAt isBookMeta root
          else frontInsertAt isArticleMeta root) = _
        rw [if_pos hemp]
      match hu : updFirstL isBookMeta addNces root.children with
      | none =>
        have hgoal : (runFrontFix root).1 = root := by
          rw [hrf, frontInsertAt, hu]
        rw [hgoal]
        have hfA := findFirstL_fixTree_children isArticleMeta htagA hpbA rfl
          root hbA
        have hfB := findFirstL_fixTree_children isBookMeta htagB hpbB rfl
          root hbB
        rw [hA, Option.map_some'] at hfA
        rw [(updFirstL_none_iff isBookMeta addNces root.children).mp hu,
          Option.map_none'] at hfB
        apply runFrontFix_eval_zero
        · intro m hm hne
          rw [hfA] at hm
          injection hm with hm'
          subst hm'
          rw [children_isEmpty_fixTree m0 (Or.inl hm0tag), hemp] at hne
          cases hne
        · intro _ b hfb
          rw [hfB] at hfb
          cases hfb
      | some (b0, cs) =>
        have hfb0 := updFirstL_some_find isBookMeta addNces root.children _ _ hu
        have hb0tag : b0.tag = "book-meta" :=
          eq_of_beq (findFirst_pred _ _ _ hfb0)
        by_cases hnces : hasNcesChild b0 = true
        · have hgoal : (runFrontFix root).1 = root := by
            rw [hrf, frontInsertAt, hu]
            show (if hasNcesChild b0 = true then (root, 0)
              else (root.withChildren cs, 1)).1 = root
            rw [if_pos hnces]
          rw [hgoal]
          have hfA := findFirstL_fixTree_children isArticleMeta htagA hpbA rfl
            root hbA
          have hfB := findFirstL_fixTree_children isBookMeta htagB hpbB rfl
            root hbB
          rw [hA, Option.map_some'] at hfA
          rw [hfb0, Option.map_some'] at hfB
          apply runFrontFix_eval_zero
          · intro m hm hne
            rw [hfA] at hm
            injection hm with hm'
            subst hm'
            rw [children_isEmpty_fixTree m0 (Or.inl hm0tag), hemp] at hne
            cases hne
          · intro _ b hfb
            rw [hfB] at hfb
            injection hfb with hfb'
            subst hfb'
            rw [hasNces_fixTree b0 (Or.inr hb0tag)]
            exact hnces
        · have hgoal : (runFrontFix root).1 = root.withChildren cs := by
            rw [hrf, frontInsertAt, hu]
            show (if hasNcesChild b0 = true then (root, 0)
              else (root.withChildren cs, 1)).1 = root.withChildren cs
            rw [if_neg hnces]
          rw [hgoal]
          have hbA1 := updChildren_bold isBookMeta isArticleMeta rfl
            root b0 cs hu hbB hbA
          have hbB1 := updChildren_bold isBookMeta isBookMeta rfl
            root b0 cs hu hbB hbB
          have hfA := findFirstL_fixTree_children isArticleMeta htagA hpbA rfl
            (root.withChildren cs) hbA1
          have hfB := findFirstL_fixTree_children isBookMeta htagB hpbB rfl
            (root.withChildren cs) hbB1
          rw [withChildren_children] at hfA hfB
          have hother := updFirst_find_other isArticleMeta isBookMeta addNces
            htagA
            (fun m hm => findFirstE_addNces_other isArticleMeta htagA rfl m
              (pAofB m hm))
            root.children b0 cs hu
          obtain ⟨m', hm', htg', hln'⟩ := hother.2 m0 hA
          rw [hm', Option.map_some'] at hfA
          have hafter := updFirst_find_after isBookMeta addNces htagB hpfB
            root.children b0 cs hu
          rw [hafter, Option.map_some'] at hfB
          have hm'tag : m'.tag = "article-meta" := htg'.trans hm0tag
          have hm'emp : m'.children.isEmpty = true := by
            have h0 : m0.children = [] := List.isEmpty_iff.mp hemp
            rw [h0] at hln'
            have hnil : m'.children = [] := List.length_eq_zero.mp (by
              rw [hln']
              rfl)
            rw [hnil]
            rfl
          apply runFrontFix_eval_zero
          · intro m hm hne
            rw [hfA] at hm
            injection hm with hm2
            subst hm2
            rw [children_isEmpty_fixTree m' (Or.inl hm'tag), hm'emp] at hne
            cases hne
          · intro _ b hfb
            rw [hfB] at hfb
            injection hfb with hfb'
            subst hfb'
            rw [hasNces_fixTree (addNces b0)
              (Or.inr (by rw [addNces_tag]; exact hb0tag))]
            exact addNces_has b0
    · have hrf : runFrontFix root = frontInsertAt isArticleMeta root := by
        rw [runFrontFix, hA]
        show (if m0.children.isEmpty = true then frontInsertAt isBookMeta root
          else frontInsertAt isArticleMeta root) = _
        rw [if_neg hemp]
      obtain ⟨cs, hu⟩ :=
        (updFirst_corr isArticleMeta addNces root.children).2 m0 hA
      by_cases hnces : hasNcesChild m0 = true
      · have hgoal : (runFrontFix root).1 = root := by
          rw [hrf, frontInsertAt, hu]
          show (if hasNcesChild m0 = true then (root, 0)
            else (root.withChildren cs, 1)).1 = root
          rw [if_pos hnces]
        rw [hgoal]
        have hfA := findFirstL_fixTree_children isArticleMeta htagA hpbA rfl
          root hbA
        rw [hA, Option.map_some'] at hfA
        apply runFrontFix_eval_zero
        · intro m hm _
          rw [hfA] at hm
          injection hm with hm'
          subst hm'
          rw [hasNces_fixTree m0 (Or.inl hm0tag)]
          exact hnces
        · intro hdisj b hfb
          exfalso
          rcases hdisj with hd | ⟨m, hm, hmemp⟩
          · rw [hfA] at hd
            cases hd
          · rw [hfA] at hm
            injection hm with hm'
            subst hm'
            rw [children_isEmpty_fixTree m0 (Or.inl hm0tag)] at hmemp
            rw [hmemp] at hemp
            exact hemp rfl
      · have hgoal : (runFrontFix root).1 = root.withChildren cs := by
          rw [hrf, frontInsertAt, hu]
          show (if hasNcesChild m0 = true then (root, 0)
            else (root.withChildren cs, 1)).1 = root.withChildren cs
          rw [if_neg hnces]
        rw [hgoal]
        have hbA1 := updChildren_bold isArticleMeta isArticleMeta rfl
          root m0 cs hu hbA hbA
        have hfA := findFirstL_fixTree_children isArticleMeta htagA hpbA rfl
          (root.withChildren cs) hbA1
        rw [withChildren_children] at hfA
        have hafter := updFirst_find_after isArticleMeta addNces htagA hpfA
          root.children m0 cs hu
        rw [hafter, Option.map_some'] at hfA
        have hatag : (addNces m0).tag = "article-meta" := by
          rw [addNces_tag]
          exact hm0tag
        have hane : (addNces m0).children.isEmpty = false := by
          rw [addNces_children m0 hnces]
          rfl
        apply runFrontFix_eval_zero
        · intro m hm _
          rw [hfA] at hm
          injection hm with hm'
          subst hm'
          rw [hasNces_fixTree (addNces m0) (Or.inl hatag)]
          exact addNces_has m0
        · intro hdisj b hfb
          exfalso
          rcases hdisj with hd | ⟨m, hm, hmemp⟩
          · rw [hfA] at hd
            cases hd
          · rw [hfA] at hm
            injection hm with hm'
            subst hm'
            rw [children_isEmpty_fixTree (addNces m0) (Or.inl hatag),
              hane] at hmemp
            cases hmemp
  | none =>
    have hrf : runFrontFix root = frontInsertAt isBookMeta root := by
      rw [runFrontFix, hA]
    match hu : updFirstL isBookMeta addNces root.children with
    | none =>
      have hgoal : (runFrontFix root).1 = root := by
        rw [hrf, frontInsertAt, hu]
      rw [hgoal]
      have hfA := findFirstL_fixTree_children isArticleMeta htagA hpbA rfl
        root hbA
      have hfB := findFirstL_fixTree_children isBookMeta htagB hpbB rfl
        root hbB
      rw [hA, Option.map_none'] at hfA
      rw [(updFirstL_none_iff isBookMeta addNces root.children).mp hu,
        Option.map_none'] at hfB
      apply runFrontFix_eval_zero
      · intro m hm _
        rw [hfA] at hm
        cases hm
      · intro _ b hfb
        rw [hfB] at hfb
        cases hfb
    | some (b0, cs) =>
      have hfb0 := updFirstL_some_find isBookMeta addNces root.children _ _ hu
      have hb0tag : b0.tag = "book-meta" :=
        eq_of_beq (findFirst_pred _ _ _ hfb0)
      by_cases hnces : hasNcesChild b0 = true
      · have hgoal : (runFrontFix root).1 = root := by
          rw [hrf, frontInsertAt, hu]
          show (if hasNcesChild b0 = true then (root, 0)
            else (root.withChildren cs, 1)).1 = root
          rw [if_pos hnces]
        rw [hgoal]
        have hfA := findFirstL_fixTree_children isArticleMeta htagA hpbA rfl
          root hbA
        have hfB := findFirstL_fixTree_children isBookMeta htagB hpbB rfl
          root hbB
        rw [hA, Option.map_none'] at hfA
        rw [hfb0, Option.map_some'] at hfB
        apply runFrontFix_eval_zero
        · intro m hm _
          rw [hfA] at hm
          cases hm
        · intro _ b hfb
          rw [hfB] at hfb
          injection hfb with hfb'
          subst hfb'
          rw [hasNces_fixTree b0 (Or.inr hb0tag)]
          exact hnces
      · have hgoal : (runFrontFix root).1 = root.withChildren cs := by
          rw [hrf, frontInsertAt, hu]
          show (if hasNcesChild b0 = true then (root, 0)
            else (root.withChildren cs, 1)).1 = root.withChildren cs
          rw [if_neg hnces]
        rw [hgoal]
        have hbA1 := updChildren_bold isBookMeta isArticleMeta rfl
          root b0 cs hu hbB hbA
        have hbB1 := updChildren_bold isBookMeta isBookMeta rfl
          root b0 cs hu hbB hbB
        have hfA := findFirstL_fixTree_children isArticleMeta htagA hpbA rfl
          (root.withChildren cs) hbA1
        have hfB := findFirstL_fixTree_children isBookMeta htagB hpbB rfl
          (root.withChildren cs) hbB1
        rw [withChildren_children] at hfA hfB
        have hother := updFirst_find_other isArticleMeta isBookMeta addNces
          htagA
          (fun m hm => findFirstE_addNces_other isArticleMeta htagA rfl m
            (pAofB m hm))
          root.children b0 cs hu
        rw [hother.1 hA, Option.map_none'] at hfA
        have hafter := updFirst_find_after isBookMeta addNces htagB hpfB
          root.children b0 cs hu
        rw [hafter, Option.map_some'] at hfB
        apply runFrontFix_eval_zero
        · intro m hm _
          rw [hfA] at hm
          cases hm
        · intro _ b hfb
          rw [hfB] at hfb
          injection hfb with hfb'
          subst hfb'
          rw [hasNces_fixTree (addNces b0)
            (Or.inr (by rw [addNces_tag]; exact hb0tag))]
          exact addNces_has b0
theorem hyphenStable_texts (root : Elem) (h : hyphenStable root = true) :
    ∀ z ∈ root.iterL, ∀ s, z.text = some s →
      pySubHyphen (pySubHyphen s) = pySubHyphen s := by
  rw [hyphenStable] at h
  intro z hz s hs
  have h2 := List.all_eq_true.mp h z hz
  simp only at h2
  rw [hs] at h2
  exact eq_of_beq h2

theorem metaFreeBold_boldA (root : Elem) (h : metaFreeBold root = true) :
    ∀ d ∈ root.iterL, d.tag = "bold" →
      ∀ z ∈ iterLs d.children, isArticleMeta z = false := by
  rw [metaFreeBold] at h
  intro d hd htb z hz
  have h2 := List.all_eq_true.mp h d hd
  simp only at h2
  rw [Bool.or_eq_true] at h2
  rcases h2 with h2 | h2
  · rw [htb] at h2
    simp at h2
  · have h3 := List.all_eq_true.mp h2 z hz
    simp only at h3
    rw [Bool.and_eq_true] at h3
    have hne : z.tag ≠ "article-meta" := by simpa using h3.1
    exact beq_eq_false_iff_ne.mpr hne

theorem metaFreeBold_boldB (root : Elem) (h : metaFreeBold root = true) :
    ∀ d ∈ root.iterL, d.tag = "bold" →
      ∀ z ∈ iterLs d.children, isBookMeta z = false := by
  rw [metaFreeBold] at h
  intro d hd htb z hz
  have h2 := List.all_eq_true.mp h d hd
  simp only at h2
  rw [Bool.or_eq_true] at h2
  rcases h2 with h2 | h2
  · rw [htb] at h2
    simp at h2
  · have h3 := List.all_eq_true.mp h2 z hz
    simp only at h3
    rw [Bool.and_eq_true] at h3
    have hne : z.tag ≠ "book-meta" := by simpa using h3.2
    exact beq_eq_false_iff_ne.mpr hne

theorem frontInsertAt_text (p : Elem → Bool) (root : Elem)
    (htx : ∀ z ∈ root.iterL, ∀ s, z.text = some s →
      pySubHyphen (pySubHyphen s) = pySubHyphen s) :
    ∀ z ∈ ((frontInsertAt p root).1).iterL, ∀ s, z.text = some s →
      pySubHyphen (pySubHyphen s) = pySubHyphen s := by
  rw [frontInsertAt]
  match hu : updFirstL p addNces root.children with
  | none => exact htx
  | some (orig, cs) =>
    show ∀ z ∈ ((if hasNcesChild orig = true then (root, 0)
        else (root.withChildren cs, 1)).1).iterL, _
    by_cases hn : hasNcesChild orig = true
    · rw [if_pos hn]
      exact htx
    · rw [if_neg hn]
      exact updChildren_text p root orig cs hu htx

theorem runFrontFix_text (root : Elem)
    (htx : ∀ z ∈ root.iterL, ∀ s, z.text = some s →
      pySubHyphen (pySubHyphen s) = pySubHyphen s) :
    ∀ z ∈ ((runFrontFix root).1).iterL, ∀ s, z.text = some s →
      pySubHyphen (pySubHyphen s) = pySubHyphen s := by
  rw [runFrontFix]
  match hA : findFirstL isArticleMeta root.children with
  | some m =>
    show ∀ z ∈ ((if m.children.isEmpty = true then frontInsertAt isBookMeta root
        else frontInsertAt isArticleMeta root).1).iterL, _
    by_cases hemp : m.children.isEmpty = true
    · rw [if_pos hemp]
      exact frontInsertAt_text _ _ htx
    · rw [if_neg hemp]
      exact frontInsertAt_text _ _ htx
  | none =>
    exact frontInsertAt_text _ _ htx

/-- Counterexample to C2 as stated: on the tree whose root text carries the
chained soft-hyphen artifacts `a- b- c`, the first fixer pass rewrites the
text to `ab- c` (the substitution scan resumes after each replacement), so a
second complete pass still finds an artifact and applies one further fix. -/
theorem c2_counterexample :
    (runAemFixer ((runAemFixer
        (.mk "r" [] (some "a- b- c") [] none (some 1))).1)).2 = 1
    ∧ pySubHyphen "a- b- c" = "ab- c" := by
  exact ⟨rfl, rfl⟩

/-- C2 amended: the Auto-Fixer is idempotent on every tree whose direct
texts are stable under a second soft-hyphen substitution (no substitution
creates a fresh artifact) and in which no metadata element sits inside a
`bold` element (so the uniform-bold title fix cannot discard the metadata
the front-matter rule keys on): a second complete fixer pass returns the
first pass's tree unchanged with fix count zero. -/
theorem c2_fixer_idempotence :
    ∀ root : Elem, hyphenStable root = true → metaFreeBold root = true →
      runAemFixer ((runAemFixer root).1) = ((runAemFixer root).1, 0) := by
  intro root hhs hmfb
  have htex := hyphenStable_texts root hhs
  have hbA := metaFreeBold_boldA root hmfb
  have hbB := metaFreeBold_boldB root hmfb
  have hfront2 := runFrontFix_stable root hbA hbB
  have htex1 := runFrontFix_text root htex
  have htree2 := fixTree_stable_tree ((runFrontFix root).1) htex1
  show runAemFixer ((fixTree (runFrontFix root).1).1)
    = ((fixTree (runFrontFix root).1).1, 0)
  rw [runAemFixer]
  rw [hfront2]
  show ((fixTree ((fixTree (runFrontFix root).1).1)).1,
    0 + (fixTree ((fixTree (runFrontFix root).1).1)).2)
    = ((fixTree (runFrontFix root).1).1, 0)
  rw [htree2]
  rfl

/-- Witness for C2: a concrete stable tree satisfying both hypotheses on
which the amended idempotence theorem applies. -/
theorem c2_witness :
    hyphenStable (.mk "r" [] (some "hello world") [] none (some 1)) = true
    ∧ metaFreeBold (.mk "r" [] (some "hello world") [] none (some 1)) = true
    ∧ runAemFixer ((runAemFixer
        (.mk "r" [] (some "hello world") [] none (some 1))).1)
      = ((runAemFixer (.mk "r" [] (some "hello world") [] none (some 1))).1, 0) :=
  ⟨rfl, rfl, c2_fixer_idempotence _ rfl rfl⟩
